import Mathlib

/-!
The package processout/trader: multi-currency amounts.

A shallow embedding of `currency.go` and `amount.go`, together with the part of
`github.com/shopspring/decimal` that these two files call.

Conventions of the embedding
* A Go call either returns or panics: `Exec α`.
* A Go result pair `(*T, error)` is a pair `Option T × Option String`
  (`none` is `nil`); `(int, error)` is `Int × Option String`.
* The pointers stored in the fields of an `Amount`, a `Trader` and a `Currency`
  are taken non-nil.  The structs they point to are not written by the functions
  embedded here (`Round` replaces the `Value` pointer of its receiver, it does not
  write the decimal), so a pointer is represented by its pointee; a `*Currency`
  also carries its address, which is what pointer comparison looks at.
* Rates are decimals; a rate is positive exactly when its coefficient is, which
  is how the theorems state it.
* The exponent of a decimal is an `int32` in Go and an integer here.  `Decimal.Mul`
  panics, as in the library, when the sum of the two exponents is not an `int32`;
  the theorems that say that a product is returned state this condition
  (`isInt32`, `Amount.fits`), and `Valid_results` shows that the amounts returned
  carry decimals with an `int32` exponent.
-/

namespace trader

/-- Outcome of running a Go function: a normal return, or a run-time panic. -/
inductive Exec (α : Type) where
  | ret (v : α)
  | panic (msg : String)
deriving DecidableEq

/-- Sequencing of two Go calls: a panic of the first one propagates. -/
def Exec.bind {α β : Type} (x : Exec α) (f : α → Exec β) : Exec β :=
  match x with
  | .ret v => f v
  | .panic m => .panic m

/-! ## The decimal type (`github.com/shopspring/decimal`) -/

/-- An `int32` holds the integer `n`. -/
def isInt32 (n : Int) : Prop := -2147483648 ≤ n ∧ n ≤ 2147483647

instance (n : Int) : Decidable (isInt32 n) :=
  inferInstanceAs (Decidable (-2147483648 ≤ n ∧ n ≤ 2147483647))

/-- The type `decimal.Decimal`: the number `value * 10 ^ exp`, with an arbitrary-precision
coefficient (`*big.Int`).  The exponent is an `int32` in Go.  Here it is an integer, and a
decimal of Go is one whose exponent is an `int32` (`Decimal.Valid`); `Mul`, whose result has
the sum of two exponents, checks that this sum is an `int32` and panics otherwise, as the
library does. -/
structure Decimal where
  value : Int
  exp : Int
deriving DecidableEq

namespace Decimal

/-- The package variable `decimal.DivisionPrecision`. -/
def DivisionPrecision : Int := 16

/-- The decimals of Go: the exponent is an `int32`. -/
def Valid (d : Decimal) : Prop := isInt32 d.exp

/-- The number a decimal stands for. -/
def toRat (d : Decimal) : ℚ := (d.value : ℚ) * (10 : ℚ) ^ d.exp

/-- The function `Decimal.rescale`: the same number at another exponent; digits that do
not fit are cut off (`big.Int.Quo` truncates toward zero). -/
def rescale (d : Decimal) (exp : Int) : Decimal :=
  let diff := (exp - d.exp).natAbs
  let expScale : Int := 10 ^ diff
  if exp > d.exp then ⟨d.value.tdiv expScale, exp⟩
  else if exp < d.exp then ⟨d.value * expScale, exp⟩
  else ⟨d.value, exp⟩

/-- The function `Decimal.Add`. -/
def Add (d d2 : Decimal) : Decimal :=
  let baseScale := min d.exp d2.exp
  let rd := d.rescale baseScale
  let rd2 := d2.rescale baseScale
  ⟨rd.value + rd2.value, baseScale⟩

/-- The function `Decimal.Sub`. -/
def Sub (d d2 : Decimal) : Decimal :=
  let baseScale := min d.exp d2.exp
  let rd := d.rescale baseScale
  let rd2 := d2.rescale baseScale
  ⟨rd.value - rd2.value, baseScale⟩

/-- The message of the panic of `Mul`:
`fmt.Sprintf("exponent %v overflows an int32!", expInt64)`. -/
def expOverflow (expInt64 : Int) : String :=
  "exponent " ++ toString expInt64 ++ " overflows an int32!"

/-- The function `Decimal.Mul`: the sum of the two exponents is computed as an `int64`, and
the call panics when it is not an `int32`. -/
def Mul (d d2 : Decimal) : Exec Decimal :=
  let expInt64 := d.exp + d2.exp
  if expInt64 > 2147483647 ∨ expInt64 < -2147483648 then .panic (expOverflow expInt64)
  else .ret ⟨d.value * d2.value, expInt64⟩

/-- The decimal that `Mul` returns when it returns: the product of the coefficients, at the
sum of the exponents. -/
def product (d d2 : Decimal) : Decimal :=
  ⟨d.value * d2.value, d.exp + d2.exp⟩

/-- The method `big.Int.Cmp`: -1, 0 or +1. -/
def cmpInt (x y : Int) : Int :=
  if x < y then -1 else if x = y then 0 else 1

/-- The function `Decimal.Cmp`. -/
def Cmp (d d2 : Decimal) : Int :=
  if d.exp = d2.exp then cmpInt d.value d2.value
  else
    let baseExp := min d.exp d2.exp
    let rd := d.rescale baseExp
    let rd2 := d2.rescale baseExp
    cmpInt rd.value rd2.value

/-- The function `Decimal.Abs`. -/
def Abs (d : Decimal) : Decimal := ⟨|d.value|, d.exp⟩

/-- The function `Decimal.QuoRem`: quotient at exponent `-precision` and remainder, with
`d = d2 * q + r`; `big.Int.QuoRem` truncates toward zero.  Panics on a zero divisor. -/
def QuoRem (d d2 : Decimal) (precision : Int) : Exec (Decimal × Decimal) :=
  if d2.value = 0 then .panic "decimal division by 0"
  else
    let scale := -precision
    let e := d.exp - d2.exp - scale
    if e < 0 then
      let aa := d.value
      let bb := d2.value * 10 ^ (-e).toNat
      .ret (⟨aa.tdiv bb, scale⟩, ⟨aa.tmod bb, d.exp⟩)
    else
      let aa := d.value * 10 ^ e.toNat
      let bb := d2.value
      .ret (⟨aa.tdiv bb, scale⟩, ⟨aa.tmod bb, scale + d2.exp⟩)

/-- The function `Decimal.DivRound`: the quotient rounded to `precision` fractional digits,
halves away from zero. -/
def DivRound (d d2 : Decimal) (precision : Int) : Exec Decimal :=
  (d.QuoRem d2 precision).bind fun qr =>
    let q := qr.1
    let r := qr.2
    let r2 : Decimal := ⟨|r.value| * 2, r.exp + precision⟩
    let c := r2.Cmp d2.Abs
    if c < 0 then .ret q
    else if d.value.sign * d2.value.sign < 0 then .ret (q.Sub ⟨1, -precision⟩)
    else .ret (q.Add ⟨1, -precision⟩)

/-- The scaled dividend `aa` computed by `QuoRem`. -/
def scaledNum (d d2 : Decimal) (precision : Int) : Int :=
  if d.exp - d2.exp + precision < 0 then d.value
  else d.value * 10 ^ (d.exp - d2.exp + precision).toNat

/-- The scaled divisor `bb` computed by `QuoRem`. -/
def scaledDen (d d2 : Decimal) (precision : Int) : Int :=
  if d.exp - d2.exp + precision < 0 then d2.value * 10 ^ (-(d.exp - d2.exp + precision)).toNat
  else d2.value

/-- The coefficient that `DivRound` produces from the scaled dividend `A` and divisor `B`:
the truncated quotient, moved one unit away from zero when the remainder is at least
half the divisor. -/
def roundedQuot (A B : Int) : Int :=
  if |A.tmod B| * 2 < |B| then A.tdiv B
  else if A.sign * B.sign < 0 then A.tdiv B - 1
  else A.tdiv B + 1

/-- The function `Decimal.Div`: division at `DivisionPrecision` fractional digits.  Early
releases of the library compute the same decimal through `big.Rat.FloatString(16)`, which
also rounds halves away from zero and also panics on a zero divisor. -/
def Div (d d2 : Decimal) : Exec Decimal :=
  d.DivRound d2 DivisionPrecision

/-- The function `Decimal.Round`: rounds to `places` fractional digits, halves away from
zero (`big.Int.DivMod` is Euclidean division). -/
def Round (d : Decimal) (places : Int) : Decimal :=
  let ret := d.rescale (-places - 1)
  let v := if ret.value < 0 then ret.value - 5 else ret.value + 5
  let q := v / 10
  let m := v % 10
  let q1 := if q < 0 ∧ m ≠ 0 then q + 1 else q
  ⟨q1, ret.exp + 1⟩

/-- The call `decimal.NewFromFloat(math.Pow10(n))` for the `n` that `DecimalPlaces` returns
(0, 2, 3, 4): the float is the integer `10 ^ n`, which `NewFromFloat` turns into the
coefficient `10 ^ n` at exponent 0. -/
def NewFromFloatPow10 (n : Nat) : Decimal := ⟨10 ^ n, 0⟩

/-- The call `strconv.ParseInt(d.StringFixed(0), 10, 64)`: `StringFixed(0)` prints the
integer `d.Round(0)` in base 10 and `ParseInt` reads it back; the parse fails (returning 0)
when the integer is outside the int64 range. -/
def ParseIntStringFixed0 (d : Decimal) : Int × Option String :=
  let i := (d.Round 0).rescale 0 |>.value
  if -2 ^ 63 ≤ i ∧ i < 2 ^ 63 then (i, none)
  else (0, some "strconv.ParseInt: value out of range")

end Decimal

/-! ## currency.go -/

/-- The function `strings.ToUpper`, on the ASCII letters that currency codes are made of
(Go also maps the letters outside ASCII). -/
def ToUpper (s : String) : String := ⟨s.data.map Char.toUpper⟩

/-- A `*Currency`: the fields `Code` and `Value` of the struct it points to, and the
address `addr` of that struct. -/
structure Currency where
  addr : Nat
  Code : String
  Value : Decimal
deriving DecidableEq

/-- The function `NewCurrency`; `addr` is the address of the struct it allocates. -/
def NewCurrency (addr : Nat) (code : String) (v : Decimal) : Currency :=
  { addr := addr, Code := ToUpper code, Value := v }

/-- The type `Currencies`, a slice of `*Currency`. -/
abbrev Currencies := List Currency

/-- The method `Currency.Is`. -/
def Currency.Is (c : Currency) (code : String) : Bool :=
  decide (c.Code = ToUpper code)

/-- The method `Currencies.Find`. -/
def Currencies.Find : Currencies → String → Option Currency × Option String
  | [], code => (none, some ("The currency code " ++ code ++ " could not be found."))
  | v :: c, code => if v.Is code then (some v, none) else Currencies.Find c code

/-- The method `Currency.DecimalPlaces`. -/
def Currency.DecimalPlaces (c : Currency) : Nat :=
  if c.Code ∈ ["BIF", "BYR", "CLP", "DJF", "GNF", "ISK", "JPY", "KMF", "KRW",
      "XPF", "XOF", "XAF", "VUV", "VND", "UYI", "UGX", "RWF", "PYG"] then 0
  else if c.Code ∈ ["BHD", "IQD", "JOD", "KWD", "LYD", "TND", "OMR"] then 3
  else if c.Code = "CLF" then 4
  else 2

/-! ## Equality of registries -/

/-- A value of the slice type `Currencies` as `Equals` sees it: the nil slice, or a slice
given by the address `data` of its first element and by its entries. -/
inductive CurrenciesSlice where
  | nil
  | slice (data : Nat) (entries : Currencies)
deriving DecidableEq

/-- The entries a `range` loop goes through; a nil slice has none. -/
def CurrenciesSlice.entries : CurrenciesSlice → Currencies
  | .nil => []
  | .slice _ es => es

/-- The test `c == nil`. -/
def CurrenciesSlice.isNil : CurrenciesSlice → Bool
  | .nil => true
  | .slice _ _ => false

/-- The test `c == c2` of `Equals`, read as the spec reads it: the two slice values are
the identical reference, that is both are nil, or both start at the same address and have
the same length.  (Go itself compares a slice with `nil` only.) -/
def CurrenciesSlice.same : CurrenciesSlice → CurrenciesSlice → Bool
  | .nil, .nil => true
  | .slice p es, .slice p2 es2 => decide (p = p2 ∧ es.length = es2.length)
  | _, _ => false

/-- The inner loop of `Equals`: the value of `found` after ranging over `c2`; the entries
are pointers, compared by address. -/
def foundIn (v : Currency) : Currencies → Bool
  | [] => false
  | v2 :: c2 => if v.addr = v2.addr then true else foundIn v c2

/-- The outer loop of `Equals`, followed by the closing `return true`. -/
def allFound : Currencies → Currencies → Bool
  | [], _ => true
  | v :: c, c2 => if !foundIn v c2 then false else allFound c c2

/-- The method `Currencies.Equals`. -/
def Currencies.Equals (c c2 : CurrenciesSlice) : Bool :=
  if c.same c2 then true
  else if c.isNil || c2.isNil then false
  else allFound c.entries c2.entries

/-! ## The rate context -/

/-- Modelled from the spec: the struct `Trader` (the Rate Context), whose declaration is
not among the sources.  It binds a registry to the entry designated as base currency;
`amount.go` reads exactly these two fields. -/
structure Trader where
  Currencies : Currencies
  BaseCurrency : Currency
deriving DecidableEq

/-- Modelled from the spec: the constructor `New` of a Rate Context, which is not among
the sources: it resolves the base code against the registry, fails if it is absent, and
otherwise pairs the registry with the resolved entry. -/
def New (c : Currencies) (code : String) : Option Trader × Option String :=
  match c.Find code with
  | (some b, none) => (some { Currencies := c, BaseCurrency := b }, none)
  | (_, err) => (none, err)

/-! ## amount.go -/

/-- The struct `Amount`. -/
structure Amount where
  Trader : Trader
  Value : Decimal
  Currency : Currency
deriving DecidableEq

/-- The method `Trader.NewAmount`. -/
def Trader.NewAmount (t : Trader) (d : Decimal) (code : String) :
    Option Amount × Option String :=
  match t.Currencies.Find code with
  | (_, some err) => (none, some err)
  | (some c, none) => (some { Trader := t, Value := d, Currency := c }, none)
  | (none, none) => (none, none) -- not reached: `Find` returns a currency or an error

namespace Amount

/-- The method `Amount.BaseCurrencyValue`. -/
def BaseCurrencyValue (a : Amount) : Exec Decimal :=
  if a.Currency.Is a.Trader.BaseCurrency.Code then .ret a.Value
  else a.Value.Div a.Currency.Value

/-- The method `Amount.BaseCurrencyAmount`; the error of `NewAmount` is dropped. -/
def BaseCurrencyAmount (a : Amount) : Exec (Option Amount) :=
  if a.Currency.Is a.Trader.BaseCurrency.Code then .ret (some a)
  else
    (a.Value.Div a.Currency.Value).bind fun v =>
      .ret (a.Trader.NewAmount v a.Trader.BaseCurrency.Code).1

/-- The method `Amount.ToCurrency`.  Reading `b.Currency` through a nil `b` panics. -/
def ToCurrency (a : Amount) (code : String) : Exec (Option Amount × Option String) :=
  if a.Currency.Is code then .ret (some a, none)
  else
    a.BaseCurrencyAmount.bind fun b? =>
      match b? with
      | none => .panic "nil pointer dereference"
      | some b =>
        if b.Currency.Is code then .ret (some b, none)
        else
          match a.Trader.Currencies.Find code with
          | (_, some err) => .ret (none, some err)
          | (none, none) => .panic "nil pointer dereference"
          | (some c, none) =>
            (b.Value.Mul c.Value).bind fun v => .ret (a.Trader.NewAmount v code)

/-- A base-currency value `c` expressed in the currency of `a`: `c` itself when `a` is in
the base currency, the product of `c` and the rate of the currency of `a` otherwise. -/
def fromBase (a : Amount) (c : Decimal) : Decimal :=
  if a.Currency.Is a.Trader.BaseCurrency.Code = true then c else c.product a.Currency.Value

/-- The base-currency value `c` can be expressed in the currency of `a`: `a` is in the base
currency, where nothing is multiplied, or the exponent of the product of `c` and the rate of
the currency of `a` is an `int32`, so that `Mul` returns this product. -/
def fits (a : Amount) (c : Decimal) : Prop :=
  a.Currency.Is a.Trader.BaseCurrency.Code = true ∨ isInt32 (c.exp + a.Currency.Value.exp)

instance (a : Amount) (c : Decimal) : Decidable (a.fits c) :=
  inferInstanceAs (Decidable (a.Currency.Is a.Trader.BaseCurrency.Code = true ∨
    isInt32 (c.exp + a.Currency.Value.exp)))

/-- The error built by `fmt.Errorf` when the base currencies differ. -/
def baseMismatch (a b : Amount) : String :=
  "The base currency of a and b differ: " ++ a.Trader.BaseCurrency.Code ++ " & " ++
    b.Trader.BaseCurrency.Code

/-- The two closing statements shared by `Add`, `Sub`, `Mul` and `Div`:
`n, _ := a.Trader.NewAmount(&c, a.Trader.BaseCurrency.Code)` followed by
`return n.ToCurrency(a.Currency.Code)`, which panics when `n` is nil. -/
def inReceiverCurrency (a : Amount) (c : Decimal) : Exec (Option Amount × Option String) :=
  match (a.Trader.NewAmount c a.Trader.BaseCurrency.Code).1 with
  | none => .panic "nil pointer dereference"
  | some n => n.ToCurrency a.Currency.Code

/-- The method `Amount.Add`. -/
def Add (a b : Amount) : Exec (Option Amount × Option String) :=
  if a.Trader.BaseCurrency.Code ≠ b.Trader.BaseCurrency.Code then
    .ret (none, some (baseMismatch a b))
  else
    a.BaseCurrencyValue.bind fun x =>
    b.BaseCurrencyValue.bind fun y =>
    a.inReceiverCurrency (x.Add y)

/-- The method `Amount.Sub`. -/
def Sub (a b : Amount) : Exec (Option Amount × Option String) :=
  if a.Trader.BaseCurrency.Code ≠ b.Trader.BaseCurrency.Code then
    .ret (none, some (baseMismatch a b))
  else
    a.BaseCurrencyValue.bind fun x =>
    b.BaseCurrencyValue.bind fun y =>
    a.inReceiverCurrency (x.Sub y)

/-- The method `Amount.Mul`. -/
def Mul (a b : Amount) : Exec (Option Amount × Option String) :=
  if a.Trader.BaseCurrency.Code ≠ b.Trader.BaseCurrency.Code then
    .ret (none, some (baseMismatch a b))
  else
    a.BaseCurrencyValue.bind fun x =>
    b.BaseCurrencyValue.bind fun y =>
    (x.Mul y).bind fun c =>
    a.inReceiverCurrency c

/-- The method `Amount.Div`. -/
def Div (a b : Amount) : Exec (Option Amount × Option String) :=
  if a.Trader.BaseCurrency.Code ≠ b.Trader.BaseCurrency.Code then
    .ret (none, some (baseMismatch a b))
  else
    a.BaseCurrencyValue.bind fun x =>
    b.BaseCurrencyValue.bind fun y =>
    (x.Div y).bind fun c =>
    a.inReceiverCurrency c

/-- The method `Amount.Cmp`. -/
def Cmp (a b : Amount) : Exec (Int × Option String) :=
  if a.Trader.BaseCurrency.Code ≠ b.Trader.BaseCurrency.Code then
    .ret (0, some (baseMismatch a b))
  else
    a.BaseCurrencyValue.bind fun x =>
    b.BaseCurrencyValue.bind fun y =>
    .ret (x.Cmp y, none)

/-- The method `Amount.Round`: the receiver with its value replaced. -/
def Round (a : Amount) (places : Int) : Amount :=
  { a with Value := a.Value.Round places }

/-- The method `Amount.Int64`.  The call `a.Trader.NewAmountFromFloat(mulF, code)` is
`NewAmount` on `decimal.NewFromFloat(mulF)`, with `mulF = math.Pow10(DecimalPlaces())`. -/
def Int64 (a : Amount) : Exec (Int × Option String) :=
  let mulF := a.Currency.DecimalPlaces
  match a.Trader.NewAmount (Decimal.NewFromFloatPow10 mulF) a.Currency.Code with
  | (_, some err) => .ret (0, some err)
  | (none, none) => .panic "nil pointer dereference"
  | (some factor, none) =>
    (a.Mul factor).bind fun r =>
      match r with
      | (_, some err) => .ret (0, some err)
      | (none, none) => .panic "nil pointer dereference"
      | (some newAmount, none) =>
        .ret (newAmount.Round 0).Value.ParseIntStringFixed0

end Amount

/-! ## Rendering of decimals -/

namespace Decimal

/-- The function `Decimal.string(false)`: the digits of the coefficient with the decimal
point put in, zeros filled in after the point when the digits are too few. -/
def string (d : Decimal) : String :=
  if d.exp ≥ 0 then toString (d.rescale 0).value
  else
    let str := toString d.value.natAbs
    let n := (-d.exp).toNat
    let intPart := if str.length > n then str.take (str.length - n) else "0"
    let fractionalPart :=
      if str.length > n then str.drop (str.length - n)
      else String.mk (List.replicate (n - str.length) '0') ++ str
    let number :=
      if fractionalPart.length > 0 then intPart ++ "." ++ fractionalPart else intPart
    if d.value < 0 then "-" ++ number else number

/-- The function `Decimal.StringFixed`. -/
def StringFixed (d : Decimal) (places : Int) : String :=
  (d.Round places).string

end Decimal

/-- The method `Amount.String` (the name `String` stays with the type of strings). -/
def AmountString (a : Amount) (decimals : Int) : String :=
  a.Value.StringFixed decimals

/-! ## amount.go, with the amounts in memory -/

/-- The memory that holds the `Amount` structs: the struct at address `p` is `h[p]?`.
Traders, currencies and decimals are not written by `amount.go` and stay values. -/
abbrev Heap := List Amount

/-- Every struct of `h` is at the same address, with the same three fields, in `h1`. -/
def Heap.preserved (h h1 : Heap) : Prop :=
  ∀ (p : Nat) (a : Amount), h[p]? = some a → h1[p]? = some a

namespace Mem

/-- The method `Trader.NewAmount`: `&Amount{...}` is a new struct in memory. -/
def NewAmount (h : Heap) (t : Trader) (d : Decimal) (code : String) :
    Heap × (Option Nat × Option String) :=
  match t.Currencies.Find code with
  | (_, some err) => (h, (none, some err))
  | (some c, none) => (h ++ [{ Trader := t, Value := d, Currency := c }], (some h.length, none))
  | (none, none) => (h, (none, none)) -- not reached: `Find` returns a currency or an error

/-- The method `Amount.BaseCurrencyValue`; its receiver `a` is a copy of the caller's
struct, and it writes nothing. -/
def BaseCurrencyValue (h : Heap) (a : Amount) : Exec (Heap × Decimal) :=
  if a.Currency.Is a.Trader.BaseCurrency.Code then .ret (h, a.Value)
  else (a.Value.Div a.Currency.Value).bind fun v => .ret (h, v)

/-- The method `Amount.BaseCurrencyAmount`; `return &a` moves the copy `a` that the
method received to a new struct in memory. -/
def BaseCurrencyAmount (h : Heap) (a : Amount) : Exec (Heap × Option Nat) :=
  if a.Currency.Is a.Trader.BaseCurrency.Code then .ret (h ++ [a], some h.length)
  else
    (a.Value.Div a.Currency.Value).bind fun v =>
      let r := NewAmount h a.Trader v a.Trader.BaseCurrency.Code
      .ret (r.1, r.2.1)

/-- The method `Amount.ToCurrency`. -/
def ToCurrency (h : Heap) (a : Amount) (code : String) :
    Exec (Heap × (Option Nat × Option String)) :=
  if a.Currency.Is code then .ret (h ++ [a], (some h.length, none))
  else
    (BaseCurrencyAmount h a).bind fun hb =>
      match hb.2 with
      | none => .panic "nil pointer dereference"
      | some pb =>
        match hb.1[pb]? with
        | none => .panic "nil pointer dereference"
        | some b =>
          if b.Currency.Is code then .ret (hb.1, (some pb, none))
          else
            match a.Trader.Currencies.Find code with
            | (_, some err) => .ret (hb.1, (none, some err))
            | (none, none) => .panic "nil pointer dereference"
            | (some c, none) =>
              (b.Value.Mul c.Value).bind fun v => .ret (NewAmount hb.1 a.Trader v code)

/-- The two closing statements shared by `Add`, `Sub`, `Mul` and `Div`. -/
def inReceiverCurrency (h : Heap) (a : Amount) (c : Decimal) :
    Exec (Heap × (Option Nat × Option String)) :=
  let r := NewAmount h a.Trader c a.Trader.BaseCurrency.Code
  match r.2.1 with
  | none => .panic "nil pointer dereference"
  | some pn =>
    match r.1[pn]? with
    | none => .panic "nil pointer dereference"
    | some n => ToCurrency r.1 n a.Currency.Code

/-- The method `Amount.Add`, called on a copy `a` of the receiver with the pointer `pb`. -/
def Add (h : Heap) (a : Amount) (pb : Nat) : Exec (Heap × (Option Nat × Option String)) :=
  match h[pb]? with
  | none => .panic "nil pointer dereference"
  | some b =>
    if a.Trader.BaseCurrency.Code ≠ b.Trader.BaseCurrency.Code then
      .ret (h, (none, some (Amount.baseMismatch a b)))
    else
      (BaseCurrencyValue h a).bind fun x =>
      (BaseCurrencyValue x.1 b).bind fun y =>
      inReceiverCurrency y.1 a (x.2.Add y.2)

/-- The method `Amount.Sub`. -/
def Sub (h : Heap) (a : Amount) (pb : Nat) : Exec (Heap × (Option Nat × Option String)) :=
  match h[pb]? with
  | none => .panic "nil pointer dereference"
  | some b =>
    if a.Trader.BaseCurrency.Code ≠ b.Trader.BaseCurrency.Code then
      .ret (h, (none, some (Amount.baseMismatch a b)))
    else
      (BaseCurrencyValue h a).bind fun x =>
      (BaseCurrencyValue x.1 b).bind fun y =>
      inReceiverCurrency y.1 a (x.2.Sub y.2)

/-- The method `Amount.Mul`. -/
def Mul (h : Heap) (a : Amount) (pb : Nat) : Exec (Heap × (Option Nat × Option String)) :=
  match h[pb]? with
  | none => .panic "nil pointer dereference"
  | some b =>
    if a.Trader.BaseCurrency.Code ≠ b.Trader.BaseCurrency.Code then
      .ret (h, (none, some (Amount.baseMismatch a b)))
    else
      (BaseCurrencyValue h a).bind fun x =>
      (BaseCurrencyValue x.1 b).bind fun y =>
      (x.2.Mul y.2).bind fun c =>
      inReceiverCurrency y.1 a c

/-- The method `Amount.Div`. -/
def Div (h : Heap) (a : Amount) (pb : Nat) : Exec (Heap × (Option Nat × Option String)) :=
  match h[pb]? with
  | none => .panic "nil pointer dereference"
  | some b =>
    if a.Trader.BaseCurrency.Code ≠ b.Trader.BaseCurrency.Code then
      .ret (h, (none, some (Amount.baseMismatch a b)))
    else
      (BaseCurrencyValue h a).bind fun x =>
      (BaseCurrencyValue x.1 b).bind fun y =>
      (x.2.Div y.2).bind fun c =>
      inReceiverCurrency y.1 a c

/-- The method `Amount.Cmp`, whose receiver is the pointer `pa`. -/
def Cmp (h : Heap) (pa pb : Nat) : Exec (Heap × (Int × Option String)) :=
  match h[pa]?, h[pb]? with
  | some a, some b =>
    if a.Trader.BaseCurrency.Code ≠ b.Trader.BaseCurrency.Code then
      .ret (h, (0, some (Amount.baseMismatch a b)))
    else
      (BaseCurrencyValue h a).bind fun x =>
      (BaseCurrencyValue x.1 b).bind fun y =>
      .ret (y.1, (x.2.Cmp y.2, none))
  | _, _ => .panic "nil pointer dereference"

/-- The method `Amount.Round`, whose receiver is the pointer `pa`: the one assignment of
`amount.go` to a field of a struct in memory, `a.Value = &rounded`. -/
def Round (h : Heap) (pa : Nat) (places : Int) : Exec Heap :=
  match h[pa]? with
  | none => .panic "nil pointer dereference"
  | some a => .ret (h.set pa { a with Value := a.Value.Round places })

/-- The method `Amount.Int64`, whose receiver is the pointer `pa`. -/
def Int64 (h : Heap) (pa : Nat) : Exec (Heap × (Int × Option String)) :=
  match h[pa]? with
  | none => .panic "nil pointer dereference"
  | some a =>
    let mulF := a.Currency.DecimalPlaces
    let f := NewAmount h a.Trader (Decimal.NewFromFloatPow10 mulF) a.Currency.Code
    match f.2 with
    | (_, some err) => .ret (f.1, (0, some err))
    | (none, none) => .panic "nil pointer dereference"
    | (some factor, none) =>
      (Mul f.1 a factor).bind fun r =>
        match r.2 with
        | (_, some err) => .ret (r.1, (0, some err))
        | (none, none) => .panic "nil pointer dereference"
        | (some newAmount, none) =>
          (Round r.1 newAmount 0).bind fun h3 =>
            match h3[newAmount]? with
            | none => .panic "nil pointer dereference"
            | some n => .ret (h3, n.Value.ParseIntStringFixed0)

/-- The method `Amount.String`, which writes nothing. -/
def AmountString (h : Heap) (a : Amount) (decimals : Int) : Exec (Heap × String) :=
  .ret (h, a.Value.StringFixed decimals)

/-- The result of a method that returns `(*Amount, error)`, with the pointer replaced by
the struct it points to. -/
def deref (r : Exec (Heap × (Option Nat × Option String))) :
    Exec (Option Amount × Option String) :=
  match r with
  | .panic m => .panic m
  | .ret (h1, (p?, e)) => .ret (p?.bind fun p => h1[p]?, e)

/-- A method that returns `(*Amount, error)` allocates only: the memory it returns extends
the memory it was given, and the pointer it returns is to one of the new structs. -/
def allocates (h : Heap) (r : Exec (Heap × (Option Nat × Option String))) : Prop :=
  ∀ h1 p? e, r = .ret (h1, (p?, e)) →
    (∃ l, h1 = h ++ l) ∧ ∀ p, p? = some p → h.length ≤ p ∧ p < h1.length

end Mem

/-! ## Well-formed amounts -/

/-- The well-formedness of an amount `r` with respect to a context `t`: the context of `r`
is `t`, and the currency of `r` is an entry of the registry of `t`, the one that `Find`
returns for its code. -/
def Amount.WellFormed (t : trader.Trader) (r : Amount) : Prop :=
  r.Trader = t ∧ r.Currency ∈ t.Currencies ∧
    t.Currencies.Find r.Currency.Code = (some r.Currency, none)

/-! ## Concrete rate contexts of the test-suite -/

/-- The decimal `1`. -/
def dec1 : Decimal := ⟨1, 0⟩

/-- The decimal `0.8`. -/
def dec08 : Decimal := ⟨8, -1⟩

/-- The registry of `getTrader`: USD at 1 and EUR at 0.8. -/
def testCurrencies : Currencies :=
  [NewCurrency 1 "USD" dec1, NewCurrency 2 "EUR" dec08]

/-- The context of `getTrader`, with base USD. -/
def testTrader : Trader :=
  { Currencies := testCurrencies, BaseCurrency := NewCurrency 1 "USD" dec1 }

/-- The registry of `getTrader2`: USD at 1 and BAD at 0.8. -/
def testCurrencies2 : Currencies :=
  [NewCurrency 3 "USD" dec1, NewCurrency 4 "BAD" dec08]

/-- The context of `getTrader2`, with base BAD. -/
def testTrader2 : Trader :=
  { Currencies := testCurrencies2, BaseCurrency := NewCurrency 4 "BAD" dec08 }

/-- An amount of the first test context. -/
def usd (value exp : Int) : Amount :=
  { Trader := testTrader, Value := ⟨value, exp⟩, Currency := NewCurrency 1 "USD" dec1 }

/-- An amount of the first test context. -/
def eur (value exp : Int) : Amount :=
  { Trader := testTrader, Value := ⟨value, exp⟩, Currency := NewCurrency 2 "EUR" dec08 }

/-- An amount of the second test context, whose base currency is BAD. -/
def bad (value exp : Int) : Amount :=
  { Trader := testTrader2, Value := ⟨value, exp⟩, Currency := NewCurrency 4 "BAD" dec08 }

/-- The decimal `0.5`. -/
def dec05 : Decimal := ⟨5, -1⟩

/-- A third context, with the same base code as the first one: USD at 1 and GBP at 0.5,
base USD. -/
def testTrader3 : Trader :=
  { Currencies := [NewCurrency 5 "USD" dec1, NewCurrency 6 "GBP" dec05],
    BaseCurrency := NewCurrency 5 "USD" dec1 }

/-- An amount of the third context. -/
def gbp (value exp : Int) : Amount :=
  { Trader := testTrader3, Value := ⟨value, exp⟩, Currency := NewCurrency 6 "GBP" dec05 }

/-- The decimal `10 ^ (-2147483640)`: a positive number, whose exponent is an `int32` within
16 of the smallest one. -/
def decTiny : Decimal := ⟨1, -2147483640⟩

/-- A fourth context: USD at 1 and XTS at `10 ^ (-2147483640)`, base USD. -/
def testTrader4 : Trader :=
  { Currencies := [NewCurrency 7 "USD" dec1, NewCurrency 8 "XTS" decTiny],
    BaseCurrency := NewCurrency 7 "USD" dec1 }

/-- An amount of the fourth context. -/
def xts (value exp : Int) : Amount :=
  { Trader := testTrader4, Value := ⟨value, exp⟩, Currency := NewCurrency 8 "XTS" decTiny }

end trader

/-! ## Lemmas on decimal arithmetic -/

namespace trader
namespace Decimal

theorem rescale_exp (d : Decimal) (e : Int) : (d.rescale e).exp = e := by
  unfold rescale
  split_ifs <;> rfl

/-- Rescaling to a smaller (or equal) exponent keeps the number. -/
theorem toRat_rescale_of_le (d : Decimal) (e : Int) (h : e ≤ d.exp) :
    (d.rescale e).toRat = d.toRat := by
  unfold rescale
  have h1 : ¬ e > d.exp := not_lt.mpr h
  simp only [h1, if_false]
  split_ifs with h2
  · obtain ⟨n, hn⟩ := Int.eq_ofNat_of_zero_le (show 0 ≤ d.exp - e by omega)
    have hd : d.exp = e + n := by omega
    have hna : (e - d.exp).natAbs = n := by omega
    simp only [toRat, hna]
    rw [hd]
    push_cast
    rw [zpow_add₀ (by norm_num : (10 : ℚ) ≠ 0), zpow_natCast]
    ring
  · have : e = d.exp := by omega
    simp [toRat, this]

theorem toRat_Add (d d2 : Decimal) : (d.Add d2).toRat = d.toRat + d2.toRat := by
  have h1 := toRat_rescale_of_le d (min d.exp d2.exp) (min_le_left _ _)
  have h2 := toRat_rescale_of_le d2 (min d.exp d2.exp) (min_le_right _ _)
  simp only [toRat, rescale_exp] at h1 h2
  simp only [Add, toRat]
  push_cast
  rw [add_mul, h1, h2]

theorem toRat_Sub (d d2 : Decimal) : (d.Sub d2).toRat = d.toRat - d2.toRat := by
  have h1 := toRat_rescale_of_le d (min d.exp d2.exp) (min_le_left _ _)
  have h2 := toRat_rescale_of_le d2 (min d.exp d2.exp) (min_le_right _ _)
  simp only [toRat, rescale_exp] at h1 h2
  simp only [Sub, toRat]
  push_cast
  rw [sub_mul, h1, h2]

theorem toRat_product (d d2 : Decimal) : (d.product d2).toRat = d.toRat * d2.toRat := by
  simp only [product, toRat]
  push_cast
  rw [zpow_add₀ (by norm_num : (10 : ℚ) ≠ 0)]
  ring

/-- When the sum of the exponents is an `int32`, `Mul` returns the product. -/
theorem Mul_of_isInt32 (d d2 : Decimal) (h : isInt32 (d.exp + d2.exp)) :
    d.Mul d2 = .ret (d.product d2) := by
  unfold isInt32 at h
  have hn : ¬ (d.exp + d2.exp > 2147483647 ∨ d.exp + d2.exp < -2147483648) := by omega
  simp only [Mul, product, if_neg hn]

/-- When the sum of the exponents is not an `int32`, `Mul` panics. -/
theorem Mul_overflow (d d2 : Decimal) (h : ¬ isInt32 (d.exp + d2.exp)) :
    d.Mul d2 = .panic (expOverflow (d.exp + d2.exp)) := by
  unfold isInt32 at h
  have hn : d.exp + d2.exp > 2147483647 ∨ d.exp + d2.exp < -2147483648 := by omega
  simp only [Mul, if_pos hn]

/-- What `Mul` returns is the product, and its exponent is an `int32`. -/
theorem Mul_ret (d d2 p : Decimal) (h : d.Mul d2 = .ret p) :
    isInt32 (d.exp + d2.exp) ∧ p = d.product d2 ∧ p.Valid := by
  by_cases hi : isInt32 (d.exp + d2.exp)
  · rw [Mul_of_isInt32 d d2 hi] at h
    cases h
    exact ⟨hi, rfl, hi⟩
  · rw [Mul_overflow d d2 hi] at h
    cases h

/-- The sum and the difference of two decimals of Go are decimals of Go. -/
theorem Add_Sub_Valid (d d2 : Decimal) (h : d.Valid) (h2 : d2.Valid) :
    (d.Add d2).Valid ∧ (d.Sub d2).Valid := by
  unfold Valid isInt32 at *
  simp only [Add, Sub]
  omega

theorem ten_zpow_pos (e : Int) : (0 : ℚ) < (10 : ℚ) ^ e := zpow_pos (by norm_num) e

theorem toRat_pos_iff (d : Decimal) : 0 < d.toRat ↔ 0 < d.value := by
  unfold toRat
  rw [mul_pos_iff_of_pos_right (ten_zpow_pos _)]
  exact Int.cast_pos

theorem toRat_eq_zero_iff (d : Decimal) : d.toRat = 0 ↔ d.value = 0 := by
  unfold toRat
  have := (ten_zpow_pos d.exp).ne'
  simp [this]

theorem cmpInt_neg_iff (x y : Int) : cmpInt x y < 0 ↔ x < y := by
  unfold cmpInt
  split_ifs <;> omega

theorem cmpInt_eq_zero_iff (x y : Int) : cmpInt x y = 0 ↔ x = y := by
  unfold cmpInt
  split_ifs with h1 h2
  · have : x ≠ y := by omega
    simp [this]
  · simp [h2]
  · simp [h2]

theorem cmpInt_pos_iff (x y : Int) : 0 < cmpInt x y ↔ y < x := by
  unfold cmpInt
  split_ifs with h1 h2
  · constructor
    · intro h; omega
    · intro h; omega
  · constructor
    · intro h; omega
    · intro h; omega
  · constructor
    · intro h; omega
    · intro h; omega

/-- `Cmp` compares the coefficients of the two numbers brought to the smaller exponent. -/
theorem Cmp_eq (d d2 : Decimal) :
    d.Cmp d2 = cmpInt (d.rescale (min d.exp d2.exp)).value (d2.rescale (min d.exp d2.exp)).value := by
  unfold Cmp
  split_ifs with h
  · simp [rescale, h]
  · rfl

theorem lt_iff_rescale (d d2 : Decimal) :
    d.toRat < d2.toRat ↔
      (d.rescale (min d.exp d2.exp)).value < (d2.rescale (min d.exp d2.exp)).value := by
  have h1 := toRat_rescale_of_le d (min d.exp d2.exp) (min_le_left _ _)
  have h2 := toRat_rescale_of_le d2 (min d.exp d2.exp) (min_le_right _ _)
  rw [← h1, ← h2]
  simp only [toRat, rescale_exp]
  rw [mul_lt_mul_right (ten_zpow_pos _)]
  exact Int.cast_lt

theorem Cmp_neg_iff (d d2 : Decimal) : d.Cmp d2 < 0 ↔ d.toRat < d2.toRat := by
  rw [Cmp_eq, cmpInt_neg_iff, lt_iff_rescale]

theorem Cmp_pos_iff (d d2 : Decimal) : 0 < d.Cmp d2 ↔ d2.toRat < d.toRat := by
  rw [Cmp_eq, cmpInt_pos_iff, lt_iff_rescale d2 d, min_comm]

theorem Cmp_eq_zero_iff (d d2 : Decimal) : d.Cmp d2 = 0 ↔ d.toRat = d2.toRat := by
  have h1 := Cmp_neg_iff d d2
  have h2 := Cmp_pos_iff d d2
  constructor
  · intro h
    rw [h] at h1 h2
    simp only [lt_irrefl, false_iff, not_lt] at h1 h2
    exact le_antisymm h2 h1
  · intro h
    rw [h] at h1 h2
    simp only [lt_irrefl, iff_false, not_lt] at h1 h2
    omega

end Decimal
end trader

/-! ## Lemmas on truncated division and rounding -/

namespace trader
namespace Decimal

theorem neg_tmod_eq (a b : Int) : (-a).tmod b = -(a.tmod b) := by
  rw [Int.tmod_def, Int.tmod_def, Int.neg_tdiv]
  ring

/-- The remainder of truncated division is smaller than the divisor and has the sign of
the dividend. -/
theorem tmod_bounds (a b : Int) (hb : b ≠ 0) :
    |a.tmod b| < |b| ∧ (0 ≤ a → 0 ≤ a.tmod b) ∧ (a ≤ 0 → a.tmod b ≤ 0) := by
  have key : ∀ x y : Int, 0 ≤ x → 0 < y → 0 ≤ x.tmod y ∧ x.tmod y < y := fun x y hx hy =>
    ⟨Int.tmod_nonneg y hx, Int.tmod_lt_of_pos x hy⟩
  rcases lt_or_gt_of_ne hb with hb' | hb'
  · rcases le_total 0 a with ha | ha
    · have h := key a (-b) ha (by omega)
      rw [Int.tmod_neg] at h
      refine ⟨?_, fun _ => h.1, fun h0 => ?_⟩
      · rw [abs_of_nonneg h.1, abs_of_neg hb']; exact h.2
      · have : a = 0 := by omega
        simp [this]
    · have h := key (-a) (-b) (by omega) (by omega)
      rw [Int.tmod_neg, neg_tmod_eq] at h
      refine ⟨?_, fun h0 => ?_, fun _ => by omega⟩
      · rw [abs_of_nonpos (by omega : a.tmod b ≤ 0), abs_of_neg hb']; omega
      · have : a = 0 := by omega
        simp [this]
  · rcases le_total 0 a with ha | ha
    · have h := key a b ha hb'
      refine ⟨?_, fun _ => h.1, fun h0 => ?_⟩
      · rw [abs_of_nonneg h.1, abs_of_pos hb']; exact h.2
      · have : a = 0 := by omega
        simp [this]
    · have h := key (-a) b (by omega) hb'
      rw [neg_tmod_eq] at h
      refine ⟨?_, fun h0 => ?_, fun _ => by omega⟩
      · rw [abs_of_nonpos (by omega : a.tmod b ≤ 0), abs_of_pos hb']; omega
      · have : a = 0 := by omega
        simp [this]

theorem sign_mul_sign_neg_iff (a b : Int) :
    a.sign * b.sign < 0 ↔ (a < 0 ∧ 0 < b) ∨ (0 < a ∧ b < 0) := by
  rcases lt_trichotomy a 0 with ha | ha | ha <;> rcases lt_trichotomy b 0 with hb | hb | hb
  all_goals
    first
    | (subst ha; simp)
    | (subst hb; simp)
    | skip
  · simp [Int.sign_eq_neg_one_of_neg ha, Int.sign_eq_neg_one_of_neg hb]; omega
  · simp [Int.sign_eq_neg_one_of_neg ha, Int.sign_eq_one_of_pos hb]; omega
  · simp [Int.sign_eq_one_of_pos ha, Int.sign_eq_neg_one_of_neg hb]; omega
  · simp [Int.sign_eq_one_of_pos ha, Int.sign_eq_one_of_pos hb]; omega

/-- The rounded quotient is within half a unit of the exact quotient (integer form). -/
theorem roundedQuot_int (A B : Int) (hB : B ≠ 0) :
    2 * |roundedQuot A B * B - A| ≤ |B| := by
  obtain ⟨h1, h2, h3⟩ := tmod_bounds A B hB
  have hA : B * A.tdiv B + A.tmod B = A := Int.tdiv_add_tmod A B
  have hs := sign_mul_sign_neg_iff A B
  unfold roundedQuot
  generalize A.tdiv B = Q at *
  generalize A.tmod B = R at *
  have e1 : Q * B - A = -R := by rw [← hA]; ring
  have e2 : (Q - 1) * B - A = -B - R := by rw [← hA]; ring
  have e3 : (Q + 1) * B - A = B - R := by rw [← hA]; ring
  split_ifs with c1 c2
  · rw [e1, abs_neg]; omega
  · rw [e2]
    rw [hs] at c2
    rcases c2 with ⟨ha, hb⟩ | ⟨ha, hb⟩
    · have hr := h3 ha.le
      rw [abs_of_nonpos hr, abs_of_pos hb] at c1 h1
      rw [abs_of_pos hb, abs_of_nonpos (by omega)]
      omega
    · have hr := h2 ha.le
      rw [abs_of_nonneg hr, abs_of_neg hb] at c1 h1
      rw [abs_of_neg hb, abs_of_nonneg (by omega)]
      omega
  · rw [e3]
    rw [hs] at c2
    rcases lt_or_gt_of_ne hB with hb | hb
    · have ha : A ≤ 0 := by
        by_contra hcon
        exact c2 (Or.inr ⟨by omega, hb⟩)
      have hr := h3 ha
      rw [abs_of_nonpos hr, abs_of_neg hb] at c1 h1
      rw [abs_of_neg hb, abs_of_nonpos (by omega)]
      omega
    · have ha : 0 ≤ A := by
        by_contra hcon
        exact c2 (Or.inl ⟨by omega, hb⟩)
      have hr := h2 ha
      rw [abs_of_nonneg hr, abs_of_pos hb] at c1 h1
      rw [abs_of_pos hb, abs_of_nonneg (by omega)]
      omega

theorem roundedQuot_of_dvd (A B : Int) (hB : B ≠ 0) (h : B ∣ A) :
    roundedQuot A B * B = A := by
  have hR : A.tmod B = 0 := Int.tmod_eq_zero_of_dvd h
  have hA : B * A.tdiv B + A.tmod B = A := Int.tdiv_add_tmod A B
  unfold roundedQuot
  rw [hR] at hA ⊢
  have : (0 : Int) < |B| := abs_pos.mpr hB
  simp only [abs_zero, zero_mul, this, if_true]
  rw [mul_comm]; omega

/-- The rounded quotient is within half a unit of the exact quotient. -/
theorem roundedQuot_rat (A B : Int) (hB : B ≠ 0) :
    |(roundedQuot A B : ℚ) - (A : ℚ) / B| ≤ 1 / 2 := by
  have h := roundedQuot_int A B hB
  have hB' : (B : ℚ) ≠ 0 := Int.cast_ne_zero.mpr hB
  have hpos : (0 : ℚ) < |(B : ℚ)| := abs_pos.mpr hB'
  have hq : (2 : ℚ) * |(roundedQuot A B : ℚ) * B - A| ≤ |(B : ℚ)| := by
    exact_mod_cast h
  have e : (roundedQuot A B : ℚ) - (A : ℚ) / B = ((roundedQuot A B : ℚ) * B - A) / B := by
    field_simp
  rw [e, abs_div, div_le_iff₀ hpos]
  linarith

end Decimal
end trader

/-! ## Lemmas on `DivRound` -/

namespace trader
namespace Decimal

theorem rescale_self (d : Decimal) : d.rescale d.exp = d := by
  simp [rescale]

theorem Sub_same_exp (a b e : Int) : (Decimal.mk a e).Sub ⟨b, e⟩ = ⟨a - b, e⟩ := by
  simp [Sub, rescale]

theorem Add_same_exp (a b e : Int) : (Decimal.mk a e).Add ⟨b, e⟩ = ⟨a + b, e⟩ := by
  simp [Add, rescale]

theorem ten_pow_pos_int (n : Nat) : (0 : Int) < 10 ^ n := by positivity

theorem sign_mul_ten_pow (a : Int) (n : Nat) : (a * 10 ^ n).sign = a.sign := by
  rw [Int.sign_mul, Int.sign_eq_one_of_pos (ten_pow_pos_int n), mul_one]

theorem scaledNum_sign (d d2 : Decimal) (p : Int) : (scaledNum d d2 p).sign = d.value.sign := by
  unfold scaledNum
  split_ifs
  · rfl
  · exact sign_mul_ten_pow _ _

theorem scaledDen_sign (d d2 : Decimal) (p : Int) : (scaledDen d d2 p).sign = d2.value.sign := by
  unfold scaledDen
  split_ifs
  · exact sign_mul_ten_pow _ _
  · rfl

theorem scaledDen_ne_zero (d d2 : Decimal) (p : Int) (h : d2.value ≠ 0) :
    scaledDen d d2 p ≠ 0 := by
  unfold scaledDen
  split_ifs
  · exact mul_ne_zero h (ten_pow_pos_int _).ne'
  · exact h

/-- The test `r2.Cmp(d2.Abs()) < 0` of `DivRound` compares twice the remainder with the
scaled divisor. -/
theorem DivRound_test (d d2 : Decimal) (p : Int) :
    (Decimal.mk (|(scaledNum d d2 p).tmod (scaledDen d d2 p)| * 2)
        ((if d.exp - d2.exp + p < 0 then d.exp else -p + d2.exp) + p)).Cmp d2.Abs < 0 ↔
      |(scaledNum d d2 p).tmod (scaledDen d d2 p)| * 2 < |scaledDen d d2 p| := by
  rw [Cmp_neg_iff]
  generalize (scaledNum d d2 p).tmod (scaledDen d d2 p) = R
  unfold scaledDen
  simp only [toRat, Abs]
  split_ifs with he
  · obtain ⟨n, hn⟩ := Int.eq_ofNat_of_zero_le (show 0 ≤ -(d.exp - d2.exp + p) by omega)
    rw [hn, Int.toNat_ofNat]
    have hd : d2.exp = d.exp + p + n := by omega
    have hz : (10 : ℚ) ^ d2.exp = 10 ^ n * 10 ^ (d.exp + p) := by
      rw [hd, zpow_add₀ (by norm_num : (10 : ℚ) ≠ 0), zpow_natCast, mul_comm]
    rw [hz, ← mul_assoc, mul_lt_mul_right (ten_zpow_pos _), abs_mul,
      abs_of_pos (ten_pow_pos_int n)]
    exact_mod_cast Iff.rfl
  · have : -p + d2.exp + p = d2.exp := by ring
    rw [this, mul_lt_mul_right (ten_zpow_pos _)]
    exact_mod_cast Iff.rfl

/-- With a non-zero divisor, `DivRound` returns the rounded quotient of the scaled
operands at exponent `-precision`. -/
theorem DivRound_eq (d d2 : Decimal) (p : Int) (h : d2.value ≠ 0) :
    d.DivRound d2 p = .ret ⟨roundedQuot (scaledNum d d2 p) (scaledDen d d2 p), -p⟩ := by
  have ht := DivRound_test d d2 p
  have hsn := scaledNum_sign d d2 p
  have hsd := scaledDen_sign d d2 p
  unfold roundedQuot
  rw [hsn, hsd]
  unfold DivRound QuoRem
  simp only [h, if_false, sub_neg_eq_add]
  unfold scaledNum scaledDen at ht ⊢
  split_ifs at ht ⊢ <;>
    simp_all [Exec.bind, Sub_same_exp, Add_same_exp]

end Decimal
end trader

/-! ## The specification of decimal division -/

namespace trader
namespace Decimal

/-- The scaled operands of `QuoRem` have the quotient of the two numbers, shifted by
`precision` digits. -/
theorem scaled_quot (d d2 : Decimal) (p : Int) :
    ((scaledNum d d2 p : Int) : ℚ) / (scaledDen d d2 p : Int) =
      d.toRat / d2.toRat * (10 : ℚ) ^ p := by
  have h10 : (10 : ℚ) ≠ 0 := by norm_num
  have hx := (ten_zpow_pos d.exp).ne'
  have hy := (ten_zpow_pos d2.exp).ne'
  have hp := (ten_zpow_pos p).ne'
  unfold scaledNum scaledDen toRat
  split_ifs with he
  · obtain ⟨n, hn⟩ := Int.eq_ofNat_of_zero_le (show 0 ≤ -(d.exp - d2.exp + p) by omega)
    rw [hn, Int.toNat_ofNat]
    have hz : (10 : ℚ) ^ n = 10 ^ d2.exp / 10 ^ d.exp / 10 ^ p := by
      rw [← zpow_natCast, ← zpow_sub₀ h10, ← zpow_sub₀ h10]
      congr 1
      omega
    push_cast
    rw [hz]
    by_cases hv : (d2.value : ℚ) = 0
    · simp [hv]
    · field_simp
      ring
  · obtain ⟨n, hn⟩ := Int.eq_ofNat_of_zero_le (show 0 ≤ d.exp - d2.exp + p by omega)
    rw [hn, Int.toNat_ofNat]
    have hz : (10 : ℚ) ^ n = 10 ^ d.exp / 10 ^ d2.exp * 10 ^ p := by
      rw [← zpow_natCast, ← zpow_sub₀ h10, ← zpow_add₀ h10]
      congr 1
      omega
    push_cast
    rw [hz]
    by_cases hv : (d2.value : ℚ) = 0
    · simp [hv]
    · field_simp
      ring

/-- Decimal division: with a non-zero divisor `Div` returns a decimal with 16 fractional
digits that is within half a unit of the last digit of the exact quotient, and is the
exact quotient when that one has at most 16 fractional digits. -/
theorem Div_spec (d d2 : Decimal) (h : d2.value ≠ 0) :
    ∃ q, d.Div d2 = .ret q ∧ q.exp = -16 ∧
      |q.toRat - d.toRat / d2.toRat| ≤ 1 / 2 * (10 : ℚ) ^ (-16 : Int) ∧
      ((∃ n : Int, d.toRat / d2.toRat = n * (10 : ℚ) ^ (-16 : Int)) →
        q.toRat = d.toRat / d2.toRat) := by
  have hB := scaledDen_ne_zero d d2 16 h
  have hB' : ((scaledDen d d2 16 : Int) : ℚ) ≠ 0 := Int.cast_ne_zero.mpr hB
  have hq := scaled_quot d d2 16
  have hr := roundedQuot_rat (scaledNum d d2 16) (scaledDen d d2 16) hB
  have hpos : (0 : ℚ) < (10 : ℚ) ^ (-16 : Int) := ten_zpow_pos _
  have hinv : (10 : ℚ) ^ (16 : Int) * (10 : ℚ) ^ (-16 : Int) = 1 := by
    rw [← zpow_add₀ (by norm_num : (10 : ℚ) ≠ 0)]; norm_num
  refine ⟨⟨roundedQuot (scaledNum d d2 16) (scaledDen d d2 16), -16⟩, ?_, rfl, ?_, ?_⟩
  · exact DivRound_eq d d2 16 h
  · rw [hq] at hr
    have e : (Decimal.mk (roundedQuot (scaledNum d d2 16) (scaledDen d d2 16)) (-16)).toRat -
        d.toRat / d2.toRat =
        ((roundedQuot (scaledNum d d2 16) (scaledDen d d2 16) : ℚ) -
          d.toRat / d2.toRat * (10 : ℚ) ^ (16 : Int)) * (10 : ℚ) ^ (-16 : Int) := by
      simp only [toRat]
      rw [sub_mul, mul_assoc, hinv, mul_one]
    rw [e, abs_mul, abs_of_pos hpos]
    exact mul_le_mul_of_nonneg_right hr hpos.le
  · rintro ⟨n, hn⟩
    have hAB : ((scaledNum d d2 16 : Int) : ℚ) = n * (scaledDen d d2 16 : Int) := by
      rw [hn, mul_assoc, mul_comm ((10 : ℚ) ^ (-16 : Int)), hinv, mul_one] at hq
      rw [div_eq_iff hB'] at hq
      exact hq
    have hdvd : scaledDen d d2 16 ∣ scaledNum d d2 16 := by
      refine ⟨n, ?_⟩
      have : ((scaledNum d d2 16 : Int) : ℚ) = ((scaledDen d d2 16 * n : Int) : ℚ) := by
        push_cast; rw [hAB]; ring
      exact_mod_cast this
    have hrq := roundedQuot_of_dvd _ _ hB hdvd
    have hrq' : (roundedQuot (scaledNum d d2 16) (scaledDen d d2 16) : ℚ) = n := by
      have h1 : ((roundedQuot (scaledNum d d2 16) (scaledDen d d2 16) * scaledDen d d2 16 : Int) : ℚ)
          = n * (scaledDen d d2 16 : Int) := by rw [hrq, hAB]
      push_cast at h1
      exact mul_right_cancel₀ hB' h1
    rw [hn]
    simp only [toRat]
    rw [hrq']

/-- A zero divisor makes `Div` panic. -/
theorem Div_zero (d d2 : Decimal) (h : d2.value = 0) :
    d.Div d2 = .panic "decimal division by 0" := by
  simp [Div, DivRound, QuoRem, h, Exec.bind]

/-- The quotient that `Div` returns has 16 fractional digits: its exponent is `-16`, an
`int32`. -/
theorem Div_ret_exp (d d2 q : Decimal) (h : d.Div d2 = .ret q) : q.exp = -16 := by
  by_cases hr : d2.value = 0
  · rw [Div_zero d d2 hr] at h
    cases h
  · obtain ⟨q1, hq, he, _⟩ := Div_spec d d2 hr
    rw [hq] at h
    cases h
    exact he

/-- The one panic of `Div` is that of a zero divisor. -/
theorem Div_panic (d d2 : Decimal) (m : String) (h : d.Div d2 = .panic m) :
    d2.value = 0 ∧ m = "decimal division by 0" := by
  by_cases hr : d2.value = 0
  · rw [Div_zero d d2 hr] at h
    cases h
    exact ⟨hr, rfl⟩
  · obtain ⟨q1, hq, _⟩ := Div_spec d d2 hr
    rw [hq] at h
    cases h

end Decimal
end trader

/-! ## Lemmas on codes and registries -/

namespace trader

theorem Char_toNat_ofNat (m : Nat) (h : m < 0xd800) : (Char.ofNat m).toNat = m := by
  have hv : m.isValidChar := Or.inl h
  simp only [Char.ofNat, hv, dite_true]
  simp [Char.ofNatAux, Char.toNat, UInt32.toNat]

theorem Char_toUpper_idem (c : Char) : c.toUpper.toUpper = c.toUpper := by
  unfold Char.toUpper
  simp only []
  by_cases h : c.toNat ≥ 97 ∧ c.toNat ≤ 122
  · simp only [h, and_self, if_true]
    have : (Char.ofNat (c.toNat - 32)).toNat = c.toNat - 32 := Char_toNat_ofNat _ (by omega)
    rw [this]
    have : ¬ (c.toNat - 32 ≥ 97 ∧ c.toNat - 32 ≤ 122) := by omega
    simp only [this, if_false]
  · simp only [h, if_false]

/-- Upper-casing is idempotent. -/
theorem ToUpper_idem (s : String) : ToUpper (ToUpper s) = ToUpper s := by
  have : Char.toUpper ∘ Char.toUpper = Char.toUpper := by
    funext c
    exact Char_toUpper_idem c
  simp [ToUpper, this]

theorem Is_iff (c : Currency) (code : String) : c.Is code = true ↔ c.Code = ToUpper code := by
  simp [Currency.Is]

theorem Is_false_iff (c : Currency) (code : String) :
    c.Is code = false ↔ c.Code ≠ ToUpper code := by
  simp [Currency.Is]

/-- Two codes with the same upper-case form are indistinguishable for `Is`. -/
theorem Is_congr (c : Currency) {code code1 : String} (h : ToUpper code = ToUpper code1) :
    c.Is code = c.Is code1 := by
  simp [Currency.Is, h]

/-- The currency `Find` returns depends on the upper-case form of the code only. -/
theorem Find_fst_congr (cs : Currencies) {code code1 : String}
    (h : ToUpper code = ToUpper code1) : (cs.Find code).1 = (cs.Find code1).1 := by
  induction cs with
  | nil => rfl
  | cons v cs ih =>
    simp only [Currencies.Find, Is_congr v h]
    split_ifs
    · rfl
    · exact ih

/-- `Find` returns either a currency and no error, or no currency and an error. -/
theorem Find_cases (cs : Currencies) (code : String) :
    (∃ v, cs.Find code = (some v, none) ∧ v ∈ cs ∧ v.Code = ToUpper code) ∨
    (∃ e, cs.Find code = (none, some e) ∧ ∀ v ∈ cs, v.Code ≠ ToUpper code) := by
  induction cs with
  | nil => exact Or.inr ⟨_, rfl, by simp⟩
  | cons v cs ih =>
    simp only [Currencies.Find]
    by_cases hv : v.Is code = true
    · simp only [hv, if_true]
      exact Or.inl ⟨v, rfl, List.mem_cons_self _ _, (Is_iff v code).mp hv⟩
    · simp only [hv]
      rcases ih with ⟨w, hw, hmem, hc⟩ | ⟨e, he, hall⟩
      · exact Or.inl ⟨w, by simpa using hw, List.mem_cons_of_mem _ hmem, hc⟩
      · refine Or.inr ⟨e, by simpa using he, ?_⟩
        intro x hx
        rcases List.mem_cons.mp hx with rfl | hx
        · exact fun hcon => hv ((Is_iff _ code).mpr hcon)
        · exact hall x hx

theorem Find_snd_none (cs : Currencies) (code : String) (h : (cs.Find code).2 = none) :
    ∃ v, cs.Find code = (some v, none) ∧ v ∈ cs ∧ v.Code = ToUpper code := by
  rcases Find_cases cs code with hv | ⟨e, he, _⟩
  · exact hv
  · rw [he] at h; cases h

theorem Find_congr_some (cs : Currencies) {code code1 : String} {v : Currency}
    (h : ToUpper code = ToUpper code1) (hf : cs.Find code = (some v, none)) :
    cs.Find code1 = (some v, none) := by
  have h1 := Find_fst_congr cs h
  rw [hf] at h1
  rcases Find_cases cs code1 with ⟨w, hw, _, _⟩ | ⟨e, he, _⟩
  · rw [hw] at h1 ⊢
    simp only at h1
    rw [h1]
  · rw [he] at h1
    cases h1

/-- Looking a found currency up again by its own code finds it again. -/
theorem Find_Code_self (cs : Currencies) {code : String} {v : Currency}
    (hf : cs.Find code = (some v, none)) : cs.Find v.Code = (some v, none) := by
  rcases Find_cases cs code with ⟨w, hw, _, hc⟩ | ⟨e, he, _⟩
  · rw [hw] at hf
    have : w = v := by simpa using hf
    subst this
    refine Find_congr_some cs ?_ hw
    rw [hc, ToUpper_idem]
  · rw [he] at hf; cases hf

/-- A currency that `Find` returns has an upper-case code. -/
theorem Find_Code_upper (cs : Currencies) {code : String} {v : Currency}
    (hf : cs.Find code = (some v, none)) : ToUpper v.Code = v.Code := by
  rcases Find_cases cs code with ⟨w, hw, _, hc⟩ | ⟨e, he, _⟩
  · rw [hw] at hf
    have : w = v := by simpa using hf
    subst this
    rw [hc, ToUpper_idem]
  · rw [he] at hf; cases hf

theorem Find_Code_eq (cs : Currencies) {code : String} {v : Currency}
    (hf : cs.Find code = (some v, none)) : v.Code = ToUpper code := by
  rcases Find_cases cs code with ⟨w, hw, _, hc⟩ | ⟨e, he, _⟩
  · rw [hw] at hf
    have : w = v := by simpa using hf
    subst this
    exact hc
  · rw [he] at hf; cases hf

/-- `NewAmount` succeeds exactly when `Find` does, and then tags the value with the
context and with the currency found. -/
theorem NewAmount_of_Find (t : Trader) (d : Decimal) {code : String} {c : Currency}
    (hf : t.Currencies.Find code = (some c, none)) :
    t.NewAmount d code = (some { Trader := t, Value := d, Currency := c }, none) := by
  simp [Trader.NewAmount, hf]

theorem NewAmount_eq_some (t : Trader) (d : Decimal) (code : String) (a : Amount)
    (h : t.NewAmount d code = (some a, none)) :
    t.Currencies.Find code = (some a.Currency, none) ∧ a.Trader = t ∧ a.Value = d := by
  rcases Find_cases t.Currencies code with ⟨w, hw, _, _⟩ | ⟨e, he, _⟩
  · rw [NewAmount_of_Find t d hw] at h
    have : a = { Trader := t, Value := d, Currency := w } := by
      simp only [Prod.mk.injEq, Option.some.injEq, and_true] at h
      exact h.symm
    subst this
    exact ⟨hw, rfl, rfl⟩
  · simp [Trader.NewAmount, he] at h

theorem NewAmount_of_Find_error (t : Trader) (d : Decimal) {code : String} {e : String}
    (hf : t.Currencies.Find code = (none, some e)) :
    t.NewAmount d code = (none, some e) := by
  simp [Trader.NewAmount, hf]

end trader

/-! ## The invariant of a rate context -/

namespace trader

/-- A registry entry whose code is the upper-case form of `code` makes `Find` succeed. -/
theorem Find_of_mem (cs : Currencies) (code : String) (v : Currency)
    (hm : v ∈ cs) (hc : v.Code = ToUpper code) : (cs.Find code).2 = none := by
  rcases Find_cases cs code with ⟨w, hw, _, _⟩ | ⟨e, _, hall⟩
  · rw [hw]
  · exact absurd hc (hall v hm)

/-- The base code resolves when the base currency is an entry of the registry whose code
is in upper case, as `NewCurrency` makes it. -/
theorem base_resolves_of_mem (t : Trader) (hm : t.BaseCurrency ∈ t.Currencies)
    (hc : ToUpper t.BaseCurrency.Code = t.BaseCurrency.Code) :
    (t.Currencies.Find t.BaseCurrency.Code).2 = none :=
  Find_of_mem _ _ _ hm hc.symm

/-- The base code resolves in every context that `New` returns. -/
theorem base_resolves_of_New (cs : Currencies) (code : String) (t : Trader)
    (h : New cs code = (some t, none)) :
    (t.Currencies.Find t.BaseCurrency.Code).2 = none := by
  rcases Find_cases cs code with ⟨w, hw, _, _⟩ | ⟨e, he, _⟩
  · have ht : t = { Currencies := cs, BaseCurrency := w } := by
      simp only [New, hw, Prod.mk.injEq, Option.some.injEq, and_true] at h
      exact h.symm
    subst ht
    show (cs.Find w.Code).2 = none
    rw [Find_Code_self cs hw]
  · simp [New, he] at h

end trader

/-! ## Lemmas on conversion -/

namespace trader
namespace Amount

theorem BaseCurrencyValue_base (a : Amount) (h : a.Currency.Is a.Trader.BaseCurrency.Code = true) :
    a.BaseCurrencyValue = .ret a.Value := by
  simp [BaseCurrencyValue, h]

theorem BaseCurrencyValue_other (a : Amount)
    (h : a.Currency.Is a.Trader.BaseCurrency.Code = false) :
    a.BaseCurrencyValue = a.Value.Div a.Currency.Value := by
  simp [BaseCurrencyValue, h]

/-- With a non-zero rate the base-currency value is returned (no panic). -/
theorem BaseCurrencyValue_ret (a : Amount) (hr : a.Currency.Value.value ≠ 0) :
    ∃ x, a.BaseCurrencyValue = .ret x := by
  by_cases h : a.Currency.Is a.Trader.BaseCurrency.Code = true
  · exact ⟨_, BaseCurrencyValue_base a h⟩
  · rw [BaseCurrencyValue_other a (by simpa using h)]
    obtain ⟨q, hq, _⟩ := Decimal.Div_spec a.Value a.Currency.Value hr
    exact ⟨q, hq⟩

/-- The base-currency value of an amount that is not in the base currency has 16 fractional
digits. -/
theorem BaseCurrencyValue_exp (a : Amount) {x : Decimal}
    (h : a.Currency.Is a.Trader.BaseCurrency.Code = false)
    (hx : a.BaseCurrencyValue = .ret x) : x.exp = -16 := by
  rw [BaseCurrencyValue_other a h] at hx
  exact Decimal.Div_ret_exp _ _ _ hx

/-- The base-currency amount of an amount that is not in the base currency: the quotient,
tagged with the registry entry found for the base code. -/
theorem BaseCurrencyAmount_other (a : Amount) {x : Decimal} {B : trader.Currency}
    (h : a.Currency.Is a.Trader.BaseCurrency.Code = false)
    (hx : a.BaseCurrencyValue = .ret x)
    (hB : a.Trader.Currencies.Find a.Trader.BaseCurrency.Code = (some B, none)) :
    a.BaseCurrencyAmount = .ret (some { Trader := a.Trader, Value := x, Currency := B }) := by
  rw [BaseCurrencyValue_other a h] at hx
  simp [BaseCurrencyAmount, h, hx, Exec.bind, NewAmount_of_Find a.Trader x hB]

theorem BaseCurrencyAmount_base (a : Amount)
    (h : a.Currency.Is a.Trader.BaseCurrency.Code = true) :
    a.BaseCurrencyAmount = .ret (some a) := by
  simp [BaseCurrencyAmount, h]

theorem ToCurrency_same (a : Amount) (code : String) (h : a.Currency.Is code = true) :
    a.ToCurrency code = .ret (some a, none) := by
  simp [ToCurrency, h]

/-- Conversion of an amount to the base currency. -/
theorem ToCurrency_base (a : Amount) {x : Decimal} {B : trader.Currency} (code : String)
    (hc : a.Currency.Is code = false)
    (hcode : ToUpper code = ToUpper a.Trader.BaseCurrency.Code)
    (hx : a.BaseCurrencyValue = .ret x)
    (hB : a.Trader.Currencies.Find a.Trader.BaseCurrency.Code = (some B, none)) :
    a.ToCurrency code = .ret (some { Trader := a.Trader, Value := x, Currency := B }, none) := by
  have h1 : a.Currency.Is a.Trader.BaseCurrency.Code = false := by
    rw [← Is_congr a.Currency hcode]; exact hc
  have h2 : B.Is code = true := by
    rw [Is_iff, hcode]; exact Find_Code_eq _ hB
  simp [ToCurrency, hc, BaseCurrencyAmount_other a h1 hx hB, Exec.bind, h2]

/-- Conversion of an amount to a currency that is neither its own nor the base one: the
base-currency value is multiplied by the rate of the currency found, and the panic of `Mul`
is the panic of the conversion. -/
theorem ToCurrency_other (a : Amount) {x : Decimal} {c : trader.Currency} (code : String)
    (hc : a.Currency.Is code = false)
    (hcode : ToUpper code ≠ ToUpper a.Trader.BaseCurrency.Code)
    (hx : a.BaseCurrencyValue = .ret x)
    (hbase : (a.Trader.Currencies.Find a.Trader.BaseCurrency.Code).2 = none)
    (hf : a.Trader.Currencies.Find code = (some c, none)) :
    a.ToCurrency code =
      (x.Mul c.Value).bind fun v =>
        .ret (some { Trader := a.Trader, Value := v, Currency := c }, none) := by
  obtain ⟨B, hB, _, hBc⟩ := Find_snd_none _ _ hbase
  by_cases h1 : a.Currency.Is a.Trader.BaseCurrency.Code = true
  · rw [BaseCurrencyValue_base a h1] at hx
    cases hx
    cases hm : a.Value.Mul c.Value with
    | panic m => simp [ToCurrency, hc, BaseCurrencyAmount_base a h1, Exec.bind, hf, hm]
    | ret v =>
      simp [ToCurrency, hc, BaseCurrencyAmount_base a h1, Exec.bind, hf, hm,
        NewAmount_of_Find a.Trader _ hf]
  · have h1' : a.Currency.Is a.Trader.BaseCurrency.Code = false := by simpa using h1
    have h2 : B.Is code = false := by
      rw [Is_false_iff, hBc]; exact fun h => hcode h.symm
    cases hm : x.Mul c.Value with
    | panic m =>
      simp [ToCurrency, hc, BaseCurrencyAmount_other a h1' hx hB, Exec.bind, h2, hf, hm]
    | ret v =>
      simp [ToCurrency, hc, BaseCurrencyAmount_other a h1' hx hB, Exec.bind, h2, hf, hm,
        NewAmount_of_Find a.Trader _ hf]

/-- The closing statements of the arithmetic methods: the base-currency result `c` is
returned in the receiver's currency, as it is when this is the base currency and multiplied
by the rate otherwise; the panic of `Mul` is the panic of the method. -/
theorem inReceiverCurrency_cases (a : Amount) (c : Decimal)
    (hbase : (a.Trader.Currencies.Find a.Trader.BaseCurrency.Code).2 = none)
    (hcur : a.Trader.Currencies.Find a.Currency.Code = (some a.Currency, none)) :
    (a.Currency.Is a.Trader.BaseCurrency.Code = true →
      a.inReceiverCurrency c =
        .ret (some { Trader := a.Trader, Value := c, Currency := a.Currency }, none)) ∧
    (a.Currency.Is a.Trader.BaseCurrency.Code = false →
      a.inReceiverCurrency c =
        (c.Mul a.Currency.Value).bind fun v =>
          .ret (some { Trader := a.Trader, Value := v, Currency := a.Currency }, none)) := by
  obtain ⟨B, hB, _, hBc⟩ := Find_snd_none _ _ hbase
  have hup : ToUpper a.Currency.Code = a.Currency.Code := Find_Code_upper _ hcur
  have hn : (a.Trader.NewAmount c a.Trader.BaseCurrency.Code).1 =
      some { Trader := a.Trader, Value := c, Currency := B } := by
    rw [NewAmount_of_Find a.Trader c hB]
  have hBB : B.Is a.Trader.BaseCurrency.Code = true := (Is_iff _ _).mpr hBc
  unfold inReceiverCurrency
  rw [hn]
  simp only []
  refine ⟨fun h1 => ?_, fun h1' => ?_⟩
  · have hcode : a.Currency.Code = ToUpper a.Trader.BaseCurrency.Code := (Is_iff _ _).mp h1
    have hBis : B.Is a.Currency.Code = true := by
      rw [Is_iff, hup, hBc, hcode]
    have hEq : B = a.Currency := by
      have h2 := Find_fst_congr a.Trader.Currencies (hup.trans hcode)
      rw [hcur, hB] at h2
      simpa using h2.symm
    rw [ToCurrency_same _ _ hBis]
    simp [hEq]
  · have hne : ToUpper a.Currency.Code ≠ ToUpper a.Trader.BaseCurrency.Code := by
      rw [hup]; exact (Is_false_iff _ _).mp h1'
    have hBis : B.Is a.Currency.Code = false := by
      rw [Is_false_iff, hBc]; exact fun h => hne h.symm
    have hx : (Amount.mk a.Trader c B).BaseCurrencyValue = .ret c :=
      BaseCurrencyValue_base _ hBB
    rw [ToCurrency_other (Amount.mk a.Trader c B) a.Currency.Code hBis hne hx hbase hcur]

/-- The closing statements of the arithmetic methods, when the result can be expressed in
the receiver's currency. -/
theorem inReceiverCurrency_eq (a : Amount) (c : Decimal)
    (hbase : (a.Trader.Currencies.Find a.Trader.BaseCurrency.Code).2 = none)
    (hcur : a.Trader.Currencies.Find a.Currency.Code = (some a.Currency, none))
    (hfit : a.fits c) :
    a.inReceiverCurrency c =
      .ret (some { Trader := a.Trader, Value := a.fromBase c, Currency := a.Currency }, none) := by
  obtain ⟨h1, h2⟩ := inReceiverCurrency_cases a c hbase hcur
  by_cases hb : a.Currency.Is a.Trader.BaseCurrency.Code = true
  · rw [h1 hb]
    simp [fromBase, hb]
  · have hb' : a.Currency.Is a.Trader.BaseCurrency.Code = false := by simpa using hb
    have hi : isInt32 (c.exp + a.Currency.Value.exp) := hfit.resolve_left hb
    rw [h2 hb', Decimal.Mul_of_isInt32 _ _ hi]
    simp [fromBase, hb', Exec.bind]

/-- The closing statements of the arithmetic methods, when the result cannot be expressed in
the receiver's currency: the panic of `Mul`. -/
theorem inReceiverCurrency_overflow (a : Amount) (c : Decimal)
    (hbase : (a.Trader.Currencies.Find a.Trader.BaseCurrency.Code).2 = none)
    (hcur : a.Trader.Currencies.Find a.Currency.Code = (some a.Currency, none))
    (hfit : ¬ a.fits c) :
    a.inReceiverCurrency c = .panic (Decimal.expOverflow (c.exp + a.Currency.Value.exp)) := by
  obtain ⟨_, h2⟩ := inReceiverCurrency_cases a c hbase hcur
  have hb' : a.Currency.Is a.Trader.BaseCurrency.Code = false := by
    by_contra hb
    exact hfit (Or.inl (by simpa using hb))
  have hi : ¬ isInt32 (c.exp + a.Currency.Value.exp) := fun hi => hfit (Or.inr hi)
  rw [h2 hb', Decimal.Mul_overflow _ _ hi]
  rfl

end Amount
end trader

/-! ## Lemmas on the arithmetic methods -/

namespace trader

/-- The mismatch path of the five binary methods. -/
theorem binop_mismatch (a b : Amount)
    (h : a.Trader.BaseCurrency.Code ≠ b.Trader.BaseCurrency.Code) :
    a.Add b = .ret (none, some (Amount.baseMismatch a b)) ∧
    a.Sub b = .ret (none, some (Amount.baseMismatch a b)) ∧
    a.Mul b = .ret (none, some (Amount.baseMismatch a b)) ∧
    a.Div b = .ret (none, some (Amount.baseMismatch a b)) ∧
    a.Cmp b = .ret (0, some (Amount.baseMismatch a b)) := by
  simp [Amount.Add, Amount.Sub, Amount.Mul, Amount.Div, Amount.Cmp, h]

theorem Amount_Add_eq (a b : Amount) {x y : Decimal}
    (hsame : a.Trader.BaseCurrency.Code = b.Trader.BaseCurrency.Code)
    (hx : a.BaseCurrencyValue = .ret x) (hy : b.BaseCurrencyValue = .ret y) :
    a.Add b = a.inReceiverCurrency (x.Add y) := by
  simp [Amount.Add, hsame, hx, hy, Exec.bind]

theorem Amount_Sub_eq (a b : Amount) {x y : Decimal}
    (hsame : a.Trader.BaseCurrency.Code = b.Trader.BaseCurrency.Code)
    (hx : a.BaseCurrencyValue = .ret x) (hy : b.BaseCurrencyValue = .ret y) :
    a.Sub b = a.inReceiverCurrency (x.Sub y) := by
  simp [Amount.Sub, hsame, hx, hy, Exec.bind]

theorem Amount_Mul_eq (a b : Amount) {x y : Decimal}
    (hsame : a.Trader.BaseCurrency.Code = b.Trader.BaseCurrency.Code)
    (hx : a.BaseCurrencyValue = .ret x) (hy : b.BaseCurrencyValue = .ret y) :
    a.Mul b = (x.Mul y).bind fun c => a.inReceiverCurrency c := by
  simp [Amount.Mul, hsame, hx, hy, Exec.bind]

theorem Amount_Div_eq (a b : Amount) {x y q : Decimal}
    (hsame : a.Trader.BaseCurrency.Code = b.Trader.BaseCurrency.Code)
    (hx : a.BaseCurrencyValue = .ret x) (hy : b.BaseCurrencyValue = .ret y)
    (hq : x.Div y = .ret q) :
    a.Div b = a.inReceiverCurrency q := by
  simp [Amount.Div, hsame, hx, hy, hq, Exec.bind]

theorem Amount_Cmp_eq (a b : Amount) {x y : Decimal}
    (hsame : a.Trader.BaseCurrency.Code = b.Trader.BaseCurrency.Code)
    (hx : a.BaseCurrencyValue = .ret x) (hy : b.BaseCurrencyValue = .ret y) :
    a.Cmp b = .ret (x.Cmp y, none) := by
  simp [Amount.Cmp, hsame, hx, hy, Exec.bind]

/-- For an amount made by `NewAmount` on a context whose base code resolves, the closing
statements of the arithmetic methods return `c` expressed in the receiver's currency, when
it can be expressed in it. -/
theorem inReceiverCurrency_of_NewAmount (t : Trader) (d : Decimal) (code : String) (a : Amount)
    (c : Decimal)
    (hbase : (t.Currencies.Find t.BaseCurrency.Code).2 = none)
    (ha : t.NewAmount d code = (some a, none))
    (hfit : a.fits c) :
    a.inReceiverCurrency c =
      .ret (some { Trader := t, Value := a.fromBase c, Currency := a.Currency }, none) := by
  obtain ⟨hf, ht, _⟩ := NewAmount_eq_some t d code a ha
  subst ht
  exact Amount.inReceiverCurrency_eq a c hbase (Find_Code_self _ hf) hfit

/-- For an amount made by `NewAmount` on a context whose base code resolves, the closing
statements of the arithmetic methods panic when `c` cannot be expressed in the receiver's
currency. -/
theorem inReceiverCurrency_panic_of_NewAmount (t : Trader) (d : Decimal) (code : String)
    (a : Amount) (c : Decimal)
    (hbase : (t.Currencies.Find t.BaseCurrency.Code).2 = none)
    (ha : t.NewAmount d code = (some a, none))
    (hfit : ¬ a.fits c) :
    a.inReceiverCurrency c = .panic (Decimal.expOverflow (c.exp + a.Currency.Value.exp)) := by
  obtain ⟨hf, ht, _⟩ := NewAmount_eq_some t d code a ha
  subst ht
  exact Amount.inReceiverCurrency_overflow a c hbase (Find_Code_self _ hf) hfit

/-- The number that `fromBase` stands for. -/
theorem toRat_fromBase (a : Amount) (c : Decimal) :
    (a.fromBase c).toRat =
      if a.Currency.Is a.Trader.BaseCurrency.Code = true then c.toRat
      else c.toRat * a.Currency.Value.toRat := by
  unfold Amount.fromBase
  split_ifs
  · rfl
  · exact Decimal.toRat_product _ _

/-- The arithmetic methods on a receiver made by `NewAmount`, once both base-currency
values are known, when the results can be expressed in the receiver's currency. -/
theorem arith_of_values (t : Trader) (d : Decimal) (code : String) (a b : Amount)
    {x y : Decimal}
    (hbase : (t.Currencies.Find t.BaseCurrency.Code).2 = none)
    (ha : t.NewAmount d code = (some a, none))
    (hsame : a.Trader.BaseCurrency.Code = b.Trader.BaseCurrency.Code)
    (hx : a.BaseCurrencyValue = .ret x) (hy : b.BaseCurrencyValue = .ret y) :
    (a.fits (x.Add y) →
      a.Add b = .ret (some { Trader := t, Value := a.fromBase (x.Add y),
                             Currency := a.Currency }, none)) ∧
    (a.fits (x.Sub y) →
      a.Sub b = .ret (some { Trader := t, Value := a.fromBase (x.Sub y),
                             Currency := a.Currency }, none)) ∧
    (isInt32 (x.exp + y.exp) → a.fits (x.product y) →
      a.Mul b = .ret (some { Trader := t, Value := a.fromBase (x.product y),
                             Currency := a.Currency }, none)) ∧
    (∀ q, x.Div y = .ret q → a.fits q →
      a.Div b = .ret (some { Trader := t, Value := a.fromBase q,
                             Currency := a.Currency }, none)) := by
  refine ⟨fun hfit => ?_, fun hfit => ?_, fun hi hfit => ?_, fun q hq hfit => ?_⟩
  · rw [Amount_Add_eq a b hsame hx hy,
      inReceiverCurrency_of_NewAmount t d code a _ hbase ha hfit]
  · rw [Amount_Sub_eq a b hsame hx hy,
      inReceiverCurrency_of_NewAmount t d code a _ hbase ha hfit]
  · rw [Amount_Mul_eq a b hsame hx hy, Decimal.Mul_of_isInt32 x y hi]
    exact inReceiverCurrency_of_NewAmount t d code a _ hbase ha hfit
  · rw [Amount_Div_eq a b hsame hx hy hq,
      inReceiverCurrency_of_NewAmount t d code a _ hbase ha hfit]

/-- The arithmetic methods on a receiver made by `NewAmount`, once both base-currency
values are known, when a product has an exponent that is not an `int32`: the panic of the
decimal `Mul` is the panic of the method. -/
theorem arith_overflow (t : Trader) (d : Decimal) (code : String) (a b : Amount)
    {x y : Decimal}
    (hbase : (t.Currencies.Find t.BaseCurrency.Code).2 = none)
    (ha : t.NewAmount d code = (some a, none))
    (hsame : a.Trader.BaseCurrency.Code = b.Trader.BaseCurrency.Code)
    (hx : a.BaseCurrencyValue = .ret x) (hy : b.BaseCurrencyValue = .ret y) :
    (¬ a.fits (x.Add y) →
      a.Add b = .panic (Decimal.expOverflow ((x.Add y).exp + a.Currency.Value.exp))) ∧
    (¬ a.fits (x.Sub y) →
      a.Sub b = .panic (Decimal.expOverflow ((x.Sub y).exp + a.Currency.Value.exp))) ∧
    (¬ isInt32 (x.exp + y.exp) →
      a.Mul b = .panic (Decimal.expOverflow (x.exp + y.exp))) ∧
    (isInt32 (x.exp + y.exp) → ¬ a.fits (x.product y) →
      a.Mul b = .panic (Decimal.expOverflow ((x.product y).exp + a.Currency.Value.exp))) ∧
    (∀ q, x.Div y = .ret q → ¬ a.fits q →
      a.Div b = .panic (Decimal.expOverflow (q.exp + a.Currency.Value.exp))) := by
  refine ⟨fun hfit => ?_, fun hfit => ?_, fun hi => ?_, fun hi hfit => ?_,
    fun q hq hfit => ?_⟩
  · rw [Amount_Add_eq a b hsame hx hy,
      inReceiverCurrency_panic_of_NewAmount t d code a _ hbase ha hfit]
  · rw [Amount_Sub_eq a b hsame hx hy,
      inReceiverCurrency_panic_of_NewAmount t d code a _ hbase ha hfit]
  · rw [Amount_Mul_eq a b hsame hx hy, Decimal.Mul_overflow x y hi]
    rfl
  · rw [Amount_Mul_eq a b hsame hx hy, Decimal.Mul_of_isInt32 x y hi]
    exact inReceiverCurrency_panic_of_NewAmount t d code a _ hbase ha hfit
  · rw [Amount_Div_eq a b hsame hx hy hq,
      inReceiverCurrency_panic_of_NewAmount t d code a _ hbase ha hfit]

/-- With equal base codes and a receiver made by `NewAmount`, none of `Add`, `Sub`, `Mul`,
`Cmp` returns an error, whatever the rates are. -/
theorem arith_no_error (t : Trader) (d : Decimal) (code : String) (a b : Amount)
    (hbase : (t.Currencies.Find t.BaseCurrency.Code).2 = none)
    (ha : t.NewAmount d code = (some a, none))
    (hsame : a.Trader.BaseCurrency.Code = b.Trader.BaseCurrency.Code) :
    (¬ ∃ r e, a.Add b = .ret (r, some e)) ∧ (¬ ∃ r e, a.Sub b = .ret (r, some e)) ∧
    (¬ ∃ r e, a.Mul b = .ret (r, some e)) ∧ (¬ ∃ r e, a.Cmp b = .ret (r, some e)) := by
  cases hx : a.BaseCurrencyValue with
  | panic m => simp [Amount.Add, Amount.Sub, Amount.Mul, Amount.Cmp, hsame, hx, Exec.bind]
  | ret x =>
    cases hy : b.BaseCurrencyValue with
    | panic m => simp [Amount.Add, Amount.Sub, Amount.Mul, Amount.Cmp, hsame, hx, hy, Exec.bind]
    | ret y =>
      obtain ⟨h1, h2, h3, _⟩ := arith_of_values t d code a b hbase ha hsame hx hy
      obtain ⟨p1, p2, p3, p4, _⟩ := arith_overflow t d code a b hbase ha hsame hx hy
      refine ⟨?_, ?_, ?_, ?_⟩
      · by_cases hf : a.fits (x.Add y)
        · rw [h1 hf]; simp
        · rw [p1 hf]; simp
      · by_cases hf : a.fits (x.Sub y)
        · rw [h2 hf]; simp
        · rw [p2 hf]; simp
      · by_cases hi : isInt32 (x.exp + y.exp)
        · by_cases hf : a.fits (x.product y)
          · rw [h3 hi hf]; simp
          · rw [p4 hi hf]; simp
        · rw [p3 hi]; simp
      · rw [Amount_Cmp_eq a b hsame hx hy]
        simp

end trader

/-! ## Exponents of the decimals returned -/

namespace trader

/-- The amount that `NewAmount` returns carries the decimal it was given. -/
theorem Valid_NewAmount_fst (t : Trader) (d : Decimal) (code : String) (r : Amount)
    (hd : d.Valid) (hr : (t.NewAmount d code).1 = some r) : r.Value.Valid := by
  rcases Find_cases t.Currencies code with ⟨w, hw, _, _⟩ | ⟨e, he, _⟩
  · rw [NewAmount_of_Find t d hw] at hr
    simp only [Option.some.injEq] at hr
    rw [← hr]
    exact hd
  · rw [NewAmount_of_Find_error t d he] at hr
    cases hr

/-- The base-currency value of a decimal of Go is a decimal of Go. -/
theorem Valid_BaseCurrencyValue (a : Amount) (x : Decimal) (hv : a.Value.Valid)
    (hx : a.BaseCurrencyValue = .ret x) : x.Valid := by
  by_cases hb : a.Currency.Is a.Trader.BaseCurrency.Code = true
  · rw [Amount.BaseCurrencyValue_base a hb] at hx
    cases hx
    exact hv
  · have he := Amount.BaseCurrencyValue_exp a (by simpa using hb) hx
    unfold Decimal.Valid isInt32
    omega

theorem Valid_BaseCurrencyAmount (a r : Amount) (hv : a.Value.Valid)
    (he : a.BaseCurrencyAmount = .ret (some r)) : r.Value.Valid := by
  unfold Amount.BaseCurrencyAmount at he
  by_cases hb : a.Currency.Is a.Trader.BaseCurrency.Code = true
  · simp only [hb, if_true, Exec.ret.injEq, Option.some.injEq] at he
    rw [← he]
    exact hv
  · simp only [hb, Bool.false_eq_true, if_false] at he
    cases hd : a.Value.Div a.Currency.Value with
    | panic m => simp [hd, Exec.bind] at he
    | ret v =>
      simp only [hd, Exec.bind, Exec.ret.injEq] at he
      have hve : v.Valid := by
        have := Decimal.Div_ret_exp _ _ _ hd
        unfold Decimal.Valid isInt32
        omega
      exact Valid_NewAmount_fst a.Trader v a.Trader.BaseCurrency.Code r hve he

theorem Valid_ToCurrency (a r : Amount) (code : String) (e : Option String)
    (hv : a.Value.Valid) (he : a.ToCurrency code = .ret (some r, e)) : r.Value.Valid := by
  unfold Amount.ToCurrency at he
  by_cases hc : a.Currency.Is code = true
  · simp only [hc, if_true, Exec.ret.injEq, Prod.mk.injEq, Option.some.injEq] at he
    rw [← he.1]
    exact hv
  · simp only [hc, Bool.false_eq_true, if_false] at he
    cases hb : a.BaseCurrencyAmount with
    | panic m => simp [hb, Exec.bind] at he
    | ret b? =>
      cases b? with
      | none => simp [hb, Exec.bind] at he
      | some b =>
        have hvb := Valid_BaseCurrencyAmount a b hv hb
        simp only [hb, Exec.bind] at he
        by_cases hbc : b.Currency.Is code = true
        · simp only [hbc, if_true, Exec.ret.injEq, Prod.mk.injEq, Option.some.injEq] at he
          rw [← he.1]
          exact hvb
        · simp only [hbc, Bool.false_eq_true, if_false] at he
          rcases Find_cases a.Trader.Currencies code with ⟨c, hfc, _, _⟩ | ⟨e1, hfe, _⟩
          · simp only [hfc] at he
            cases hm : b.Value.Mul c.Value with
            | panic m => simp [hm, Exec.bind] at he
            | ret v =>
              simp only [hm, Exec.bind, Exec.ret.injEq] at he
              exact Valid_NewAmount_fst a.Trader v code r (Decimal.Mul_ret _ _ _ hm).2.2
                (by rw [he])
          · simp [hfe] at he

theorem Valid_inReceiverCurrency (a r : Amount) (c : Decimal) (e : Option String)
    (hc : c.Valid) (he : a.inReceiverCurrency c = .ret (some r, e)) : r.Value.Valid := by
  unfold Amount.inReceiverCurrency at he
  cases hn : (a.Trader.NewAmount c a.Trader.BaseCurrency.Code).1 with
  | none => simp [hn] at he
  | some n =>
    simp only [hn] at he
    exact Valid_ToCurrency n r a.Currency.Code e
      (Valid_NewAmount_fst a.Trader c a.Trader.BaseCurrency.Code n hc hn) he

/-- The decimals of the amounts returned are decimals of Go: on amounts whose values have an
`int32` exponent, every amount that `BaseCurrencyAmount`, `ToCurrency`, `Add`, `Sub`, `Mul`
or `Div` returns has a value whose exponent is an `int32`. -/
theorem Valid_results (a b r : Amount) (e : Option String)
    (hva : a.Value.Valid) (hvb : b.Value.Valid) :
    (a.BaseCurrencyAmount = .ret (some r) → r.Value.Valid) ∧
    (∀ code, a.ToCurrency code = .ret (some r, e) → r.Value.Valid) ∧
    (a.Add b = .ret (some r, e) → r.Value.Valid) ∧
    (a.Sub b = .ret (some r, e) → r.Value.Valid) ∧
    (a.Mul b = .ret (some r, e) → r.Value.Valid) ∧
    (a.Div b = .ret (some r, e) → r.Value.Valid) := by
  refine ⟨Valid_BaseCurrencyAmount a r hva, fun code => Valid_ToCurrency a r code e hva, ?_⟩
  unfold Amount.Add Amount.Sub Amount.Mul Amount.Div
  by_cases hc : a.Trader.BaseCurrency.Code ≠ b.Trader.BaseCurrency.Code
  · simp [hc]
  · simp only [hc, if_false]
    cases hx : a.BaseCurrencyValue with
    | panic m => simp [Exec.bind]
    | ret x =>
      cases hy : b.BaseCurrencyValue with
      | panic m => simp [Exec.bind]
      | ret y =>
        have hxv := Valid_BaseCurrencyValue a x hva hx
        have hyv := Valid_BaseCurrencyValue b y hvb hy
        simp only [Exec.bind]
        refine ⟨Valid_inReceiverCurrency a r _ e (Decimal.Add_Sub_Valid x y hxv hyv).1,
          Valid_inReceiverCurrency a r _ e (Decimal.Add_Sub_Valid x y hxv hyv).2, ?_, ?_⟩
        · cases hq : x.Mul y with
          | panic m => simp
          | ret q => exact Valid_inReceiverCurrency a r _ e (Decimal.Mul_ret _ _ _ hq).2.2
        · cases hq : x.Div y with
          | panic m => simp
          | ret q =>
            have hqv : q.Valid := by
              have := Decimal.Div_ret_exp _ _ _ hq
              unfold Decimal.Valid isInt32
              omega
            exact Valid_inReceiverCurrency a r _ e hqv

/-- The panic of `Mul` on the test contexts.  The product of `10 ^ 1073741824` USD by itself
has the exponent `2147483648`; converting `10 ^ (-2147483648)` USD to EUR, at the rate 0.8,
asks for the exponent `-2147483649`; and with the currency XTS at the rate
`10 ^ (-2147483640)`, the amount `10 ^ (-2147483640)` XTS is 1 USD, a decimal with 16
fractional digits, and converting it back, or adding it to itself, asks for the exponent
`-2147483656`. -/
theorem Mul_overflow_on_test_contexts :
    (usd 1 1073741824).Mul (usd 1 1073741824) =
      .panic "exponent 2147483648 overflows an int32!" ∧
    (usd 1 (-2147483648)).ToCurrency "eur" =
      .panic "exponent -2147483649 overflows an int32!" ∧
    (xts 1 (-2147483640)).ToCurrency "usd" =
      .ret (some { Trader := testTrader4, Value := ⟨10000000000000000, -16⟩,
                   Currency := NewCurrency 7 "USD" dec1 }, none) ∧
    (Amount.mk testTrader4 ⟨10000000000000000, -16⟩ (NewCurrency 7 "USD" dec1)).ToCurrency
        "xts" = .panic "exponent -2147483656 overflows an int32!" ∧
    (xts 1 (-2147483640)).Add (xts 1 (-2147483640)) =
      .panic "exponent -2147483656 overflows an int32!" := by
  decide

end trader

/-! ## Cross-base arithmetic -/

namespace trader

/-- C1: when the rate contexts of `a` and `b` have different base-currency codes, each of
`Add`, `Sub`, `Mul`, `Div` returns the mismatch error and no amount, and `Cmp` returns 0
with the mismatch error, whatever the values and currencies of `a` and `b`. -/
theorem C1_cross_base_fails (a b : Amount)
    (h : a.Trader.BaseCurrency.Code ≠ b.Trader.BaseCurrency.Code) :
    a.Add b = .ret (none, some (Amount.baseMismatch a b)) ∧
    a.Sub b = .ret (none, some (Amount.baseMismatch a b)) ∧
    a.Mul b = .ret (none, some (Amount.baseMismatch a b)) ∧
    a.Div b = .ret (none, some (Amount.baseMismatch a b)) ∧
    a.Cmp b = .ret (0, some (Amount.baseMismatch a b)) :=
  binop_mismatch a b h

/-- C1 at 2.3 USD (base USD) and 3.2 BAD (base BAD), the operands of `TestAdd`. -/
theorem C1_cross_base_fails_witness :
    (usd 23 (-1)).Trader.BaseCurrency.Code ≠ (bad 32 (-1)).Trader.BaseCurrency.Code ∧
    (bad 32 (-1)).Trader.BaseCurrency.Code ≠ (usd 23 (-1)).Trader.BaseCurrency.Code ∧
    (bad 32 (-1)).Add (usd 23 (-1)) =
      .ret (none, some "The base currency of a and b differ: BAD & USD") ∧
    (usd 23 (-1)).Cmp (bad 32 (-1)) =
      .ret (0, some "The base currency of a and b differ: USD & BAD") :=
  ⟨by decide, by decide, (C1_cross_base_fails (bad 32 (-1)) (usd 23 (-1)) (by decide)).1,
    (C1_cross_base_fails (usd 23 (-1)) (bad 32 (-1)) (by decide)).2.2.2.2⟩

end trader

/-! ## Minor units -/

namespace trader

/-- C2: on the context of the test-suite (base USD at 1, EUR at 0.8), the amount 2.3 EUR
made by `NewAmount` is in a 2-decimal currency, so its value times `10 ^ 2` is 230; yet
`Int64` returns 288: `Mul` converts both the amount and the factor 100 to the base
currency, so the product is 2.875 * 125 = 359.375 USD, which is 287.5 EUR.  The same value
in the base currency, 2.3 USD, gives 230. -/
theorem C2_Int64_non_base_currency :
    New testCurrencies "usd" = (some testTrader, none) ∧
    testTrader.NewAmount ⟨23, -1⟩ "eur" = (some (eur 23 (-1)), none) ∧
    (eur 23 (-1)).Currency.DecimalPlaces = 2 ∧
    (eur 23 (-1)).Mul (eur 100 0) =
      .ret (some (eur 287500000000000000000000000000000000 (-33)), none) ∧
    (eur 23 (-1)).Int64 = .ret (288, none) ∧
    (usd 23 (-1)).Int64 = .ret (230, none) := by
  decide

end trader

/-! ## Arithmetic in the receiver's currency -/

namespace trader

/-- C3: let `a` be made by `NewAmount` on a context whose base code resolves in its
registry, and let `b` be an amount whose context has the same base code, the rates of both
currencies being positive.  The two base-currency values `x` and `y` are computed.  `Add`
and `Sub` return an amount in the currency of `a` whose value is the decimal operation
applied to `x` and `y`, taken as it is when `a` is in the base currency and multiplied by
the rate of the currency of `a` otherwise (`fromBase`); so does `Mul` with the decimal
product of `x` and `y`, and `Div` with the decimal quotient, which is within
`0.5 * 10 ^ (-16)` of the exact one, when `y` is not zero.  Each decimal product is the one
`Mul` of the decimal library returns, and it is returned when the sum of the exponents of
its factors is an `int32` (`isInt32`, `fits`), which is the condition put on each case; the
last conjuncts give the numbers these decimals stand for. -/
theorem C3_arith_in_receiver_currency (t : Trader) (d : Decimal) (code : String) (a b : Amount)
    (hbase : (t.Currencies.Find t.BaseCurrency.Code).2 = none)
    (ha : t.NewAmount d code = (some a, none))
    (hsame : a.Trader.BaseCurrency.Code = b.Trader.BaseCurrency.Code)
    (hra : 0 < a.Currency.Value.value) (hrb : 0 < b.Currency.Value.value) :
    ∃ x y, a.BaseCurrencyValue = .ret x ∧ b.BaseCurrencyValue = .ret y ∧
      (a.fits (x.Add y) →
        a.Add b = .ret (some { Trader := t, Value := a.fromBase (x.Add y),
                               Currency := a.Currency }, none)) ∧
      (a.fits (x.Sub y) →
        a.Sub b = .ret (some { Trader := t, Value := a.fromBase (x.Sub y),
                               Currency := a.Currency }, none)) ∧
      (isInt32 (x.exp + y.exp) → a.fits (x.product y) →
        x.Mul y = .ret (x.product y) ∧
        a.Mul b = .ret (some { Trader := t, Value := a.fromBase (x.product y),
                               Currency := a.Currency }, none)) ∧
      (y.value ≠ 0 → ∃ q, x.Div y = .ret q ∧
        (a.fits q →
          a.Div b = .ret (some { Trader := t, Value := a.fromBase q,
                                 Currency := a.Currency }, none)) ∧
        |q.toRat - x.toRat / y.toRat| ≤ 1 / 2 * (10 : ℚ) ^ (-16 : Int)) ∧
      (x.Add y).toRat = x.toRat + y.toRat ∧
      (x.Sub y).toRat = x.toRat - y.toRat ∧
      (x.product y).toRat = x.toRat * y.toRat ∧
      (∀ c : Decimal, a.Currency.Is a.Trader.BaseCurrency.Code = true → a.fromBase c = c) ∧
      (∀ c : Decimal, a.Currency.Is a.Trader.BaseCurrency.Code = false → a.fits c →
        c.Mul a.Currency.Value = .ret (a.fromBase c)) ∧
      (∀ c : Decimal, (a.fromBase c).toRat =
        if a.Currency.Is a.Trader.BaseCurrency.Code = true then c.toRat
        else c.toRat * a.Currency.Value.toRat) := by
  obtain ⟨x, hx⟩ := Amount.BaseCurrencyValue_ret a hra.ne'
  obtain ⟨y, hy⟩ := Amount.BaseCurrencyValue_ret b hrb.ne'
  obtain ⟨h1, h2, h3, h4⟩ := arith_of_values t d code a b hbase ha hsame hx hy
  refine ⟨x, y, hx, hy, h1, h2, fun hi hf => ⟨Decimal.Mul_of_isInt32 x y hi, h3 hi hf⟩, ?_,
    Decimal.toRat_Add x y, Decimal.toRat_Sub x y, Decimal.toRat_product x y, ?_, ?_,
    toRat_fromBase a⟩
  · intro hy0
    obtain ⟨q, hq, _, hb, _⟩ := Decimal.Div_spec x y hy0
    exact ⟨q, hq, h4 q hq, hb⟩
  · intro c hb
    simp [Amount.fromBase, hb]
  · intro c hb hf
    have hi : isInt32 (c.exp + a.Currency.Value.exp) :=
      hf.resolve_left (by rw [hb]; simp)
    rw [Decimal.Mul_of_isInt32 _ _ hi]
    simp [Amount.fromBase, hb]

/-- C3 on the test context: 2.56 EUR + 2.3 USD = 4.4 EUR, and 2.3 USD / 3.2 USD =
0.71875 USD. -/
theorem C3_arith_in_receiver_currency_witness :
    ((testTrader.Currencies.Find testTrader.BaseCurrency.Code).2 = none ∧
      testTrader.NewAmount ⟨256, -2⟩ "eur" = (some (eur 256 (-2)), none) ∧
      (eur 256 (-2)).Trader.BaseCurrency.Code = (usd 23 (-1)).Trader.BaseCurrency.Code ∧
      0 < (eur 256 (-2)).Currency.Value.value ∧ 0 < (usd 23 (-1)).Currency.Value.value) ∧
    (eur 256 (-2)).Add (usd 23 (-1)) = .ret (some (eur 440000000000000000 (-17)), none) ∧
    (eur 256 (-2)).Mul (usd 23 (-1)) = .ret (some (eur 5888000000000000000 (-18)), none) := by
  refine ⟨⟨by decide, by decide, by decide, by decide, by decide⟩, ?_⟩
  obtain ⟨x, y, hx, hy, hadd, _, hmul, _⟩ :=
    C3_arith_in_receiver_currency testTrader ⟨256, -2⟩ "eur" (eur 256 (-2)) (usd 23 (-1))
      (by decide) (by decide) (by decide) (by decide) (by decide)
  have hx1 : (eur 256 (-2)).BaseCurrencyValue = .ret ⟨32000000000000000, -16⟩ := by decide
  have hy1 : (usd 23 (-1)).BaseCurrencyValue = .ret ⟨23, -1⟩ := by decide
  rw [hx1] at hx
  rw [hy1] at hy
  cases hx
  cases hy
  refine ⟨?_, ?_⟩
  · rw [hadd (by decide)]
    decide
  · rw [(hmul (by decide) (by decide)).2]
    decide

end trader

/-! ## Errors of the arithmetic methods -/

namespace trader

/-- C4: let `a` be made by `NewAmount` on a context whose base code resolves in its
registry, and let `b` be any amount.  Each of `Add`, `Sub`, `Mul` and `Cmp` returns an
error if and only if the base-currency codes of the two contexts differ.  When the codes are
equal and the rates of the two currencies are positive, the two base-currency values `x` and
`y` are computed, `Cmp` returns an integer and no error, and each of `Add`, `Sub` and `Mul`
returns a non-nil amount and no error, whatever the currencies of `a` and `b` are, as soon
as the decimal products it computes have an exponent that is an `int32` (`isInt32`,
`fits`). -/
theorem C4_error_iff_base_codes_differ (t : Trader) (d : Decimal) (code : String) (a b : Amount)
    (hbase : (t.Currencies.Find t.BaseCurrency.Code).2 = none)
    (ha : t.NewAmount d code = (some a, none)) :
    (((∃ r e, a.Add b = .ret (r, some e)) ↔
        a.Trader.BaseCurrency.Code ≠ b.Trader.BaseCurrency.Code) ∧
      ((∃ r e, a.Sub b = .ret (r, some e)) ↔
        a.Trader.BaseCurrency.Code ≠ b.Trader.BaseCurrency.Code) ∧
      ((∃ r e, a.Mul b = .ret (r, some e)) ↔
        a.Trader.BaseCurrency.Code ≠ b.Trader.BaseCurrency.Code) ∧
      ((∃ r e, a.Cmp b = .ret (r, some e)) ↔
        a.Trader.BaseCurrency.Code ≠ b.Trader.BaseCurrency.Code)) ∧
    (a.Trader.BaseCurrency.Code = b.Trader.BaseCurrency.Code →
      0 < a.Currency.Value.value → 0 < b.Currency.Value.value →
      ∃ x y, a.BaseCurrencyValue = .ret x ∧ b.BaseCurrencyValue = .ret y ∧
        (a.fits (x.Add y) → ∃ r, a.Add b = .ret (some r, none)) ∧
        (a.fits (x.Sub y) → ∃ r, a.Sub b = .ret (some r, none)) ∧
        (isInt32 (x.exp + y.exp) → a.fits (x.product y) →
          ∃ r, a.Mul b = .ret (some r, none)) ∧
        (∃ c, a.Cmp b = .ret (c, none))) := by
  refine ⟨⟨⟨?_, ?_⟩, ⟨?_, ?_⟩, ⟨?_, ?_⟩, ⟨?_, ?_⟩⟩, ?_⟩
  · exact fun h hsame => (arith_no_error t d code a b hbase ha hsame).1 h
  · exact fun hne => ⟨_, _, (binop_mismatch a b hne).1⟩
  · exact fun h hsame => (arith_no_error t d code a b hbase ha hsame).2.1 h
  · exact fun hne => ⟨_, _, (binop_mismatch a b hne).2.1⟩
  · exact fun h hsame => (arith_no_error t d code a b hbase ha hsame).2.2.1 h
  · exact fun hne => ⟨_, _, (binop_mismatch a b hne).2.2.1⟩
  · exact fun h hsame => (arith_no_error t d code a b hbase ha hsame).2.2.2 h
  · exact fun hne => ⟨_, _, (binop_mismatch a b hne).2.2.2.2⟩
  · intro hsame hra hrb
    obtain ⟨x, hx⟩ := Amount.BaseCurrencyValue_ret a hra.ne'
    obtain ⟨y, hy⟩ := Amount.BaseCurrencyValue_ret b hrb.ne'
    obtain ⟨h1, h2, h3, _⟩ := arith_of_values t d code a b hbase ha hsame hx hy
    exact ⟨x, y, hx, hy, fun hf => ⟨_, h1 hf⟩, fun hf => ⟨_, h2 hf⟩,
      fun hi hf => ⟨_, h3 hi hf⟩, ⟨_, Amount_Cmp_eq a b hsame hx hy⟩⟩

/-- C4 on the test contexts: EUR and USD amounts of one context add up without error,
and adding an amount of the context based on BAD is an error. -/
theorem C4_error_iff_base_codes_differ_witness :
    ((testTrader.Currencies.Find testTrader.BaseCurrency.Code).2 = none ∧
      testTrader.NewAmount ⟨256, -2⟩ "eur" = (some (eur 256 (-2)), none) ∧
      (eur 256 (-2)).Trader.BaseCurrency.Code = (usd 23 (-1)).Trader.BaseCurrency.Code ∧
      (eur 256 (-2)).Trader.BaseCurrency.Code ≠ (bad 32 (-1)).Trader.BaseCurrency.Code ∧
      0 < (eur 256 (-2)).Currency.Value.value ∧ 0 < (usd 23 (-1)).Currency.Value.value) ∧
    (∃ r, (eur 256 (-2)).Add (usd 23 (-1)) = .ret (some r, none)) ∧
    (∃ r e, (eur 256 (-2)).Add (bad 32 (-1)) = .ret (r, some e)) := by
  refine ⟨⟨by decide, by decide, by decide, by decide, by decide, by decide⟩, ?_,
    (C4_error_iff_base_codes_differ testTrader ⟨256, -2⟩ "eur" (eur 256 (-2)) (bad 32 (-1))
      (by decide) (by decide)).1.1.mpr (by decide)⟩
  obtain ⟨x, y, hx, hy, hadd, _⟩ :=
    (C4_error_iff_base_codes_differ testTrader ⟨256, -2⟩ "eur" (eur 256 (-2)) (usd 23 (-1))
      (by decide) (by decide)).2 (by decide) (by decide) (by decide)
  have hx1 : (eur 256 (-2)).BaseCurrencyValue = .ret ⟨32000000000000000, -16⟩ := by decide
  have hy1 : (usd 23 (-1)).BaseCurrencyValue = .ret ⟨23, -1⟩ := by decide
  rw [hx1] at hx
  rw [hy1] at hy
  cases hx
  cases hy
  exact hadd (by decide)

end trader

/-! ## Conversion -/

namespace trader

/-- Conversion to a code that the registry does not hold, from an amount in another
currency: the error of `Find` is returned with no amount. -/
theorem ToCurrency_not_found (a : Amount) {x : Decimal} {e : String} (code : String)
    (hc : a.Currency.Is code = false)
    (hx : a.BaseCurrencyValue = .ret x)
    (hbase : (a.Trader.Currencies.Find a.Trader.BaseCurrency.Code).2 = none)
    (hf : a.Trader.Currencies.Find code = (none, some e)) :
    a.ToCurrency code = .ret (none, some e) := by
  obtain ⟨B, hB, _, hBc⟩ := Find_snd_none _ _ hbase
  have hcode : ToUpper code ≠ ToUpper a.Trader.BaseCurrency.Code := by
    intro h
    have := Find_congr_some a.Trader.Currencies h.symm hB
    rw [this] at hf
    cases hf
  by_cases h1 : a.Currency.Is a.Trader.BaseCurrency.Code = true
  · simp [Amount.ToCurrency, hc, Amount.BaseCurrencyAmount_base a h1, Exec.bind, hf]
  · have h1' : a.Currency.Is a.Trader.BaseCurrency.Code = false := by simpa using h1
    have h2 : B.Is code = false := by
      rw [Is_false_iff, hBc]; exact fun h => hcode h.symm
    simp [Amount.ToCurrency, hc, Amount.BaseCurrencyAmount_other a h1' hx hB, Exec.bind, h2, hf]

/-- When `Find` has the code, `ToCurrency` returns no error, whatever the rates are. -/
theorem ToCurrency_no_error (a : Amount) (code : String) {c : Currency}
    (hf : a.Trader.Currencies.Find code = (some c, none)) :
    ¬ ∃ r e, a.ToCurrency code = .ret (r, some e) := by
  rintro ⟨r, e, h⟩
  unfold Amount.ToCurrency at h
  by_cases h1 : a.Currency.Is code = true
  · simp [h1] at h
  · simp only [h1] at h
    cases hb : a.BaseCurrencyAmount with
    | panic m => simp [hb, Exec.bind] at h
    | ret b? =>
      cases b? with
      | none => simp [hb, Exec.bind] at h
      | some b =>
        by_cases h2 : b.Currency.Is code = true
        · simp [hb, Exec.bind, h2] at h
        · cases hm : b.Value.Mul c.Value with
          | panic m => simp [hb, Exec.bind, h2, hf, hm] at h
          | ret v =>
            simp [hb, Exec.bind, h2, hf, hm, NewAmount_of_Find a.Trader _ hf] at h

/-- C5: if the currency of `a` is the base currency of its context (its code is the
upper-cased base code), `BaseCurrencyValue` returns the value of `a` itself, whatever the
rates are; otherwise, the rate of the currency of `a` being non-zero, it returns the decimal
quotient of the value by that rate: a decimal with 16 fractional digits, within half a unit
of the 16th digit of the exact quotient, and equal to it when the exact quotient has at most
16 fractional digits. -/
theorem C5_BaseCurrencyValue (a : Amount) :
    (a.Currency.Is a.Trader.BaseCurrency.Code = true → a.BaseCurrencyValue = .ret a.Value) ∧
    (a.Currency.Is a.Trader.BaseCurrency.Code = false → a.Currency.Value.value ≠ 0 →
      ∃ q, a.BaseCurrencyValue = .ret q ∧ a.Value.Div a.Currency.Value = .ret q ∧
        q.exp = -16 ∧
        |q.toRat - a.Value.toRat / a.Currency.Value.toRat| ≤ 1 / 2 * (10 : ℚ) ^ (-16 : Int) ∧
        ((∃ n : Int, a.Value.toRat / a.Currency.Value.toRat = n * (10 : ℚ) ^ (-16 : Int)) →
          q.toRat = a.Value.toRat / a.Currency.Value.toRat)) := by
  refine ⟨Amount.BaseCurrencyValue_base a, fun h hr => ?_⟩
  obtain ⟨q, hq, he, hb, hex⟩ := Decimal.Div_spec a.Value a.Currency.Value hr
  exact ⟨q, by rw [Amount.BaseCurrencyValue_other a h, hq], hq, he, hb, hex⟩

/-- C5 on the test context: 1 USD stays 1, and 1 EUR at rate 0.8 gives 1.25. -/
theorem C5_BaseCurrencyValue_witness :
    ((usd 1 0).Currency.Is (usd 1 0).Trader.BaseCurrency.Code = true ∧
      (eur 1 0).Currency.Is (eur 1 0).Trader.BaseCurrency.Code = false ∧
      (eur 1 0).Currency.Value.value ≠ 0) ∧
    (usd 1 0).BaseCurrencyValue = .ret ⟨1, 0⟩ ∧
    (eur 1 0).BaseCurrencyValue = .ret ⟨12500000000000000, -16⟩ := by
  refine ⟨⟨by decide, by decide, by decide⟩, (C5_BaseCurrencyValue (usd 1 0)).1 (by decide), ?_⟩
  obtain ⟨q, hq, hd, _⟩ := (C5_BaseCurrencyValue (eur 1 0)).2 (by decide) (by decide)
  rw [hq, ← hd]
  decide

/-- C6: let `a` be made by `NewAmount` on a context whose base code resolves in its
registry, the rate `r` of the currency of `a` being positive; when `a` is not in the base
currency, let the exponent of `r` minus 16 be an `int32`, so that the product of a decimal
with 16 fractional digits and `r`, which the way back computes, is a decimal of the library
(otherwise `Mul` panics).  Converting `a` to the base currency and the result back to the
currency of `a`, the two codes being written in any letter case, succeeds twice and returns
an amount in the currency of `a` whose value differs from the value of `a` by at most
`r * 10 ^ (-16)`, and equals it when `a.Value / r` has at most 16 fractional digits. -/
theorem C6_round_trip (t : Trader) (d : Decimal) (code : String) (a : Amount)
    (codeB codeX : String)
    (hbase : (t.Currencies.Find t.BaseCurrency.Code).2 = none)
    (ha : t.NewAmount d code = (some a, none))
    (hr : 0 < a.Currency.Value.value)
    (hfit : a.Currency.Is t.BaseCurrency.Code = true ∨ isInt32 (-16 + a.Currency.Value.exp))
    (hcB : ToUpper codeB = ToUpper t.BaseCurrency.Code)
    (hcX : ToUpper codeX = ToUpper code) :
    ∃ b c, a.ToCurrency codeB = .ret (some b, none) ∧
      b.ToCurrency codeX = .ret (some c, none) ∧
      c.Currency = a.Currency ∧
      |c.Value.toRat - a.Value.toRat| ≤ a.Currency.Value.toRat * (10 : ℚ) ^ (-16 : Int) ∧
      ((∃ n : Int, a.Value.toRat / a.Currency.Value.toRat = n * (10 : ℚ) ^ (-16 : Int)) →
        c.Value.toRat = a.Value.toRat) := by
  obtain ⟨hf, ht, _⟩ := NewAmount_eq_some t d code a ha
  subst ht
  have hfX := Find_congr_some a.Trader.Currencies hcX.symm hf
  have hXis : a.Currency.Is codeX = true := (Is_iff _ _).mpr (Find_Code_eq _ hfX)
  have hrpos : (0 : ℚ) < a.Currency.Value.toRat := (Decimal.toRat_pos_iff _).mpr hr
  have hpos : (0 : ℚ) < (10 : ℚ) ^ (-16 : Int) := Decimal.ten_zpow_pos _
  by_cases h1 : a.Currency.Is a.Trader.BaseCurrency.Code = true
  · have hBis : a.Currency.Is codeB = true := by rw [Is_congr a.Currency hcB]; exact h1
    refine ⟨a, a, Amount.ToCurrency_same a _ hBis, Amount.ToCurrency_same a _ hXis, rfl, ?_,
      fun _ => rfl⟩
    rw [sub_self, abs_zero]
    exact (mul_pos hrpos hpos).le
  · have h1' : a.Currency.Is a.Trader.BaseCurrency.Code = false := by simpa using h1
    have hBis : a.Currency.Is codeB = false := by rw [Is_congr a.Currency hcB]; exact h1'
    obtain ⟨B, hB, _, hBc⟩ := Find_snd_none _ _ hbase
    obtain ⟨q, hq, hqe, hbound, hexact⟩ := Decimal.Div_spec a.Value a.Currency.Value hr.ne'
    have hi : isInt32 (q.exp + a.Currency.Value.exp) := by
      rw [hqe]; exact hfit.resolve_left h1
    have hx : a.BaseCurrencyValue = .ret q := by
      rw [Amount.BaseCurrencyValue_other a h1', hq]
    have hBB : B.Is a.Trader.BaseCurrency.Code = true := (Is_iff _ _).mpr hBc
    have hneX : ToUpper codeX ≠ ToUpper a.Trader.BaseCurrency.Code := by
      rw [← Find_Code_eq _ hfX]; exact (Is_false_iff _ _).mp h1'
    have hBX : B.Is codeX = false := by
      rw [Is_false_iff, hBc]; exact fun h => hneX h.symm
    have hback : (Amount.mk a.Trader q B).ToCurrency codeX =
        .ret (some { Trader := a.Trader, Value := q.product a.Currency.Value,
                     Currency := a.Currency }, none) := by
      rw [Amount.ToCurrency_other (Amount.mk a.Trader q B) codeX hBX hneX
        (Amount.BaseCurrencyValue_base _ hBB) hbase hfX, Decimal.Mul_of_isInt32 _ _ hi]
      rfl
    have hdiff : (q.product a.Currency.Value).toRat - a.Value.toRat =
        (q.toRat - a.Value.toRat / a.Currency.Value.toRat) * a.Currency.Value.toRat := by
      rw [Decimal.toRat_product, sub_mul, div_mul_cancel₀ _ hrpos.ne']
    refine ⟨_, _, Amount.ToCurrency_base a codeB hBis hcB hx hB, hback, rfl, ?_, ?_⟩
    · show |(q.product a.Currency.Value).toRat - a.Value.toRat| ≤ _
      rw [hdiff, abs_mul, abs_of_pos hrpos, mul_comm]
      have h2 := mul_le_mul_of_nonneg_left hbound hrpos.le
      have h3 : a.Currency.Value.toRat * (1 / 2 * (10 : ℚ) ^ (-16 : Int)) ≤
          a.Currency.Value.toRat * (10 : ℚ) ^ (-16 : Int) := by
        apply mul_le_mul_of_nonneg_left _ hrpos.le
        linarith
      linarith
    · intro hn
      show (q.product a.Currency.Value).toRat = a.Value.toRat
      rw [Decimal.toRat_product, hexact hn, div_mul_cancel₀ _ hrpos.ne']

/-- C6 on the test context: 1.6 EUR goes to 2 USD and back to 1.6 EUR. -/
theorem C6_round_trip_witness :
    ((testTrader.Currencies.Find testTrader.BaseCurrency.Code).2 = none ∧
      testTrader.NewAmount ⟨16, -1⟩ "eur" = (some (eur 16 (-1)), none) ∧
      0 < (eur 16 (-1)).Currency.Value.value ∧
      isInt32 (-16 + (eur 16 (-1)).Currency.Value.exp) ∧
      ToUpper "usd" = ToUpper testTrader.BaseCurrency.Code ∧ ToUpper "Eur" = ToUpper "eur") ∧
    ∃ b c, (eur 16 (-1)).ToCurrency "usd" = .ret (some b, none) ∧
      b.ToCurrency "Eur" = .ret (some c, none) ∧
      c.Currency = (eur 16 (-1)).Currency ∧
      |c.Value.toRat - (eur 16 (-1)).Value.toRat| ≤
        (eur 16 (-1)).Currency.Value.toRat * (10 : ℚ) ^ (-16 : Int) ∧
      ((∃ n : Int, (eur 16 (-1)).Value.toRat / (eur 16 (-1)).Currency.Value.toRat =
          n * (10 : ℚ) ^ (-16 : Int)) → c.Value.toRat = (eur 16 (-1)).Value.toRat) :=
  ⟨⟨by decide, by decide, by decide, by decide, by decide, by decide⟩,
    C6_round_trip testTrader ⟨16, -1⟩ "eur" (eur 16 (-1)) "usd" "Eur"
      (by decide) (by decide) (by decide) (Or.inr (by decide)) (by decide) (by decide)⟩

/-- C7: for an amount `a` made by `NewAmount`, converting `a` to the code of its own
currency returns `a` itself (same context, value and currency) and no error; no rate is
looked at, so this holds for every rate, zero included. -/
theorem C7_ToCurrency_own_code (t : Trader) (d : Decimal) (code : String) (a : Amount)
    (ha : t.NewAmount d code = (some a, none)) :
    a.ToCurrency a.Currency.Code = .ret (some a, none) := by
  obtain ⟨hf, _, _⟩ := NewAmount_eq_some t d code a ha
  exact Amount.ToCurrency_same a _ ((Is_iff _ _).mpr (Find_Code_upper _ hf).symm)

/-- C7 on the test context, at 2 EUR. -/
theorem C7_ToCurrency_own_code_witness :
    testTrader.NewAmount ⟨2, 0⟩ "eur" = (some (eur 2 0), none) ∧
    (eur 2 0).ToCurrency "EUR" = .ret (some (eur 2 0), none) :=
  ⟨by decide, C7_ToCurrency_own_code testTrader ⟨2, 0⟩ "eur" (eur 2 0) (by decide)⟩

/-- C8: let `a` be made by `NewAmount` on a context whose base code resolves in its
registry.  For every code, if `ToCurrency` returns an error then `Find` returns an error for
that code; and, the rate of the currency of `a` being positive, `ToCurrency` returns an
error if and only if `Find` returns one: it is then the error of `Find`, with no amount.
When `Find` returns the entry `c`, the base-currency value `x` of `a` is computed and a
non-nil amount is returned, as soon as the code is the one of the currency of `a`, or the
base code, or the exponent of the product of `x` and the rate of `c` is an `int32`. -/
theorem C8_ToCurrency_error_iff (t : Trader) (d : Decimal) (code0 : String) (a : Amount)
    (code : String)
    (hbase : (t.Currencies.Find t.BaseCurrency.Code).2 = none)
    (ha : t.NewAmount d code0 = (some a, none)) :
    ((∃ r e, a.ToCurrency code = .ret (r, some e)) →
      ∃ e, (t.Currencies.Find code).2 = some e) ∧
    (0 < a.Currency.Value.value →
      ((∃ r e, a.ToCurrency code = .ret (r, some e)) ↔
        ∃ e, (t.Currencies.Find code).2 = some e) ∧
      (∀ e, (t.Currencies.Find code).2 = some e → a.ToCurrency code = .ret (none, some e)) ∧
      ((t.Currencies.Find code).2 = none →
        ∃ x c, a.BaseCurrencyValue = .ret x ∧ t.Currencies.Find code = (some c, none) ∧
          (a.Currency.Is code = true ∨ ToUpper code = ToUpper t.BaseCurrency.Code ∨
              isInt32 (x.exp + c.Value.exp) →
            ∃ r, a.ToCurrency code = .ret (some r, none)))) := by
  obtain ⟨hf, ht, _⟩ := NewAmount_eq_some t d code0 a ha
  subst ht
  have hdir : (∃ r e, a.ToCurrency code = .ret (r, some e)) →
      ∃ e, (a.Trader.Currencies.Find code).2 = some e := by
    intro h
    rcases Find_cases a.Trader.Currencies code with ⟨w, hw, _, _⟩ | ⟨e1, he1, _⟩
    · exact absurd h (ToCurrency_no_error a code hw)
    · exact ⟨e1, by rw [he1]⟩
  refine ⟨hdir, fun hr => ?_⟩
  obtain ⟨x, hx⟩ := Amount.BaseCurrencyValue_ret a hr.ne'
  obtain ⟨B, hB, _, _⟩ := Find_snd_none _ _ hbase
  have herr : ∀ e, (a.Trader.Currencies.Find code).2 = some e →
      a.ToCurrency code = .ret (none, some e) := by
    intro e he
    rcases Find_cases a.Trader.Currencies code with ⟨w, hw, _, _⟩ | ⟨e1, he1, _⟩
    · rw [hw] at he; cases he
    · have hee : e1 = e := by rw [he1] at he; simpa using he
      subst hee
      have hc : a.Currency.Is code = false := by
        rw [Is_false_iff]
        intro hcon
        have := Find_congr_some a.Trader.Currencies
          ((Find_Code_eq _ hf).symm.trans hcon) hf
        rw [this] at he1
        cases he1
      exact ToCurrency_not_found a code hc hx hbase he1
  have hok : (a.Trader.Currencies.Find code).2 = none →
      ∃ x c, a.BaseCurrencyValue = .ret x ∧ a.Trader.Currencies.Find code = (some c, none) ∧
        (a.Currency.Is code = true ∨ ToUpper code = ToUpper a.Trader.BaseCurrency.Code ∨
            isInt32 (x.exp + c.Value.exp) →
          ∃ r, a.ToCurrency code = .ret (some r, none)) := by
    intro hn
    obtain ⟨c, hc, _, _⟩ := Find_snd_none _ _ hn
    refine ⟨x, c, hx, hc, fun hcase => ?_⟩
    by_cases h1 : a.Currency.Is code = true
    · exact ⟨_, Amount.ToCurrency_same a _ h1⟩
    · have h1' : a.Currency.Is code = false := by simpa using h1
      by_cases h2 : ToUpper code = ToUpper a.Trader.BaseCurrency.Code
      · exact ⟨_, Amount.ToCurrency_base a code h1' h2 hx hB⟩
      · have hi : isInt32 (x.exp + c.Value.exp) := (hcase.resolve_left h1).resolve_left h2
        refine ⟨{ Trader := a.Trader, Value := x.product c.Value, Currency := c }, ?_⟩
        rw [Amount.ToCurrency_other a code h1' h2 hx hbase hc, Decimal.Mul_of_isInt32 _ _ hi]
        rfl
  exact ⟨⟨hdir, fun ⟨e, he⟩ => ⟨none, e, herr e he⟩⟩, herr, hok⟩

/-- C8 on the test context: 2 USD converts to EUR, and not to BAD. -/
theorem C8_ToCurrency_error_iff_witness :
    ((testTrader.Currencies.Find testTrader.BaseCurrency.Code).2 = none ∧
      testTrader.NewAmount ⟨2, 0⟩ "usd" = (some (usd 2 0), none) ∧
      0 < (usd 2 0).Currency.Value.value) ∧
    (usd 2 0).ToCurrency "bad" =
      .ret (none, some "The currency code bad could not be found.") ∧
    ∃ r, (usd 2 0).ToCurrency "eur" = .ret (some r, none) := by
  refine ⟨⟨by decide, by decide, by decide⟩,
    ((C8_ToCurrency_error_iff testTrader ⟨2, 0⟩ "usd" (usd 2 0) "bad"
      (by decide) (by decide)).2 (by decide)).2.1 _ (by decide), ?_⟩
  obtain ⟨x, c, hx, hc, h⟩ :=
    ((C8_ToCurrency_error_iff testTrader ⟨2, 0⟩ "usd" (usd 2 0) "eur"
      (by decide) (by decide)).2 (by decide)).2.2 (by decide)
  have hx1 : (usd 2 0).BaseCurrencyValue = .ret ⟨2, 0⟩ := by decide
  have hc1 : testTrader.Currencies.Find "eur" = (some (NewCurrency 2 "EUR" dec08), none) := by
    decide
  rw [hx1] at hx
  rw [hc1] at hc
  cases hx
  cases hc
  exact h (Or.inr (Or.inr (by decide)))

/-- C9: let the base code of the context of `a` resolve in its registry, the rate of the
currency of `a` being positive, and let `code` be found in the registry, with entry `c`.
The base-currency value `x` of `a` is computed.  When `code` is neither the code of the
currency of `a` nor the base code, and the exponent of the product of `x` and the rate of
`c` is an `int32`, so that `Mul` returns this product, `ToCurrency` returns the amount of
the context of `a` whose currency is `c` and whose value is `x` multiplied (as decimals,
hence exactly) by the rate of `c`; when `code` is the base code, the value of the amount
returned is `x` itself. -/
theorem C9_ToCurrency_value (a : Amount) (code : String) (c : Currency)
    (hbase : (a.Trader.Currencies.Find a.Trader.BaseCurrency.Code).2 = none)
    (hr : 0 < a.Currency.Value.value)
    (hf : a.Trader.Currencies.Find code = (some c, none)) :
    ∃ x, a.BaseCurrencyValue = .ret x ∧
      (a.Currency.Is code = false → ToUpper code ≠ ToUpper a.Trader.BaseCurrency.Code →
        isInt32 (x.exp + c.Value.exp) →
        x.Mul c.Value = .ret (x.product c.Value) ∧
        a.ToCurrency code =
          .ret (some { Trader := a.Trader, Value := x.product c.Value, Currency := c },
            none) ∧
        (x.product c.Value).toRat = x.toRat * c.Value.toRat) ∧
      (ToUpper code = ToUpper a.Trader.BaseCurrency.Code →
        ∃ r, a.ToCurrency code = .ret (some r, none) ∧ r.Value = x ∧
          (a.Currency.Is code = false → r.Currency = c)) := by
  obtain ⟨x, hx⟩ := Amount.BaseCurrencyValue_ret a hr.ne'
  refine ⟨x, hx, fun hown hne hi =>
    ⟨Decimal.Mul_of_isInt32 _ _ hi, ?_, Decimal.toRat_product _ _⟩, ?_⟩
  · rw [Amount.ToCurrency_other a code hown hne hx hbase hf, Decimal.Mul_of_isInt32 _ _ hi]
    rfl
  intro hcode
  have hB := Find_congr_some a.Trader.Currencies hcode hf
  by_cases h1 : a.Currency.Is code = true
  · refine ⟨a, Amount.ToCurrency_same a _ h1, ?_, fun h => ?_⟩
    · have h2 : a.Currency.Is a.Trader.BaseCurrency.Code = true := by
        rw [← Is_congr a.Currency hcode]; exact h1
      rw [Amount.BaseCurrencyValue_base a h2] at hx
      cases hx
      rfl
    · rw [h1] at h; cases h
  · have h1' : a.Currency.Is code = false := by simpa using h1
    exact ⟨_, Amount.ToCurrency_base a code h1' hcode hx hB, rfl, fun _ => rfl⟩

/-- C9 on the test context: 2 USD to EUR at rate 0.8 gives 1.6 EUR. -/
theorem C9_ToCurrency_value_witness :
    ((testTrader.Currencies.Find testTrader.BaseCurrency.Code).2 = none ∧
      0 < (usd 2 0).Currency.Value.value ∧
      testTrader.Currencies.Find "eur" = (some (NewCurrency 2 "EUR" dec08), none) ∧
      (usd 2 0).Currency.Is "eur" = false ∧
      ToUpper "eur" ≠ ToUpper (usd 2 0).Trader.BaseCurrency.Code) ∧
    (usd 2 0).ToCurrency "eur" = .ret (some (eur 16 (-1)), none) := by
  refine ⟨⟨by decide, by decide, by decide, by decide, by decide⟩, ?_⟩
  obtain ⟨x, hx, h1, _⟩ :=
    C9_ToCurrency_value (usd 2 0) "eur" (NewCurrency 2 "EUR" dec08) (by decide) (by decide)
      (by decide)
  have hx1 : (usd 2 0).BaseCurrencyValue = .ret ⟨2, 0⟩ := by decide
  rw [hx1] at hx
  cases hx
  rw [(h1 (by decide) (by decide) (by decide)).2.1]
  decide

end trader

/-! ## Commutativity of addition -/

namespace trader

/-- C10, as stated, fails on the test context: 2.56 EUR and 2.3 USD are made by the same
context, so they share the base currency USD, yet 2.56 EUR + 2.3 USD is 4.4 (EUR) while
2.3 USD + 2.56 EUR is 5.5 (USD), and 4.4 is not 5.5. -/
theorem C10_counterexample :
    testTrader.NewAmount ⟨256, -2⟩ "eur" = (some (eur 256 (-2)), none) ∧
    testTrader.NewAmount ⟨23, -1⟩ "usd" = (some (usd 23 (-1)), none) ∧
    (eur 256 (-2)).Trader.BaseCurrency.Code = (usd 23 (-1)).Trader.BaseCurrency.Code ∧
    (eur 256 (-2)).Add (usd 23 (-1)) = .ret (some (eur 440000000000000000 (-17)), none) ∧
    (usd 23 (-1)).Add (eur 256 (-2)) = .ret (some (usd 55000000000000000 (-16)), none) ∧
    (eur 440000000000000000 (-17)).Value.toRat = 44 / 10 ∧
    (usd 55000000000000000 (-16)).Value.toRat = 55 / 10 ∧
    (eur 440000000000000000 (-17)).Value.toRat ≠ (usd 55000000000000000 (-16)).Value.toRat := by
  have h1 : (eur 440000000000000000 (-17)).Value.toRat = 44 / 10 := by
    simp only [eur, Decimal.toRat]
    norm_num
  have h2 : (usd 55000000000000000 (-16)).Value.toRat = 55 / 10 := by
    simp only [usd, Decimal.toRat]
    norm_num
  refine ⟨by decide, by decide, by decide, by decide, by decide, h1, h2, ?_⟩
  rw [h1, h2]
  norm_num

/-- C10, amended: let `a` and `b` be made by `NewAmount` on contexts with the same base
code, each base code resolving in its registry, the rates of both currencies being positive.
The two base-currency values `x` and `y` are computed, and the base-currency sum is the same
number in both orders.  When the sum can be expressed in the currency of `a` and in the
currency of `b` (`fits`: each is the base currency, or the exponent of the product of the
sum and its rate is an `int32`, so that `Mul` returns this product), `a.Add b` and `b.Add a`
both succeed, each result is in the currency of its receiver, and each value is the
base-currency sum expressed in the currency of the receiver (`fromBase`): the sum itself
for the base currency, the sum times the rate of the receiver otherwise; the two values are
numerically equal when `a` and `b` have the same currency. -/
theorem C10_Add_comm_base (ta tb : Trader) (da db : Decimal) (ca cb : String) (a b : Amount)
    (hbase_a : (ta.Currencies.Find ta.BaseCurrency.Code).2 = none)
    (hbase_b : (tb.Currencies.Find tb.BaseCurrency.Code).2 = none)
    (ha : ta.NewAmount da ca = (some a, none))
    (hb : tb.NewAmount db cb = (some b, none))
    (hsame : a.Trader.BaseCurrency.Code = b.Trader.BaseCurrency.Code)
    (hra : 0 < a.Currency.Value.value) (hrb : 0 < b.Currency.Value.value) :
    ∃ x y, a.BaseCurrencyValue = .ret x ∧ b.BaseCurrencyValue = .ret y ∧
      (x.Add y).toRat = x.toRat + y.toRat ∧ (y.Add x).toRat = x.toRat + y.toRat ∧
      (a.fits (x.Add y) → b.fits (y.Add x) →
        ∃ ra rb, a.Add b = .ret (some ra, none) ∧ b.Add a = .ret (some rb, none) ∧
          ra.Currency = a.Currency ∧ rb.Currency = b.Currency ∧
          ra.Value = a.fromBase (x.Add y) ∧ rb.Value = b.fromBase (y.Add x) ∧
          ra.Value.toRat =
            (if a.Currency.Is a.Trader.BaseCurrency.Code = true then x.toRat + y.toRat
             else (x.toRat + y.toRat) * a.Currency.Value.toRat) ∧
          rb.Value.toRat =
            (if b.Currency.Is b.Trader.BaseCurrency.Code = true then x.toRat + y.toRat
             else (x.toRat + y.toRat) * b.Currency.Value.toRat) ∧
          (a.Currency = b.Currency → ra.Value.toRat = rb.Value.toRat)) := by
  obtain ⟨x, hx⟩ := Amount.BaseCurrencyValue_ret a hra.ne'
  obtain ⟨y, hy⟩ := Amount.BaseCurrencyValue_ret b hrb.ne'
  obtain ⟨h1, _⟩ := arith_of_values ta da ca a b hbase_a ha hsame hx hy
  obtain ⟨h2, _⟩ := arith_of_values tb db cb b a hbase_b hb hsame.symm hy hx
  have hxy : (x.Add y).toRat = x.toRat + y.toRat := Decimal.toRat_Add x y
  have hyx : (y.Add x).toRat = x.toRat + y.toRat := by rw [Decimal.toRat_Add, add_comm]
  refine ⟨x, y, hx, hy, hxy, hyx, fun hfa hfb =>
    ⟨_, _, h1 hfa, h2 hfb, rfl, rfl, rfl, rfl, ?_, ?_, ?_⟩⟩
  · show (a.fromBase (x.Add y)).toRat = _
    rw [toRat_fromBase, hxy]
  · show (b.fromBase (y.Add x)).toRat = _
    rw [toRat_fromBase, hyx]
  · intro hcur
    show (a.fromBase (x.Add y)).toRat = (b.fromBase (y.Add x)).toRat
    rw [toRat_fromBase, toRat_fromBase, ← hcur, ← hsame, hxy, hyx]

/-- C10, amended, on the test context: 2.56 EUR + 2.3 USD = 4.4 EUR and
2.3 USD + 2.56 EUR = 5.5 USD. -/
theorem C10_Add_comm_base_witness :
    ((testTrader.Currencies.Find testTrader.BaseCurrency.Code).2 = none ∧
      testTrader.NewAmount ⟨256, -2⟩ "eur" = (some (eur 256 (-2)), none) ∧
      testTrader.NewAmount ⟨23, -1⟩ "usd" = (some (usd 23 (-1)), none) ∧
      (eur 256 (-2)).Trader.BaseCurrency.Code = (usd 23 (-1)).Trader.BaseCurrency.Code ∧
      0 < (eur 256 (-2)).Currency.Value.value ∧ 0 < (usd 23 (-1)).Currency.Value.value) ∧
    ∃ ra rb, (eur 256 (-2)).Add (usd 23 (-1)) = .ret (some ra, none) ∧
      (usd 23 (-1)).Add (eur 256 (-2)) = .ret (some rb, none) ∧
      ra.Currency = (eur 256 (-2)).Currency ∧ rb.Currency = (usd 23 (-1)).Currency := by
  refine ⟨⟨by decide, by decide, by decide, by decide, by decide, by decide⟩, ?_⟩
  obtain ⟨x, y, hx, hy, _, _, h⟩ :=
    C10_Add_comm_base testTrader testTrader ⟨256, -2⟩ ⟨23, -1⟩ "eur" "usd"
      (eur 256 (-2)) (usd 23 (-1)) (by decide) (by decide) (by decide) (by decide)
      (by decide) (by decide) (by decide)
  have hx1 : (eur 256 (-2)).BaseCurrencyValue = .ret ⟨32000000000000000, -16⟩ := by decide
  have hy1 : (usd 23 (-1)).BaseCurrencyValue = .ret ⟨23, -1⟩ := by decide
  rw [hx1] at hx
  rw [hy1] at hy
  cases hx
  cases hy
  obtain ⟨ra, rb, h1, h2, h3, h4, _⟩ := h (by decide) (by decide)
  exact ⟨ra, rb, h1, h2, h3, h4⟩

end trader

/-! ## Lookup in a registry -/

namespace trader

/-- The currency `Find` returns is the first entry, in registry order, whose code is the
upper-case form of the code asked for. -/
theorem Find_fst_eq_find (cs : Currencies) (code : String) :
    (cs.Find code).1 = cs.find? (fun v => decide (v.Code = ToUpper code)) := by
  induction cs with
  | nil => rfl
  | cons v cs ih =>
    by_cases hv : v.Code = ToUpper code
    · simp [Currencies.Find, Currency.Is, List.find?, hv]
    · simp [Currencies.Find, Currency.Is, List.find?, hv, ih]

/-- C13: `Find` returns the first entry of the registry, in registry order, whose code is
the upper-case form of the code asked for, with no error; it returns an error and no
currency exactly when no entry has that code; and two codes with the same upper-case form
(codes that differ in letter case only) get the same currency, or both get an error (whose
text quotes the code as it was typed). -/
theorem C13_Find (cs : Currencies) (code code1 : String)
    (hcase : ToUpper code = ToUpper code1) :
    (cs.Find code).1 = cs.find? (fun v => decide (v.Code = ToUpper code)) ∧
    (∀ v, cs.find? (fun w => decide (w.Code = ToUpper code)) = some v →
      cs.Find code = (some v, none)) ∧
    ((∃ e, cs.Find code = (none, some e)) ↔ ∀ v ∈ cs, v.Code ≠ ToUpper code) ∧
    ((cs.Find code).2 ≠ none ↔ ∀ v ∈ cs, v.Code ≠ ToUpper code) ∧
    (cs.Find code).1 = (cs.Find code1).1 ∧
    ((cs.Find code).2 = none ↔ (cs.Find code1).2 = none) := by
  have h1 := Find_fst_eq_find cs code
  refine ⟨h1, ?_, ?_, ?_, Find_fst_congr cs hcase, ?_⟩
  · intro v hv
    rcases Find_cases cs code with ⟨w, hw, _, _⟩ | ⟨e, he, _⟩
    · rw [hw] at h1 ⊢
      rw [hv] at h1
      simp only at h1
      rw [h1]
    · rw [he, hv] at h1
      cases h1
  · constructor
    · rintro ⟨e, he⟩
      rcases Find_cases cs code with ⟨w, hw, _, _⟩ | ⟨e1, _, hall⟩
      · rw [hw] at he; cases he
      · exact hall
    · intro hall
      rcases Find_cases cs code with ⟨w, _, hm, hc⟩ | ⟨e1, he1, _⟩
      · exact absurd hc (hall w hm)
      · exact ⟨e1, he1⟩
  · constructor
    · intro hne
      rcases Find_cases cs code with ⟨w, hw, _, _⟩ | ⟨e1, _, hall⟩
      · rw [hw] at hne; exact absurd rfl hne
      · exact hall
    · intro hall
      rcases Find_cases cs code with ⟨w, _, hm, hc⟩ | ⟨e1, he1, _⟩
      · exact absurd hc (hall w hm)
      · rw [he1]; simp
  · constructor
    · intro h
      obtain ⟨v, hv, _, _⟩ := Find_snd_none cs code h
      rw [Find_congr_some cs hcase hv]
    · intro h
      obtain ⟨v, hv, _, _⟩ := Find_snd_none cs code1 h
      rw [Find_congr_some cs hcase.symm hv]

/-- C13 on the test registry: "eur" and "EuR" find the second entry, "bad" finds nothing. -/
theorem C13_Find_witness :
    ToUpper "eur" = ToUpper "EuR" ∧
    testCurrencies.Find "eur" = (some (NewCurrency 2 "EUR" dec08), none) ∧
    (testCurrencies.Find "eur").1 = (testCurrencies.Find "EuR").1 ∧
    testCurrencies.Find "bad" = (none, some "The currency code bad could not be found.") :=
  ⟨by decide, by decide, (C13_Find testCurrencies "eur" "EuR" (by decide)).2.2.2.2.1,
    by decide⟩

/-! ## Creation of an amount -/

/-- C14: `NewAmount` returns an error and no amount exactly when no entry of the registry
of `t` has the upper-case form of the code, the error being the one `Find` returns;
otherwise it returns, with no error, the amount whose context is `t`, whose value is `d`
and whose currency is the entry that `Find` returns. -/
theorem C14_NewAmount (t : Trader) (d : Decimal) (code : String) :
    ((∃ e, t.NewAmount d code = (none, some e)) ↔
      ∀ v ∈ t.Currencies, v.Code ≠ ToUpper code) ∧
    ((∃ e, t.NewAmount d code = (none, some e)) ↔ ∃ e, t.Currencies.Find code = (none, some e)) ∧
    (∀ e, t.Currencies.Find code = (none, some e) → t.NewAmount d code = (none, some e)) ∧
    (∀ c, t.Currencies.Find code = (some c, none) →
      t.NewAmount d code = (some { Trader := t, Value := d, Currency := c }, none)) ∧
    ((∃ v ∈ t.Currencies, v.Code = ToUpper code) →
      ∃ c, t.Currencies.Find code = (some c, none) ∧
        t.NewAmount d code = (some { Trader := t, Value := d, Currency := c }, none)) := by
  have hsome : ∀ c, t.Currencies.Find code = (some c, none) →
      t.NewAmount d code = (some { Trader := t, Value := d, Currency := c }, none) :=
    fun c hc => NewAmount_of_Find t d hc
  have herr : ∀ e, t.Currencies.Find code = (none, some e) → t.NewAmount d code = (none, some e) :=
    fun e he => NewAmount_of_Find_error t d he
  have hiff : (∃ e, t.NewAmount d code = (none, some e)) ↔
      ∃ e, t.Currencies.Find code = (none, some e) := by
    constructor
    · rintro ⟨e, he⟩
      rcases Find_cases t.Currencies code with ⟨w, hw, _, _⟩ | ⟨e1, he1, _⟩
      · rw [hsome w hw] at he; cases he
      · exact ⟨e1, he1⟩
    · rintro ⟨e, he⟩
      exact ⟨e, herr e he⟩
  refine ⟨?_, hiff, herr, hsome, ?_⟩
  · rw [hiff]
    constructor
    · rintro ⟨e, he⟩
      rcases Find_cases t.Currencies code with ⟨w, hw, _, _⟩ | ⟨e1, _, hall⟩
      · rw [hw] at he; cases he
      · exact hall
    · intro hall
      rcases Find_cases t.Currencies code with ⟨w, _, hm, hc⟩ | ⟨e1, he1, _⟩
      · exact absurd hc (hall w hm)
      · exact ⟨e1, he1⟩
  · rintro ⟨v, hm, hc⟩
    rcases Find_cases t.Currencies code with ⟨w, hw, _, _⟩ | ⟨e1, _, hall⟩
    · exact ⟨w, hw, hsome w hw⟩
    · exact absurd hc (hall v hm)

/-- C14 on the test context: 4.2 "usd" is made, 4.2 "bad" is refused. -/
theorem C14_NewAmount_witness :
    testTrader.Currencies.Find "usd" = (some (NewCurrency 1 "USD" dec1), none) ∧
    testTrader.NewAmount ⟨42, -1⟩ "usd" = (some (usd 42 (-1)), none) ∧
    testTrader.NewAmount ⟨42, -1⟩ "bad" =
      (none, some "The currency code bad could not be found.") :=
  ⟨by decide, (C14_NewAmount testTrader ⟨42, -1⟩ "usd").2.2.2.1 _ (by decide),
    (C14_NewAmount testTrader ⟨42, -1⟩ "bad").2.2.1 _ (by decide)⟩

end trader

/-! ## Comparison -/

namespace trader

/-- C15: let the contexts of `a` and `b` have the same base-currency code.  Once the two
base-currency values `x` and `y` are computed, `Cmp` returns no error and the integer
`x.Cmp y`, which is 0 exactly when the two values are the same number, negative exactly
when `x` is smaller and positive exactly when `x` is greater; and the two values are
computed whenever the rates of the two currencies are positive. -/
theorem C15_Cmp (a b : Amount)
    (hsame : a.Trader.BaseCurrency.Code = b.Trader.BaseCurrency.Code) :
    (∀ x y, a.BaseCurrencyValue = .ret x → b.BaseCurrencyValue = .ret y →
      a.Cmp b = .ret (x.Cmp y, none) ∧
      (x.Cmp y = 0 ↔ x.toRat = y.toRat) ∧
      (x.Cmp y < 0 ↔ x.toRat < y.toRat) ∧
      (0 < x.Cmp y ↔ y.toRat < x.toRat)) ∧
    (0 < a.Currency.Value.value → 0 < b.Currency.Value.value →
      ∃ x y, a.BaseCurrencyValue = .ret x ∧ b.BaseCurrencyValue = .ret y) := by
  refine ⟨fun x y hx hy => ⟨Amount_Cmp_eq a b hsame hx hy, Decimal.Cmp_eq_zero_iff x y,
    Decimal.Cmp_neg_iff x y, Decimal.Cmp_pos_iff x y⟩, fun hra hrb => ?_⟩
  obtain ⟨x, hx⟩ := Amount.BaseCurrencyValue_ret a hra.ne'
  obtain ⟨y, hy⟩ := Amount.BaseCurrencyValue_ret b hrb.ne'
  exact ⟨x, y, hx, hy⟩

/-- C15 on the test context: 2.3 USD is smaller than 3.2 USD, and 1.6 EUR equals 2 USD. -/
theorem C15_Cmp_witness :
    ((usd 23 (-1)).Trader.BaseCurrency.Code = (usd 32 (-1)).Trader.BaseCurrency.Code ∧
      (usd 23 (-1)).BaseCurrencyValue = .ret ⟨23, -1⟩ ∧
      (usd 32 (-1)).BaseCurrencyValue = .ret ⟨32, -1⟩ ∧
      (eur 16 (-1)).BaseCurrencyValue = .ret ⟨20000000000000000, -16⟩ ∧
      (usd 2 0).BaseCurrencyValue = .ret ⟨2, 0⟩) ∧
    (usd 23 (-1)).Cmp (usd 32 (-1)) = .ret (-1, none) ∧
    (eur 16 (-1)).Cmp (usd 2 0) = .ret (0, none) := by
  refine ⟨⟨by decide, by decide, by decide, by decide, by decide⟩, ?_, ?_⟩
  · rw [((C15_Cmp (usd 23 (-1)) (usd 32 (-1)) (by decide)).1 ⟨23, -1⟩ ⟨32, -1⟩
      (by decide) (by decide)).1]
    decide
  · rw [((C15_Cmp (eur 16 (-1)) (usd 2 0) (by decide)).1 ⟨20000000000000000, -16⟩ ⟨2, 0⟩
      (by decide) (by decide)).1]
    decide

/-! ## Decimal places -/

/-- C16: for a currency made by `NewCurrency` from a code in any letter case,
`DecimalPlaces` is 0 when the upper-case form of the code is one of the eighteen codes
listed first, 3 when it is one of the seven codes listed next, 4 when it is CLF, and 2 for
every other code; it does not depend on the address or the rate of the currency, nor on
the letter case of the code. -/
theorem C16_DecimalPlaces (addr : Nat) (code : String) (v : Decimal) :
    (ToUpper code ∈ ["BIF", "BYR", "CLP", "DJF", "GNF", "ISK", "JPY", "KMF", "KRW",
        "XPF", "XOF", "XAF", "VUV", "VND", "UYI", "UGX", "RWF", "PYG"] →
      (NewCurrency addr code v).DecimalPlaces = 0) ∧
    (ToUpper code ∈ ["BHD", "IQD", "JOD", "KWD", "LYD", "TND", "OMR"] →
      (NewCurrency addr code v).DecimalPlaces = 3) ∧
    (ToUpper code = "CLF" → (NewCurrency addr code v).DecimalPlaces = 4) ∧
    (ToUpper code ∉ ["BIF", "BYR", "CLP", "DJF", "GNF", "ISK", "JPY", "KMF", "KRW",
        "XPF", "XOF", "XAF", "VUV", "VND", "UYI", "UGX", "RWF", "PYG"] →
      ToUpper code ∉ ["BHD", "IQD", "JOD", "KWD", "LYD", "TND", "OMR"] →
      ToUpper code ≠ "CLF" → (NewCurrency addr code v).DecimalPlaces = 2) ∧
    (∀ (addr1 : Nat) (code1 : String) (v1 : Decimal), ToUpper code1 = ToUpper code →
      (NewCurrency addr1 code1 v1).DecimalPlaces = (NewCurrency addr code v).DecimalPlaces) := by
  refine ⟨?_, ?_, ?_, ?_, ?_⟩
  · intro h
    simp only [Currency.DecimalPlaces, NewCurrency, h, if_true]
  · intro h
    have h0 : ToUpper code ∉ ["BIF", "BYR", "CLP", "DJF", "GNF", "ISK", "JPY", "KMF", "KRW",
        "XPF", "XOF", "XAF", "VUV", "VND", "UYI", "UGX", "RWF", "PYG"] := by
      generalize ToUpper code = s at h
      simp only [List.mem_cons, List.mem_singleton, List.not_mem_nil, or_false] at h
      rcases h with rfl | rfl | rfl | rfl | rfl | rfl | rfl <;> decide
    simp only [Currency.DecimalPlaces, NewCurrency, h0, h, if_true, if_false]
  · intro h
    simp only [Currency.DecimalPlaces, NewCurrency, h]
    decide
  · intro h0 h3 h4
    simp only [Currency.DecimalPlaces, NewCurrency, h0, h3, h4, if_false]
  · intro addr1 code1 v1 h
    simp only [Currency.DecimalPlaces, NewCurrency, h]

/-- C16 on codes in lower case: JPY has 0 decimal places, BHD 3, CLF 4 and USD 2. -/
theorem C16_DecimalPlaces_witness :
    (NewCurrency 1 "jpy" dec1).DecimalPlaces = 0 ∧
    (NewCurrency 1 "bhd" dec1).DecimalPlaces = 3 ∧
    (NewCurrency 1 "clf" dec1).DecimalPlaces = 4 ∧
    (NewCurrency 1 "usd" dec1).DecimalPlaces = 2 ∧
    (NewCurrency 7 "Jpy" dec08).DecimalPlaces = (NewCurrency 1 "jpy" dec1).DecimalPlaces :=
  ⟨(C16_DecimalPlaces 1 "jpy" dec1).1 (by decide),
    (C16_DecimalPlaces 1 "bhd" dec1).2.1 (by decide),
    (C16_DecimalPlaces 1 "clf" dec1).2.2.1 (by decide),
    (C16_DecimalPlaces 1 "usd" dec1).2.2.2.1 (by decide) (by decide) (by decide),
    (C16_DecimalPlaces 1 "jpy" dec1).2.2.2.2 7 "Jpy" dec08 (by decide)⟩

/-! ## The base-currency amount -/

/-- C19: when the currency of `a` is the base currency of its context,
`BaseCurrencyAmount` returns `a` itself.  Otherwise, the base code resolving in the registry
to the entry `B` and the rate of the currency of `a` being non-zero, it returns a non-nil
amount of the context of `a`, in the currency `B` (whose code is the base code), whose
value is the base-currency value of `a`: the decimal quotient of the value of `a` by the
rate of its currency, within `0.5 * 10 ^ (-16)` of the exact quotient. -/
theorem C19_BaseCurrencyAmount (a : Amount) :
    (a.Currency.Is a.Trader.BaseCurrency.Code = true → a.BaseCurrencyAmount = .ret (some a)) ∧
    (a.Currency.Is a.Trader.BaseCurrency.Code = false →
      (a.Trader.Currencies.Find a.Trader.BaseCurrency.Code).2 = none →
      a.Currency.Value.value ≠ 0 →
      ∃ q B, a.Trader.Currencies.Find a.Trader.BaseCurrency.Code = (some B, none) ∧
        B.Is a.Trader.BaseCurrency.Code = true ∧
        a.BaseCurrencyValue = .ret q ∧
        a.BaseCurrencyAmount = .ret (some { Trader := a.Trader, Value := q, Currency := B }) ∧
        |q.toRat - a.Value.toRat / a.Currency.Value.toRat| ≤ 1 / 2 * (10 : ℚ) ^ (-16 : Int) ∧
        ((∃ n : Int, a.Value.toRat / a.Currency.Value.toRat = n * (10 : ℚ) ^ (-16 : Int)) →
          q.toRat = a.Value.toRat / a.Currency.Value.toRat)) := by
  refine ⟨Amount.BaseCurrencyAmount_base a, fun h hbase hr => ?_⟩
  obtain ⟨B, hB, _, hBc⟩ := Find_snd_none _ _ hbase
  obtain ⟨q, hq, _, hb, hex⟩ := Decimal.Div_spec a.Value a.Currency.Value hr
  have hx : a.BaseCurrencyValue = .ret q := by rw [Amount.BaseCurrencyValue_other a h, hq]
  exact ⟨q, B, hB, (Is_iff _ _).mpr hBc, hx, Amount.BaseCurrencyAmount_other a h hx hB, hb, hex⟩

/-- C19 on the test context: 1 USD stays as it is, and 1 EUR at rate 0.8 gives 1.25 USD. -/
theorem C19_BaseCurrencyAmount_witness :
    ((usd 1 0).Currency.Is (usd 1 0).Trader.BaseCurrency.Code = true ∧
      (eur 1 0).Currency.Is (eur 1 0).Trader.BaseCurrency.Code = false ∧
      ((eur 1 0).Trader.Currencies.Find (eur 1 0).Trader.BaseCurrency.Code).2 = none ∧
      (eur 1 0).Currency.Value.value ≠ 0) ∧
    (usd 1 0).BaseCurrencyAmount = .ret (some (usd 1 0)) ∧
    (eur 1 0).BaseCurrencyAmount = .ret (some (usd 12500000000000000 (-16))) := by
  refine ⟨⟨by decide, by decide, by decide, by decide⟩,
    (C19_BaseCurrencyAmount (usd 1 0)).1 (by decide), ?_⟩
  obtain ⟨q, B, hB, _, hq, h, _⟩ :=
    (C19_BaseCurrencyAmount (eur 1 0)).2 (by decide) (by decide) (by decide)
  have hB1 : (eur 1 0).Trader.Currencies.Find (eur 1 0).Trader.BaseCurrency.Code =
      (some (NewCurrency 1 "USD" dec1), none) := by decide
  have hq1 : (eur 1 0).BaseCurrencyValue = .ret ⟨12500000000000000, -16⟩ := by decide
  rw [hB1] at hB
  rw [hq1] at hq
  cases hB
  cases hq
  rw [h]
  decide

end trader

/-! ## Addition followed by subtraction -/

namespace trader

/-- C11: let `a` be made by `NewAmount` on a context whose base code resolves in its
registry, and let `b` be an amount whose context has the same base code, the rates of both
currencies being positive.  The two base-currency values `x` and `y` are computed.  When
the base-currency sum can be expressed in the currency of `a` (`fits`: this is the base
currency, or the exponent of the product of the sum and the rate is an `int32`, so that
`Mul` returns this product), `a.Add b` succeeds with some amount `s`, `s.Sub b` succeeds
with some amount `r` in the currency of `a`, the value of `r` is the same number as the
value of `a` when `a` is in the base currency, and in every case it differs from the value
of `a` by at most the rate of the currency of `a` times `10 ^ (-16)`. -/
theorem C11_Add_then_Sub (t : Trader) (d : Decimal) (code : String) (a b : Amount)
    (hbase : (t.Currencies.Find t.BaseCurrency.Code).2 = none)
    (ha : t.NewAmount d code = (some a, none))
    (hsame : a.Trader.BaseCurrency.Code = b.Trader.BaseCurrency.Code)
    (hra : 0 < a.Currency.Value.value) (hrb : 0 < b.Currency.Value.value) :
    ∃ x y, a.BaseCurrencyValue = .ret x ∧ b.BaseCurrencyValue = .ret y ∧
      (a.fits (x.Add y) →
        ∃ s r, a.Add b = .ret (some s, none) ∧ s.Sub b = .ret (some r, none) ∧
          r.Currency = a.Currency ∧
          (a.Currency.Is a.Trader.BaseCurrency.Code = true →
            r.Value.toRat = a.Value.toRat) ∧
          |r.Value.toRat - a.Value.toRat| ≤
            a.Currency.Value.toRat * (10 : ℚ) ^ (-16 : Int)) := by
  obtain ⟨hf, ht, _⟩ := NewAmount_eq_some t d code a ha
  have hrpos : (0 : ℚ) < a.Currency.Value.toRat := (Decimal.toRat_pos_iff _).mpr hra
  have hpos : (0 : ℚ) < (10 : ℚ) ^ (-16 : Int) := Decimal.ten_zpow_pos _
  obtain ⟨x, hx⟩ := Amount.BaseCurrencyValue_ret a hra.ne'
  obtain ⟨y, hy⟩ := Amount.BaseCurrencyValue_ret b hrb.ne'
  refine ⟨x, y, hx, hy, fun hfit => ?_⟩
  have hadd := (arith_of_values t d code a b hbase ha hsame hx hy).1 hfit
  -- the sum, as an amount made by `NewAmount`
  have hs : t.NewAmount (a.fromBase (x.Add y)) code =
      (some { Trader := t, Value := a.fromBase (x.Add y), Currency := a.Currency }, none) :=
    NewAmount_of_Find t _ hf
  have hsame1 : (Amount.mk t (a.fromBase (x.Add y)) a.Currency).Trader.BaseCurrency.Code =
      b.Trader.BaseCurrency.Code := by
    rw [← hsame, ht]
  obtain ⟨z, hz⟩ := Amount.BaseCurrencyValue_ret
    (Amount.mk t (a.fromBase (x.Add y)) a.Currency) hra.ne'
  have hfit2 : (Amount.mk t (a.fromBase (x.Add y)) a.Currency).fits (z.Sub y) := by
    by_cases hb1 : a.Currency.Is a.Trader.BaseCurrency.Code = true
    · exact Or.inl (by rw [← ht]; exact hb1)
    · have hb1' : a.Currency.Is a.Trader.BaseCurrency.Code = false := by simpa using hb1
      have hxe : x.exp = -16 := Amount.BaseCurrencyValue_exp a hb1' hx
      have hze : z.exp = -16 :=
        Amount.BaseCurrencyValue_exp _ (by rw [← ht]; exact hb1') hz
      have hi : isInt32 ((x.Add y).exp + a.Currency.Value.exp) := hfit.resolve_left hb1
      refine Or.inr ?_
      have he : (z.Sub y).exp = (x.Add y).exp := by
        simp only [Decimal.Sub, Decimal.Add, hxe, hze]
      rw [he]
      exact hi
  have hsub := (arith_of_values t _ code _ b hbase hs hsame1 hz hy).2.1 hfit2
  refine ⟨_, _, hadd, hsub, rfl, ?_, ?_⟩
  · intro hb1
    have hb2 : (Amount.mk t (a.fromBase (x.Add y)) a.Currency).Currency.Is
        (Amount.mk t (a.fromBase (x.Add y)) a.Currency).Trader.BaseCurrency.Code = true := by
      rw [← ht]; exact hb1
    rw [Amount.BaseCurrencyValue_base a hb1] at hx
    rw [Amount.BaseCurrencyValue_base _ hb2] at hz
    cases hx
    cases hz
    show ((Amount.mk t (a.fromBase (a.Value.Add y)) a.Currency).fromBase
      ((a.fromBase (a.Value.Add y)).Sub y)).toRat = a.Value.toRat
    rw [toRat_fromBase, if_pos hb2, Decimal.toRat_Sub, toRat_fromBase, if_pos hb1,
      Decimal.toRat_Add]
    ring
  · show |((Amount.mk t (a.fromBase (x.Add y)) a.Currency).fromBase (z.Sub y)).toRat -
      a.Value.toRat| ≤ _
    by_cases hb1 : a.Currency.Is a.Trader.BaseCurrency.Code = true
    · have hb2 : (Amount.mk t (a.fromBase (x.Add y)) a.Currency).Currency.Is
          (Amount.mk t (a.fromBase (x.Add y)) a.Currency).Trader.BaseCurrency.Code = true := by
        rw [← ht]; exact hb1
      rw [Amount.BaseCurrencyValue_base a hb1] at hx
      rw [Amount.BaseCurrencyValue_base _ hb2] at hz
      cases hx
      cases hz
      rw [toRat_fromBase, if_pos hb2, Decimal.toRat_Sub, toRat_fromBase, if_pos hb1,
        Decimal.toRat_Add]
      have : a.Value.toRat + y.toRat - y.toRat - a.Value.toRat = 0 := by ring
      rw [this, abs_zero]
      exact (mul_pos hrpos hpos).le
    · have hb1' : a.Currency.Is a.Trader.BaseCurrency.Code = false := by simpa using hb1
      have hb2' : (Amount.mk t (a.fromBase (x.Add y)) a.Currency).Currency.Is
          (Amount.mk t (a.fromBase (x.Add y)) a.Currency).Trader.BaseCurrency.Code = false := by
        rw [← ht]; exact hb1'
      have hb2 : ¬ (Amount.mk t (a.fromBase (x.Add y)) a.Currency).Currency.Is
          (Amount.mk t (a.fromBase (x.Add y)) a.Currency).Trader.BaseCurrency.Code = true := by
        rw [hb2']; simp
      obtain ⟨q1, hq1, _, hbd1, _⟩ := Decimal.Div_spec a.Value a.Currency.Value hra.ne'
      obtain ⟨q2, hq2, _, hbd2, _⟩ :=
        Decimal.Div_spec (a.fromBase (x.Add y)) a.Currency.Value hra.ne'
      rw [Amount.BaseCurrencyValue_other a hb1', hq1] at hx
      rw [Amount.BaseCurrencyValue_other _ hb2', hq2] at hz
      cases hx
      cases hz
      have hsum : (a.fromBase (x.Add y)).toRat / a.Currency.Value.toRat =
          x.toRat + y.toRat := by
        rw [toRat_fromBase, if_neg hb1, Decimal.toRat_Add, mul_div_assoc,
          div_self hrpos.ne', mul_one]
      rw [hsum] at hbd2
      rw [toRat_fromBase, if_neg hb2, Decimal.toRat_Sub]
      have hdiff : (z.toRat - y.toRat) * a.Currency.Value.toRat - a.Value.toRat =
          ((z.toRat - (x.toRat + y.toRat)) +
            (x.toRat - a.Value.toRat / a.Currency.Value.toRat)) * a.Currency.Value.toRat := by
        field_simp
        ring
      rw [hdiff, abs_mul, abs_of_pos hrpos, mul_comm]
      apply mul_le_mul_of_nonneg_left _ hrpos.le
      calc |z.toRat - (x.toRat + y.toRat) +
              (x.toRat - a.Value.toRat / a.Currency.Value.toRat)|
          ≤ |z.toRat - (x.toRat + y.toRat)| +
              |x.toRat - a.Value.toRat / a.Currency.Value.toRat| := abs_add _ _
        _ ≤ 1 / 2 * (10 : ℚ) ^ (-16 : Int) + 1 / 2 * (10 : ℚ) ^ (-16 : Int) :=
            add_le_add hbd2 hbd1
        _ = (10 : ℚ) ^ (-16 : Int) := by ring

/-- C11 on the test context: 2.56 EUR plus 2.3 USD minus 2.3 USD. -/
theorem C11_Add_then_Sub_witness :
    ((testTrader.Currencies.Find testTrader.BaseCurrency.Code).2 = none ∧
      testTrader.NewAmount ⟨256, -2⟩ "eur" = (some (eur 256 (-2)), none) ∧
      (eur 256 (-2)).Trader.BaseCurrency.Code = (usd 23 (-1)).Trader.BaseCurrency.Code ∧
      0 < (eur 256 (-2)).Currency.Value.value ∧ 0 < (usd 23 (-1)).Currency.Value.value) ∧
    ∃ s r, (eur 256 (-2)).Add (usd 23 (-1)) = .ret (some s, none) ∧
      s.Sub (usd 23 (-1)) = .ret (some r, none) ∧
      r.Currency = (eur 256 (-2)).Currency ∧
      ((eur 256 (-2)).Currency.Is (eur 256 (-2)).Trader.BaseCurrency.Code = true →
        r.Value.toRat = (eur 256 (-2)).Value.toRat) ∧
      |r.Value.toRat - (eur 256 (-2)).Value.toRat| ≤
        (eur 256 (-2)).Currency.Value.toRat * (10 : ℚ) ^ (-16 : Int) := by
  refine ⟨⟨by decide, by decide, by decide, by decide, by decide⟩, ?_⟩
  obtain ⟨x, y, hx, hy, h⟩ :=
    C11_Add_then_Sub testTrader ⟨256, -2⟩ "eur" (eur 256 (-2)) (usd 23 (-1))
      (by decide) (by decide) (by decide) (by decide) (by decide)
  have hx1 : (eur 256 (-2)).BaseCurrencyValue = .ret ⟨32000000000000000, -16⟩ := by decide
  have hy1 : (usd 23 (-1)).BaseCurrencyValue = .ret ⟨23, -1⟩ := by decide
  rw [hx1] at hx
  rw [hy1] at hy
  cases hx
  cases hy
  exact h (by decide)

end trader

/-! ## Panics of division -/

namespace trader

/-- C12, as stated, fails on the test context: 2.3 USD and 0 USD are made by the same
context, whose rates are positive, and dividing the first by the second panics; so does
dividing by 0 EUR. -/
theorem C12_counterexample :
    New testCurrencies "usd" = (some testTrader, none) ∧
    testTrader.NewAmount ⟨23, -1⟩ "usd" = (some (usd 23 (-1)), none) ∧
    testTrader.NewAmount ⟨0, 0⟩ "usd" = (some (usd 0 0), none) ∧
    testTrader.NewAmount ⟨0, 0⟩ "eur" = (some (eur 0 0), none) ∧
    (∀ c ∈ testTrader.Currencies, 0 < c.Value.value) ∧
    (usd 23 (-1)).Div (usd 0 0) = .panic "decimal division by 0" ∧
    (usd 23 (-1)).Div (eur 0 0) = .panic "decimal division by 0" := by
  decide

/-- C12, amended: let `a` and `b` be made by `NewAmount` on the same context, whose base
code resolves in its registry, the rates of both currencies being positive.  The
base-currency value `y` of `b` is computed.  When `y` is zero, `a.Div b` panics in the
decimal division.  When `y` is not zero, the decimal quotient has 16 fractional digits, and
`a.Div b` returns a non-nil amount and no error if `a` is in the base currency or the
exponent of the rate of its currency minus 16 is an `int32`; otherwise the product of the
quotient and the rate is not a decimal of the library, and `a.Div b` panics in the decimal
`Mul`.  No error is returned in any case. -/
theorem C12_Div_returns_or_panics (t : Trader) (da db : Decimal) (ca cb : String)
    (a b : Amount)
    (hbase : (t.Currencies.Find t.BaseCurrency.Code).2 = none)
    (ha : t.NewAmount da ca = (some a, none))
    (hb : t.NewAmount db cb = (some b, none))
    (hra : 0 < a.Currency.Value.value) (hrb : 0 < b.Currency.Value.value) :
    ∃ y, b.BaseCurrencyValue = .ret y ∧
      (y.value = 0 ↔ y.toRat = 0) ∧
      (y.value = 0 → a.Div b = .panic "decimal division by 0") ∧
      (y.value ≠ 0 →
        (a.Currency.Is t.BaseCurrency.Code = true ∨ isInt32 (-16 + a.Currency.Value.exp) →
          ∃ r, a.Div b = .ret (some r, none)) ∧
        (a.Currency.Is t.BaseCurrency.Code = false →
          ¬ isInt32 (-16 + a.Currency.Value.exp) →
          a.Div b = .panic (Decimal.expOverflow (-16 + a.Currency.Value.exp)))) ∧
      (¬ ∃ r e, a.Div b = .ret (r, some e)) := by
  obtain ⟨_, hta, _⟩ := NewAmount_eq_some t da ca a ha
  obtain ⟨_, htb, _⟩ := NewAmount_eq_some t db cb b hb
  have hsame : a.Trader.BaseCurrency.Code = b.Trader.BaseCurrency.Code := by rw [hta, htb]
  obtain ⟨x, hx⟩ := Amount.BaseCurrencyValue_ret a hra.ne'
  obtain ⟨y, hy⟩ := Amount.BaseCurrencyValue_ret b hrb.ne'
  have hzero : y.value = 0 → a.Div b = .panic "decimal division by 0" := by
    intro h0
    simp [Amount.Div, hsame, hx, hy, Exec.bind, Decimal.Div_zero x y h0]
  have hfits : ∀ q : Decimal, q.exp = -16 →
      (a.fits q ↔
        (a.Currency.Is t.BaseCurrency.Code = true ∨ isInt32 (-16 + a.Currency.Value.exp))) := by
    intro q hqe
    unfold Amount.fits
    rw [hta, hqe]
  refine ⟨y, hy, (Decimal.toRat_eq_zero_iff y).symm, hzero, fun h0 => ?_, ?_⟩
  · obtain ⟨q, hq, hqe, _⟩ := Decimal.Div_spec x y h0
    refine ⟨fun hf => ?_, fun hnb hni => ?_⟩
    · exact ⟨_, (arith_of_values t da ca a b hbase ha hsame hx hy).2.2.2 q hq
        ((hfits q hqe).mpr hf)⟩
    · have hnf : ¬ a.fits q := by
        rw [hfits q hqe]
        rintro (h | h)
        · rw [hnb] at h; cases h
        · exact hni h
      rw [(arith_overflow t da ca a b hbase ha hsame hx hy).2.2.2.2 q hq hnf, hqe]
  · rintro ⟨r, e, h⟩
    by_cases h0 : y.value = 0
    · rw [hzero h0] at h
      cases h
    · obtain ⟨q, hq, hqe, _⟩ := Decimal.Div_spec x y h0
      by_cases hf : a.fits q
      · rw [(arith_of_values t da ca a b hbase ha hsame hx hy).2.2.2 q hq hf] at h
        cases h
      · rw [(arith_overflow t da ca a b hbase ha hsame hx hy).2.2.2.2 q hq hf] at h
        cases h

/-- C12, amended, on the test contexts: 2.3 USD divided by 3.2 USD is an amount, and divided
by 0 USD it panics; and with the currency XTS at the rate `10 ^ (-2147483640)`, dividing
`10 ^ (-2147483640)` XTS (1 USD) by itself panics in `Mul`, the exponent `-2147483656` not
being an `int32`. -/
theorem C12_Div_returns_or_panics_witness :
    ((testTrader.Currencies.Find testTrader.BaseCurrency.Code).2 = none ∧
      testTrader.NewAmount ⟨23, -1⟩ "usd" = (some (usd 23 (-1)), none) ∧
      testTrader.NewAmount ⟨32, -1⟩ "usd" = (some (usd 32 (-1)), none) ∧
      testTrader.NewAmount ⟨0, 0⟩ "usd" = (some (usd 0 0), none) ∧
      0 < (usd 23 (-1)).Currency.Value.value ∧
      (testTrader4.Currencies.Find testTrader4.BaseCurrency.Code).2 = none ∧
      testTrader4.NewAmount ⟨1, -2147483640⟩ "xts" = (some (xts 1 (-2147483640)), none) ∧
      0 < (xts 1 (-2147483640)).Currency.Value.value) ∧
    (∃ r, (usd 23 (-1)).Div (usd 32 (-1)) = .ret (some r, none)) ∧
    (usd 23 (-1)).Div (usd 0 0) = .panic "decimal division by 0" ∧
    (xts 1 (-2147483640)).Div (xts 1 (-2147483640)) =
      .panic "exponent -2147483656 overflows an int32!" := by
  refine ⟨⟨by decide, by decide, by decide, by decide, by decide, by decide, by decide,
    by decide⟩, ?_, ?_, ?_⟩
  · obtain ⟨y, hy, _, _, h1, _⟩ :=
      C12_Div_returns_or_panics testTrader ⟨23, -1⟩ ⟨32, -1⟩ "usd" "usd"
        (usd 23 (-1)) (usd 32 (-1)) (by decide) (by decide) (by decide) (by decide) (by decide)
    have hy1 : (usd 32 (-1)).BaseCurrencyValue = .ret ⟨32, -1⟩ := by decide
    rw [hy1] at hy
    cases hy
    exact (h1 (by decide)).1 (Or.inl (by decide))
  · obtain ⟨y, hy, _, h2, _⟩ :=
      C12_Div_returns_or_panics testTrader ⟨23, -1⟩ ⟨0, 0⟩ "usd" "usd"
        (usd 23 (-1)) (usd 0 0) (by decide) (by decide) (by decide) (by decide) (by decide)
    have hy1 : (usd 0 0).BaseCurrencyValue = .ret ⟨0, 0⟩ := by decide
    rw [hy1] at hy
    cases hy
    exact h2 rfl
  · obtain ⟨y, hy, _, _, h1, _⟩ :=
      C12_Div_returns_or_panics testTrader4 ⟨1, -2147483640⟩ ⟨1, -2147483640⟩ "xts" "xts"
        (xts 1 (-2147483640)) (xts 1 (-2147483640)) (by decide) (by decide) (by decide)
        (by decide) (by decide)
    have hy1 : (xts 1 (-2147483640)).BaseCurrencyValue = .ret ⟨10000000000000000, -16⟩ := by
      decide
    rw [hy1] at hy
    cases hy
    rw [(h1 (by decide)).2 (by decide) (by decide)]
    decide

end trader

/-! ## Equality of registries -/

namespace trader

theorem foundIn_iff (v : Currency) (c2 : Currencies) :
    foundIn v c2 = true ↔ ∃ v2 ∈ c2, v.addr = v2.addr := by
  induction c2 with
  | nil => simp [foundIn]
  | cons w c2 ih =>
    unfold foundIn
    split_ifs with h
    · simp [h]
    · simp [ih, h]

theorem allFound_iff (c c2 : Currencies) :
    allFound c c2 = true ↔ ∀ v ∈ c, ∃ v2 ∈ c2, v.addr = v2.addr := by
  induction c with
  | nil => simp [allFound]
  | cons w c ih =>
    unfold allFound
    by_cases h : foundIn w c2 = true
    · have h1 := (foundIn_iff w c2).mp h
      simp only [h, Bool.not_true, Bool.false_eq_true, if_false, ih, List.mem_cons,
        forall_eq_or_imp]
      exact ⟨fun h2 => ⟨h1, h2⟩, fun h2 => h2.2⟩
    · have h1 : ¬ ∃ v2 ∈ c2, w.addr = v2.addr := fun hc => h ((foundIn_iff w c2).mpr hc)
      simp only [Bool.not_eq_true] at h
      simp only [h, Bool.not_false, if_true, Bool.false_eq_true, List.mem_cons,
        forall_eq_or_imp, false_iff]
      exact fun h2 => h1 h2.1

/-- C17, as stated, fails when one of the two registries is nil: an empty registry that
is not nil has all its entries (none) in the nil registry, and the nil registry has all its
entries (none) in any registry, yet `Equals` returns false in both cases, because of its
guard on nil. -/
theorem C17_counterexample :
    (CurrenciesSlice.slice 100 []).same CurrenciesSlice.nil = false ∧
    (∀ v ∈ (CurrenciesSlice.slice 100 []).entries,
      ∃ v2 ∈ CurrenciesSlice.nil.entries, v.addr = v2.addr) ∧
    Currencies.Equals (CurrenciesSlice.slice 100 []) CurrenciesSlice.nil = false ∧
    CurrenciesSlice.nil.same (CurrenciesSlice.slice 200 testCurrencies) = false ∧
    (∀ v ∈ CurrenciesSlice.nil.entries,
      ∃ v2 ∈ (CurrenciesSlice.slice 200 testCurrencies).entries, v.addr = v2.addr) ∧
    Currencies.Equals CurrenciesSlice.nil (CurrenciesSlice.slice 200 testCurrencies) = false := by
  refine ⟨by decide, ?_, by decide, by decide, ?_, by decide⟩
  · intro v hv
    simp [CurrenciesSlice.entries] at hv
  · intro v hv
    simp [CurrenciesSlice.entries] at hv

/-- C17, amended: `Equals` returns true if and only if the two registries are the
identical slice, or neither is nil and every entry of the receiver is present, by identity
(same address), somewhere in the other registry. -/
theorem C17_Equals (c c2 : CurrenciesSlice) :
    Currencies.Equals c c2 = true ↔
      (c.same c2 = true ∨
        (c.isNil = false ∧ c2.isNil = false ∧
          ∀ v ∈ c.entries, ∃ v2 ∈ c2.entries, v.addr = v2.addr)) := by
  unfold Currencies.Equals
  by_cases hs : c.same c2 = true
  · simp [hs]
  · by_cases hn : (c.isNil || c2.isNil) = true
    · simp only [hs, hn, if_true, Bool.false_eq_true, if_false, false_or, false_iff]
      rintro ⟨h1, h2, _⟩
      simp [h1, h2] at hn
    · have hn1 : c.isNil = false ∧ c2.isNil = false := by
        simpa using hn
      rw [if_neg hs, if_neg hn, allFound_iff]
      simp only [hs, hn1, true_and, and_self]
      simp

/-- C18: registry equality is not symmetric: the registry holding the USD entry of the
test registry is equal to the test registry, which holds that entry and the EUR entry, but
the test registry is not equal to it. -/
theorem C18_Equals_not_symmetric :
    ∃ c c2 : CurrenciesSlice,
      (∀ v ∈ c.entries, v ∈ c2.entries) ∧ (∃ v ∈ c2.entries, v ∉ c.entries) ∧
      Currencies.Equals c c2 = true ∧ Currencies.Equals c2 c = false :=
  ⟨.slice 100 [NewCurrency 1 "USD" dec1], .slice 200 testCurrencies,
    by decide, by decide, by decide, by decide⟩

end trader

/-! ## Lemmas on the amounts in memory -/

namespace trader

theorem lt_length_of_getElem (h : Heap) (p : Nat) (a : Amount) (hp : h[p]? = some a) :
    p < h.length := by
  by_contra hc
  rw [List.getElem?_eq_none (by omega)] at hp
  cases hp

/-- Extending the memory preserves the structs it holds. -/
theorem preserved_of_append (h l : Heap) : Heap.preserved h (h ++ l) := by
  intro p a hp
  rw [List.getElem?_append_left (lt_length_of_getElem h p a hp)]
  exact hp

theorem allocates_of_append (h l : Heap) (r : Exec (Heap × (Option Nat × Option String)))
    (hr : Mem.allocates (h ++ l) r) : Mem.allocates h r := by
  intro h1 p? e he
  obtain ⟨⟨l1, hl1⟩, hp⟩ := hr h1 p? e he
  refine ⟨⟨l ++ l1, by rw [hl1, List.append_assoc]⟩, fun p hpp => ?_⟩
  obtain ⟨h2, h3⟩ := hp p hpp
  rw [List.length_append] at h2
  exact ⟨by omega, h3⟩

theorem allocates_panic (h : Heap) (m : String) : Mem.allocates h (.panic m) := by
  intro h1 p? e he
  cases he

/-- The two outcomes of `NewAmount` in memory. -/
theorem Mem_NewAmount_cases (h : Heap) (t : Trader) (d : Decimal) (code : String) :
    (∃ c, t.Currencies.Find code = (some c, none) ∧
      Mem.NewAmount h t d code =
        (h ++ [{ Trader := t, Value := d, Currency := c }], (some h.length, none))) ∨
    (∃ e, t.Currencies.Find code = (none, some e) ∧
      Mem.NewAmount h t d code = (h, (none, some e))) := by
  rcases Find_cases t.Currencies code with ⟨c, hc, _, _⟩ | ⟨e, he, _⟩
  · exact Or.inl ⟨c, hc, by simp [Mem.NewAmount, hc]⟩
  · exact Or.inr ⟨e, he, by simp [Mem.NewAmount, he]⟩

theorem Mem_NewAmount_allocates (h : Heap) (t : Trader) (d : Decimal) (code : String) :
    Mem.allocates h (.ret (Mem.NewAmount h t d code)) := by
  intro h1 p? e he
  rcases Mem_NewAmount_cases h t d code with ⟨c, _, hc⟩ | ⟨e1, _, he1⟩
  · rw [hc] at he
    simp only [Exec.ret.injEq, Prod.mk.injEq] at he
    obtain ⟨rfl, rfl, rfl⟩ := he
    refine ⟨⟨_, rfl⟩, fun p hp => ?_⟩
    simp only [Option.some.injEq] at hp
    subst hp
    simp
  · rw [he1] at he
    simp only [Exec.ret.injEq, Prod.mk.injEq] at he
    obtain ⟨rfl, rfl, rfl⟩ := he
    exact ⟨⟨[], by simp⟩, fun p hp => by cases hp⟩

theorem Mem_BaseCurrencyAmount_allocates (h : Heap) (a : Amount) (h1 : Heap) (p? : Option Nat)
    (he : Mem.BaseCurrencyAmount h a = .ret (h1, p?)) :
    (∃ l, h1 = h ++ l) ∧ ∀ p, p? = some p → h.length ≤ p ∧ p < h1.length := by
  unfold Mem.BaseCurrencyAmount at he
  by_cases hb : a.Currency.Is a.Trader.BaseCurrency.Code = true
  · simp only [hb, if_true, Exec.ret.injEq, Prod.mk.injEq] at he
    obtain ⟨rfl, rfl⟩ := he
    refine ⟨⟨_, rfl⟩, fun p hp => ?_⟩
    simp only [Option.some.injEq] at hp
    subst hp
    simp
  · simp only [hb] at he
    cases hd : a.Value.Div a.Currency.Value with
    | panic m => simp [hd, Exec.bind] at he
    | ret v =>
      simp only [hd, Exec.bind, Bool.false_eq_true, if_false, Exec.ret.injEq,
        Prod.mk.injEq] at he
      obtain ⟨e1, e2⟩ := he
      exact Mem_NewAmount_allocates h a.Trader v a.Trader.BaseCurrency.Code h1 p?
        (Mem.NewAmount h a.Trader v a.Trader.BaseCurrency.Code).2.2
        (by rw [← e1, ← e2])

theorem Mem_ToCurrency_allocates (h : Heap) (a : Amount) (code : String) :
    Mem.allocates h (Mem.ToCurrency h a code) := by
  unfold Mem.ToCurrency
  by_cases hc : a.Currency.Is code = true
  · simp only [hc, if_true]
    intro h1 p? e he
    simp only [Exec.ret.injEq, Prod.mk.injEq] at he
    obtain ⟨rfl, rfl, rfl⟩ := he
    refine ⟨⟨_, rfl⟩, fun p hp => ?_⟩
    simp only [Option.some.injEq] at hp
    subst hp
    simp
  · simp only [hc, Bool.false_eq_true, if_false]
    cases hb : Mem.BaseCurrencyAmount h a with
    | panic m => exact allocates_panic h m
    | ret hbv =>
      obtain ⟨hb1, pb?⟩ := hbv
      obtain ⟨⟨l, hl⟩, hfresh⟩ := Mem_BaseCurrencyAmount_allocates h a hb1 pb? hb
      simp only [Exec.bind]
      cases pb? with
      | none => exact allocates_panic h _
      | some pb =>
        simp only []
        cases hg : hb1[pb]? with
        | none => exact allocates_panic h _
        | some b =>
          simp only []
          by_cases hbc : b.Currency.Is code = true
          · simp only [hbc, if_true]
            intro h1 p? e he
            simp only [Exec.ret.injEq, Prod.mk.injEq] at he
            obtain ⟨rfl, rfl, rfl⟩ := he
            exact ⟨⟨l, hl⟩, fun p hp => by
              simp only [Option.some.injEq] at hp
              subst hp
              exact hfresh _ rfl⟩
          · simp only [hbc, Bool.false_eq_true, if_false]
            rcases Find_cases a.Trader.Currencies code with ⟨c, hfc, _, _⟩ | ⟨e1, hfe, _⟩
            · simp only [hfc]
              subst hl
              cases hm : b.Value.Mul c.Value with
              | panic m => exact allocates_panic h _
              | ret v => exact allocates_of_append h l _ (Mem_NewAmount_allocates _ _ _ _)
            · simp only [hfe]
              intro h1 p? e he
              simp only [Exec.ret.injEq, Prod.mk.injEq] at he
              obtain ⟨rfl, rfl, rfl⟩ := he
              exact ⟨⟨l, hl⟩, fun p hp => by cases hp⟩

theorem Mem_inReceiverCurrency_allocates (h : Heap) (a : Amount) (c : Decimal) :
    Mem.allocates h (Mem.inReceiverCurrency h a c) := by
  unfold Mem.inReceiverCurrency
  rcases Mem_NewAmount_cases h a.Trader c a.Trader.BaseCurrency.Code with
    ⟨B, _, hB⟩ | ⟨e1, _, he1⟩
  · simp only [hB]
    cases hg : (h ++ [Amount.mk a.Trader c B])[h.length]? with
    | none => exact allocates_panic h _
    | some n =>
      simp only []
      exact allocates_of_append h _ _ (Mem_ToCurrency_allocates _ n a.Currency.Code)
  · simp only [he1]
    exact allocates_panic h _

end trader

/-! ## The arithmetic methods in memory -/

namespace trader

/-- In memory, `BaseCurrencyValue` returns the memory it was given. -/
theorem Mem_BaseCurrencyValue_eq (h : Heap) (a : Amount) :
    Mem.BaseCurrencyValue h a = a.BaseCurrencyValue.bind fun v => .ret (h, v) := by
  unfold Mem.BaseCurrencyValue Amount.BaseCurrencyValue
  split_ifs
  · rfl
  · rfl

theorem Mem_Add_allocates (h : Heap) (a : Amount) (pb : Nat) :
    Mem.allocates h (Mem.Add h a pb) := by
  unfold Mem.Add
  cases hg : h[pb]? with
  | none => exact allocates_panic h _
  | some b =>
    simp only []
    split_ifs with hc
    · intro h1 p? e he
      simp only [Exec.ret.injEq, Prod.mk.injEq] at he
      obtain ⟨rfl, rfl, rfl⟩ := he
      exact ⟨⟨[], by simp⟩, fun p hp => by cases hp⟩
    · rw [Mem_BaseCurrencyValue_eq]
      cases hx : a.BaseCurrencyValue with
      | panic m => exact allocates_panic h _
      | ret x =>
        simp only [Exec.bind]
        rw [Mem_BaseCurrencyValue_eq]
        cases hy : b.BaseCurrencyValue with
        | panic m => exact allocates_panic h _
        | ret y => exact Mem_inReceiverCurrency_allocates h a _

theorem Mem_Sub_allocates (h : Heap) (a : Amount) (pb : Nat) :
    Mem.allocates h (Mem.Sub h a pb) := by
  unfold Mem.Sub
  cases hg : h[pb]? with
  | none => exact allocates_panic h _
  | some b =>
    simp only []
    split_ifs with hc
    · intro h1 p? e he
      simp only [Exec.ret.injEq, Prod.mk.injEq] at he
      obtain ⟨rfl, rfl, rfl⟩ := he
      exact ⟨⟨[], by simp⟩, fun p hp => by cases hp⟩
    · rw [Mem_BaseCurrencyValue_eq]
      cases hx : a.BaseCurrencyValue with
      | panic m => exact allocates_panic h _
      | ret x =>
        simp only [Exec.bind]
        rw [Mem_BaseCurrencyValue_eq]
        cases hy : b.BaseCurrencyValue with
        | panic m => exact allocates_panic h _
        | ret y => exact Mem_inReceiverCurrency_allocates h a _

theorem Mem_Mul_allocates (h : Heap) (a : Amount) (pb : Nat) :
    Mem.allocates h (Mem.Mul h a pb) := by
  unfold Mem.Mul
  cases hg : h[pb]? with
  | none => exact allocates_panic h _
  | some b =>
    simp only []
    split_ifs with hc
    · intro h1 p? e he
      simp only [Exec.ret.injEq, Prod.mk.injEq] at he
      obtain ⟨rfl, rfl, rfl⟩ := he
      exact ⟨⟨[], by simp⟩, fun p hp => by cases hp⟩
    · rw [Mem_BaseCurrencyValue_eq]
      cases hx : a.BaseCurrencyValue with
      | panic m => exact allocates_panic h _
      | ret x =>
        simp only [Exec.bind]
        rw [Mem_BaseCurrencyValue_eq]
        cases hy : b.BaseCurrencyValue with
        | panic m => exact allocates_panic h _
        | ret y =>
          simp only [Exec.bind]
          cases hq : x.Mul y with
          | panic m => exact allocates_panic h _
          | ret q => exact Mem_inReceiverCurrency_allocates h a _

theorem Mem_Div_allocates (h : Heap) (a : Amount) (pb : Nat) :
    Mem.allocates h (Mem.Div h a pb) := by
  unfold Mem.Div
  cases hg : h[pb]? with
  | none => exact allocates_panic h _
  | some b =>
    simp only []
    split_ifs with hc
    · intro h1 p? e he
      simp only [Exec.ret.injEq, Prod.mk.injEq] at he
      obtain ⟨rfl, rfl, rfl⟩ := he
      exact ⟨⟨[], by simp⟩, fun p hp => by cases hp⟩
    · rw [Mem_BaseCurrencyValue_eq]
      cases hx : a.BaseCurrencyValue with
      | panic m => exact allocates_panic h _
      | ret x =>
        simp only [Exec.bind]
        rw [Mem_BaseCurrencyValue_eq]
        cases hy : b.BaseCurrencyValue with
        | panic m => exact allocates_panic h _
        | ret y =>
          simp only [Exec.bind]
          cases hq : x.Div y with
          | panic m => exact allocates_panic h _
          | ret q => exact Mem_inReceiverCurrency_allocates h a _

/-- A method that allocates only preserves the structs in memory. -/
theorem preserved_of_allocates (h : Heap) (r : Exec (Heap × (Option Nat × Option String)))
    (hr : Mem.allocates h r) (h1 : Heap) (res : Option Nat × Option String)
    (he : r = .ret (h1, res)) : Heap.preserved h h1 := by
  obtain ⟨⟨l, hl⟩, _⟩ := hr h1 res.1 res.2 he
  rw [hl]
  exact preserved_of_append h l

/-- In memory, `Cmp` returns the memory it was given. -/
theorem Mem_Cmp_heap (h : Heap) (pa pb : Nat) (h1 : Heap) (res : Int × Option String)
    (he : Mem.Cmp h pa pb = .ret (h1, res)) : h1 = h := by
  unfold Mem.Cmp at he
  cases hga : h[pa]? with
  | none => simp [hga] at he
  | some a =>
    cases hgb : h[pb]? with
    | none => simp [hga, hgb] at he
    | some b =>
      simp only [hga, hgb] at he
      split_ifs at he with hc
      · simp only [Exec.ret.injEq, Prod.mk.injEq] at he
        exact he.1.symm
      · rw [Mem_BaseCurrencyValue_eq] at he
        cases hx : a.BaseCurrencyValue with
        | panic m => simp [hx, Exec.bind] at he
        | ret x =>
          simp only [hx, Exec.bind] at he
          rw [Mem_BaseCurrencyValue_eq] at he
          cases hy : b.BaseCurrencyValue with
          | panic m => simp [hy, Exec.bind] at he
          | ret y =>
            simp only [hy, Exec.bind, Exec.ret.injEq, Prod.mk.injEq] at he
            exact he.1.symm

/-- In memory, `Round` rewrites the `Value` field of the struct of its receiver and
nothing else. -/
theorem Mem_Round_spec (h : Heap) (pa : Nat) (places : Int) (a : Amount) (h1 : Heap)
    (hga : h[pa]? = some a) (he : Mem.Round h pa places = .ret h1) :
    h1[pa]? = some { Trader := a.Trader, Value := a.Value.Round places, Currency := a.Currency } ∧
    ∀ p, p ≠ pa → h1[p]? = h[p]? := by
  unfold Mem.Round at he
  simp only [hga, Exec.ret.injEq] at he
  subst he
  refine ⟨?_, fun p hp => ?_⟩
  · rw [List.getElem?_set_self (lt_length_of_getElem h pa a hga)]
  · rw [List.getElem?_set_ne (Ne.symm hp)]

/-- In memory, `Int64` rounds the struct that `Mul` has just allocated: the structs that
were in memory before the call are preserved. -/
theorem Mem_Int64_preserved (h : Heap) (pa : Nat) (h1 : Heap) (res : Int × Option String)
    (he : Mem.Int64 h pa = .ret (h1, res)) : Heap.preserved h h1 := by
  unfold Mem.Int64 at he
  cases hga : h[pa]? with
  | none => simp [hga] at he
  | some a =>
    simp only [hga] at he
    rcases Mem_NewAmount_cases h a.Trader
      (Decimal.NewFromFloatPow10 a.Currency.DecimalPlaces) a.Currency.Code with
      ⟨c, _, hc⟩ | ⟨e1, _, he1⟩
    · simp only [hc] at he
      cases hm : Mem.Mul (h ++ [Amount.mk a.Trader
          (Decimal.NewFromFloatPow10 a.Currency.DecimalPlaces) c]) a h.length with
      | panic m => simp [hm, Exec.bind] at he
      | ret r =>
        obtain ⟨h2, p?, e⟩ := r
        obtain ⟨⟨l, hl⟩, hfresh⟩ := Mem_Mul_allocates _ a h.length h2 p? e hm
        simp only [hm, Exec.bind] at he
        cases e with
        | some err =>
          simp only [Exec.ret.injEq, Prod.mk.injEq] at he
          rw [← he.1, hl, List.append_assoc]
          exact preserved_of_append h _
        | none =>
          cases p? with
          | none => simp at he
          | some pn =>
            simp only [] at he
            obtain ⟨hpn1, hpn2⟩ := hfresh pn rfl
            rw [List.length_append] at hpn1
            cases hr : Mem.Round h2 pn 0 with
            | panic m => simp [hr] at he
            | ret h3 =>
              simp only [hr] at he
              cases hg3 : h3[pn]? with
              | none => simp [hg3] at he
              | some n =>
                simp only [hg3, Exec.ret.injEq, Prod.mk.injEq] at he
                obtain ⟨a2, ha2⟩ : ∃ a2, h2[pn]? = some a2 := by
                  refine ⟨h2.get ⟨pn, hpn2⟩, ?_⟩
                  rw [List.getElem?_eq_getElem hpn2]
                  rfl
                obtain ⟨_, hother⟩ := Mem_Round_spec h2 pn 0 a2 h3 ha2 hr
                intro p v hp
                have hplt := lt_length_of_getElem h p v hp
                have hne : p ≠ pn := by
                  simp only [List.length_singleton] at hpn1
                  omega
                rw [← he.1, hother p hne, hl, List.append_assoc]
                exact preserved_of_append h _ p v hp
    · simp only [he1, Exec.ret.injEq, Prod.mk.injEq] at he
      rw [← he.1]
      exact fun p v hp => hp

end trader

/-! ## Agreement of the two embeddings of amount.go -/

namespace trader

theorem getElem_append_length (h : Heap) (a : Amount) : (h ++ [a])[h.length]? = some a := by
  simp

/-- `NewAmount` in memory returns a pointer to the amount `NewAmount` returns. -/
theorem Mem_NewAmount_deref (h : Heap) (t : Trader) (d : Decimal) (code : String) :
    Mem.deref (.ret (Mem.NewAmount h t d code)) = .ret (t.NewAmount d code) := by
  rcases Mem_NewAmount_cases h t d code with ⟨c, hf, hc⟩ | ⟨e1, hf, he1⟩
  · rw [hc, NewAmount_of_Find t d hf]
    simp [Mem.deref]
  · rw [he1, NewAmount_of_Find_error t d hf]
    simp [Mem.deref]

/-- `BaseCurrencyAmount` in memory returns a pointer to the amount `BaseCurrencyAmount`
returns. -/
theorem Mem_BaseCurrencyAmount_deref (h : Heap) (a : Amount) :
    ((Mem.BaseCurrencyAmount h a).bind fun r => .ret (r.2.bind fun p => r.1[p]?)) =
      a.BaseCurrencyAmount := by
  unfold Mem.BaseCurrencyAmount Amount.BaseCurrencyAmount
  by_cases hb : a.Currency.Is a.Trader.BaseCurrency.Code = true
  · simp [hb, Exec.bind]
  · simp only [hb, Bool.false_eq_true, if_false]
    cases hd : a.Value.Div a.Currency.Value with
    | panic m => simp [Exec.bind]
    | ret v =>
      simp only [Exec.bind]
      rcases Mem_NewAmount_cases h a.Trader v a.Trader.BaseCurrency.Code with
        ⟨c, hf, hc⟩ | ⟨e1, hf, he1⟩
      · rw [hc, NewAmount_of_Find a.Trader v hf]
        simp
      · rw [he1, NewAmount_of_Find_error a.Trader v hf]
        simp

/-- `ToCurrency` in memory returns a pointer to the amount `ToCurrency` returns. -/
theorem Mem_ToCurrency_deref (h : Heap) (a : Amount) (code : String) :
    Mem.deref (Mem.ToCurrency h a code) = a.ToCurrency code := by
  have hsim := Mem_BaseCurrencyAmount_deref h a
  unfold Mem.ToCurrency Amount.ToCurrency
  by_cases hc : a.Currency.Is code = true
  · simp [hc, Mem.deref]
  · simp only [hc, Bool.false_eq_true, if_false]
    rw [← hsim]
    cases hb : Mem.BaseCurrencyAmount h a with
    | panic m => simp [Exec.bind, Mem.deref]
    | ret hbv =>
      obtain ⟨hb1, pb?⟩ := hbv
      simp only [Exec.bind]
      cases pb? with
      | none => simp [Mem.deref]
      | some pb =>
        simp only [Option.bind]
        cases hg : hb1[pb]? with
        | none => simp [Mem.deref]
        | some b =>
          simp only []
          by_cases hbc : b.Currency.Is code = true
          · simp [hbc, Mem.deref, hg]
          · simp only [hbc, Bool.false_eq_true, if_false]
            rcases Find_cases a.Trader.Currencies code with ⟨c, hfc, _, _⟩ | ⟨e1, hfe, _⟩
            · simp only [hfc]
              cases hm : b.Value.Mul c.Value with
              | panic m => simp [Exec.bind, Mem.deref]
              | ret v => exact Mem_NewAmount_deref hb1 a.Trader _ code
            · simp [hfe, Mem.deref]

/-- The closing statements of the arithmetic methods agree in the two embeddings. -/
theorem Mem_inReceiverCurrency_deref (h : Heap) (a : Amount) (c : Decimal) :
    Mem.deref (Mem.inReceiverCurrency h a c) = a.inReceiverCurrency c := by
  unfold Mem.inReceiverCurrency Amount.inReceiverCurrency
  rcases Mem_NewAmount_cases h a.Trader c a.Trader.BaseCurrency.Code with
    ⟨B, hf, hB⟩ | ⟨e1, hf, he1⟩
  · rw [hB, NewAmount_of_Find a.Trader c hf]
    simp only [getElem_append_length]
    exact Mem_ToCurrency_deref _ _ _
  · rw [he1, NewAmount_of_Find_error a.Trader c hf]
    simp [Mem.deref]

/-- `Add`, `Sub`, `Mul` and `Div` in memory return a pointer to the amount that the
methods return on values. -/
theorem Mem_arith_deref (h : Heap) (a b : Amount) (pb : Nat) (hgb : h[pb]? = some b) :
    Mem.deref (Mem.Add h a pb) = a.Add b ∧ Mem.deref (Mem.Sub h a pb) = a.Sub b ∧
    Mem.deref (Mem.Mul h a pb) = a.Mul b ∧ Mem.deref (Mem.Div h a pb) = a.Div b := by
  unfold Mem.Add Mem.Sub Mem.Mul Mem.Div Amount.Add Amount.Sub Amount.Mul Amount.Div
  simp only [hgb]
  by_cases hc : a.Trader.BaseCurrency.Code ≠ b.Trader.BaseCurrency.Code
  · simp [hc, Mem.deref]
  · simp only [hc, if_false]
    rw [Mem_BaseCurrencyValue_eq]
    cases hx : a.BaseCurrencyValue with
    | panic m => simp [Exec.bind, Mem.deref]
    | ret x =>
      simp only [Exec.bind]
      rw [Mem_BaseCurrencyValue_eq]
      cases hy : b.BaseCurrencyValue with
      | panic m => simp [Exec.bind, Mem.deref]
      | ret y =>
        simp only [Exec.bind]
        refine ⟨Mem_inReceiverCurrency_deref h a _, Mem_inReceiverCurrency_deref h a _,
          ?_, ?_⟩
        · cases hq : x.Mul y with
          | panic m => simp [Mem.deref]
          | ret q => exact Mem_inReceiverCurrency_deref h a _
        · cases hq : x.Div y with
          | panic m => simp [Mem.deref]
          | ret q => exact Mem_inReceiverCurrency_deref h a _

/-- `Cmp` in memory returns what `Cmp` returns on values. -/
theorem Mem_Cmp_eq (h : Heap) (a b : Amount) (pa pb : Nat)
    (hga : h[pa]? = some a) (hgb : h[pb]? = some b) :
    Mem.Cmp h pa pb = (a.Cmp b).bind fun r => .ret (h, r) := by
  unfold Mem.Cmp Amount.Cmp
  simp only [hga, hgb]
  by_cases hc : a.Trader.BaseCurrency.Code ≠ b.Trader.BaseCurrency.Code
  · simp [hc, Exec.bind]
  · simp only [hc, if_false]
    rw [Mem_BaseCurrencyValue_eq]
    cases hx : a.BaseCurrencyValue with
    | panic m => simp [Exec.bind]
    | ret x =>
      simp only [Exec.bind]
      rw [Mem_BaseCurrencyValue_eq]
      cases hy : b.BaseCurrencyValue with
      | panic m => simp [Exec.bind]
      | ret y => simp [Exec.bind]

end trader

namespace trader

/-- `Int64` in memory returns what `Int64` returns on values. -/
theorem Mem_Int64_eq (h : Heap) (a : Amount) (pa : Nat) (hga : h[pa]? = some a) :
    ((Mem.Int64 h pa).bind fun r => .ret r.2) = a.Int64 := by
  unfold Mem.Int64 Amount.Int64
  simp only [hga]
  rcases Mem_NewAmount_cases h a.Trader
    (Decimal.NewFromFloatPow10 a.Currency.DecimalPlaces) a.Currency.Code with
    ⟨c, hf, hc⟩ | ⟨e1, hf, he1⟩
  · rw [hc, NewAmount_of_Find a.Trader _ hf]
    simp only []
    have hmul := (Mem_arith_deref (h ++ [Amount.mk a.Trader
      (Decimal.NewFromFloatPow10 a.Currency.DecimalPlaces) c]) a _ h.length
      (getElem_append_length h _)).2.2.1
    rw [← hmul]
    cases hm : Mem.Mul (h ++ [Amount.mk a.Trader
        (Decimal.NewFromFloatPow10 a.Currency.DecimalPlaces) c]) a h.length with
    | panic m => simp [Exec.bind, Mem.deref]
    | ret r =>
      obtain ⟨h2, p?, e⟩ := r
      simp only [Exec.bind, Mem.deref]
      cases e with
      | some err => simp
      | none =>
        cases p? with
        | none => simp
        | some pn =>
          simp only [Option.bind]
          cases hg : h2[pn]? with
          | none => simp [Mem.Round, hg]
          | some na =>
            have hlt := lt_length_of_getElem h2 pn na hg
            simp [Mem.Round, hg, List.getElem?_set_self hlt, Amount.Round]
  · rw [he1, NewAmount_of_Find_error a.Trader _ hf]
    simp [Exec.bind]

end trader

/-! ## Immutability of amounts -/

namespace trader

/-- C20: let the structs `a` and `b` be in memory at the addresses `pa` and `pb`.  Whenever
`BaseCurrencyValue`, `Cmp` or `String` returns, the memory is the one it was given; whenever
`BaseCurrencyAmount`, `ToCurrency`, `Add`, `Sub`, `Mul`, `Div` or `Int64` returns, every
struct that was in memory is preserved (these methods allocate, and `Int64` rounds the
struct it has allocated), so that `a` and `b` have the same value, currency and context as
before.  `Round` returns a memory in which the struct at `pa` has the rounded value and the
currency and context of `a`, and every other struct is as before. -/
theorem C20_amounts_immutable (h : Heap) (a b : Amount) (pa pb : Nat)
    (hga : h[pa]? = some a) (hgb : h[pb]? = some b) :
    (∀ h1, Heap.preserved h h1 → h1[pa]? = some a ∧ h1[pb]? = some b) ∧
    (∀ h1 v, Mem.BaseCurrencyValue h a = .ret (h1, v) → h1 = h) ∧
    (∀ h1 r, Mem.BaseCurrencyAmount h a = .ret (h1, r) → Heap.preserved h h1) ∧
    (∀ code h1 r, Mem.ToCurrency h a code = .ret (h1, r) → Heap.preserved h h1) ∧
    (∀ h1 r, Mem.Add h a pb = .ret (h1, r) → Heap.preserved h h1) ∧
    (∀ h1 r, Mem.Sub h a pb = .ret (h1, r) → Heap.preserved h h1) ∧
    (∀ h1 r, Mem.Mul h a pb = .ret (h1, r) → Heap.preserved h h1) ∧
    (∀ h1 r, Mem.Div h a pb = .ret (h1, r) → Heap.preserved h h1) ∧
    (∀ h1 r, Mem.Cmp h pa pb = .ret (h1, r) → h1 = h) ∧
    (∀ h1 r, Mem.Int64 h pa = .ret (h1, r) → Heap.preserved h h1) ∧
    (∀ decimals h1 s, Mem.AmountString h a decimals = .ret (h1, s) → h1 = h) ∧
    (∀ places, ∃ h1, Mem.Round h pa places = .ret h1 ∧
      h1[pa]? = some { Trader := a.Trader, Value := a.Value.Round places,
                       Currency := a.Currency } ∧
      ∀ p, p ≠ pa → h1[p]? = h[p]?) := by
  refine ⟨fun h1 hp => ⟨hp pa a hga, hp pb b hgb⟩, ?_, ?_, ?_, ?_, ?_, ?_, ?_, ?_, ?_, ?_, ?_⟩
  · intro h1 v he
    rw [Mem_BaseCurrencyValue_eq] at he
    cases hx : a.BaseCurrencyValue with
    | panic m => simp [hx, Exec.bind] at he
    | ret x =>
      simp only [hx, Exec.bind, Exec.ret.injEq, Prod.mk.injEq] at he
      exact he.1.symm
  · intro h1 r he
    obtain ⟨⟨l, hl⟩, _⟩ := Mem_BaseCurrencyAmount_allocates h a h1 r he
    rw [hl]
    exact preserved_of_append h l
  · exact fun code h1 r he =>
      preserved_of_allocates h _ (Mem_ToCurrency_allocates h a code) h1 r he
  · exact fun h1 r he => preserved_of_allocates h _ (Mem_Add_allocates h a pb) h1 r he
  · exact fun h1 r he => preserved_of_allocates h _ (Mem_Sub_allocates h a pb) h1 r he
  · exact fun h1 r he => preserved_of_allocates h _ (Mem_Mul_allocates h a pb) h1 r he
  · exact fun h1 r he => preserved_of_allocates h _ (Mem_Div_allocates h a pb) h1 r he
  · exact fun h1 r he => Mem_Cmp_heap h pa pb h1 r he
  · exact fun h1 r he => Mem_Int64_preserved h pa h1 r he
  · intro decimals h1 s he
    simp only [Mem.AmountString, Exec.ret.injEq, Prod.mk.injEq] at he
    exact he.1.symm
  · intro places
    have hr : Mem.Round h pa places =
        .ret (h.set pa { a with Value := a.Value.Round places }) := by
      simp [Mem.Round, hga]
    obtain ⟨h1, h2⟩ := Mem_Round_spec h pa places a _ hga hr
    exact ⟨_, hr, h1, h2⟩

/-- C20 on a memory holding 2.3 USD at address 0 and 2.56 EUR at address 1: `Int64` on the
first returns 230 and `Add` returns 4.4 EUR, both leaving the two structs as they were, and
`Round(0)` on the second changes its value to 3 and nothing else. -/
theorem C20_amounts_immutable_witness :
    ([usd 23 (-1), eur 256 (-2)][0]? = some (usd 23 (-1)) ∧
      [usd 23 (-1), eur 256 (-2)][1]? = some (eur 256 (-2))) ∧
    ((Mem.Int64 [usd 23 (-1), eur 256 (-2)] 0).bind fun r => .ret r.2) = .ret (230, none) ∧
    (∀ h1 r, Mem.Int64 [usd 23 (-1), eur 256 (-2)] 0 = .ret (h1, r) →
      h1[0]? = some (usd 23 (-1)) ∧ h1[1]? = some (eur 256 (-2))) ∧
    Mem.deref (Mem.Add [usd 23 (-1), eur 256 (-2)] (eur 256 (-2)) 0) =
      .ret (some (eur 440000000000000000 (-17)), none) ∧
    (∀ h1 r, Mem.Add [usd 23 (-1), eur 256 (-2)] (eur 256 (-2)) 0 = .ret (h1, r) →
      h1[0]? = some (usd 23 (-1)) ∧ h1[1]? = some (eur 256 (-2))) ∧
    (∃ h1, Mem.Round [usd 23 (-1), eur 256 (-2)] 1 0 = .ret h1 ∧
      h1[1]? = some (eur 3 0) ∧ h1[0]? = some (usd 23 (-1))) := by
  have hA := C20_amounts_immutable [usd 23 (-1), eur 256 (-2)] (usd 23 (-1)) (eur 256 (-2))
    0 1 (by decide) (by decide)
  have hB := C20_amounts_immutable [usd 23 (-1), eur 256 (-2)] (eur 256 (-2)) (usd 23 (-1))
    1 0 (by decide) (by decide)
  refine ⟨⟨by decide, by decide⟩, by decide, ?_, by decide, ?_, ?_⟩
  · intro h1 r he
    exact hA.1 h1 (hA.2.2.2.2.2.2.2.2.2.1 h1 r he)
  · intro h1 r he
    have := hB.1 h1 (hB.2.2.2.2.1 h1 r he)
    exact ⟨this.2, this.1⟩
  · obtain ⟨h1, hr, hv, ho⟩ := hB.2.2.2.2.2.2.2.2.2.2.2 0
    refine ⟨h1, hr, ?_, ?_⟩
    · rw [hv]
      decide
    · rw [ho 0 (by decide)]
      decide

end trader

/-! ## Well-formedness of the amounts returned -/

namespace trader

/-- An amount built on `t` with a currency that `Find` returns is well-formed. -/
theorem WellFormed_of_Find (t : Trader) (d : Decimal) {code : String} {c : Currency}
    (hf : t.Currencies.Find code = (some c, none)) :
    Amount.WellFormed t { Trader := t, Value := d, Currency := c } := by
  rcases Find_cases t.Currencies code with ⟨w, hw, hm, _⟩ | ⟨e, he, _⟩
  · rw [hw] at hf
    have : w = c := by simpa using hf
    subst this
    exact ⟨rfl, hm, Find_Code_self _ hw⟩
  · rw [he] at hf; cases hf

/-- An amount made by `NewAmount` is well-formed. -/
theorem WellFormed_of_NewAmount (t : Trader) (d : Decimal) (code : String) (a : Amount)
    (ha : t.NewAmount d code = (some a, none)) : Amount.WellFormed t a := by
  rcases Find_cases t.Currencies code with ⟨w, hw, _, _⟩ | ⟨e, he, _⟩
  · rw [NewAmount_of_Find t d hw] at ha
    have : a = { Trader := t, Value := d, Currency := w } := by
      simp only [Prod.mk.injEq, Option.some.injEq, and_true] at ha
      exact ha.symm
    rw [this]
    exact WellFormed_of_Find t d hw
  · rw [NewAmount_of_Find_error t d he] at ha
    cases ha

/-- Whatever amount `NewAmount` returns is well-formed. -/
theorem WellFormed_NewAmount_fst (t : Trader) (d : Decimal) (code : String) (r : Amount)
    (hr : (t.NewAmount d code).1 = some r) : Amount.WellFormed t r := by
  rcases Find_cases t.Currencies code with ⟨w, hw, _, _⟩ | ⟨e, he, _⟩
  · rw [NewAmount_of_Find t d hw] at hr
    simp only [Option.some.injEq] at hr
    rw [← hr]
    exact WellFormed_of_Find t d hw
  · rw [NewAmount_of_Find_error t d he] at hr
    cases hr

/-- `BaseCurrencyAmount` keeps amounts well-formed. -/
theorem WellFormed_BaseCurrencyAmount (t : Trader) (a r : Amount)
    (hw : Amount.WellFormed t a) (he : a.BaseCurrencyAmount = .ret (some r)) :
    Amount.WellFormed t r := by
  unfold Amount.BaseCurrencyAmount at he
  by_cases hb : a.Currency.Is a.Trader.BaseCurrency.Code = true
  · simp only [hb, if_true, Exec.ret.injEq, Option.some.injEq] at he
    rw [← he]
    exact hw
  · simp only [hb, Bool.false_eq_true, if_false] at he
    cases hd : a.Value.Div a.Currency.Value with
    | panic m => simp [hd, Exec.bind] at he
    | ret v =>
      simp only [hd, Exec.bind, Exec.ret.injEq] at he
      have h1 := WellFormed_NewAmount_fst a.Trader v a.Trader.BaseCurrency.Code r he
      rw [hw.1] at h1
      exact h1

/-- `ToCurrency` keeps amounts well-formed. -/
theorem WellFormed_ToCurrency (t : Trader) (a r : Amount) (code : String) (e : Option String)
    (hw : Amount.WellFormed t a) (he : a.ToCurrency code = .ret (some r, e)) :
    Amount.WellFormed t r := by
  unfold Amount.ToCurrency at he
  by_cases hc : a.Currency.Is code = true
  · simp only [hc, if_true, Exec.ret.injEq, Prod.mk.injEq, Option.some.injEq] at he
    rw [← he.1]
    exact hw
  · simp only [hc, Bool.false_eq_true, if_false] at he
    cases hb : a.BaseCurrencyAmount with
    | panic m => simp [hb, Exec.bind] at he
    | ret b? =>
      cases b? with
      | none => simp [hb, Exec.bind] at he
      | some b =>
        have hwb := WellFormed_BaseCurrencyAmount t a b hw hb
        simp only [hb, Exec.bind] at he
        by_cases hbc : b.Currency.Is code = true
        · simp only [hbc, if_true, Exec.ret.injEq, Prod.mk.injEq, Option.some.injEq] at he
          rw [← he.1]
          exact hwb
        · simp only [hbc, Bool.false_eq_true, if_false] at he
          rcases Find_cases a.Trader.Currencies code with ⟨c, hfc, _, _⟩ | ⟨e1, hfe, _⟩
          · simp only [hfc] at he
            cases hm : b.Value.Mul c.Value with
            | panic m => simp [hm, Exec.bind] at he
            | ret v =>
              simp only [hm, Exec.bind, Exec.ret.injEq] at he
              have h1 := WellFormed_NewAmount_fst a.Trader v code r (by rw [he])
              rw [hw.1] at h1
              exact h1
          · simp [hfe] at he

/-- The closing statements of the arithmetic methods return well-formed amounts. -/
theorem WellFormed_inReceiverCurrency (t : Trader) (a r : Amount) (c : Decimal)
    (e : Option String) (ht : a.Trader = t)
    (he : a.inReceiverCurrency c = .ret (some r, e)) : Amount.WellFormed t r := by
  unfold Amount.inReceiverCurrency at he
  cases hn : (a.Trader.NewAmount c a.Trader.BaseCurrency.Code).1 with
  | none => simp [hn] at he
  | some n =>
    simp only [hn] at he
    have hwn := WellFormed_NewAmount_fst a.Trader c a.Trader.BaseCurrency.Code n hn
    rw [ht] at hwn
    exact WellFormed_ToCurrency t n r a.Currency.Code e hwn he

/-- `Add`, `Sub`, `Mul` and `Div` return well-formed amounts. -/
theorem WellFormed_arith (t : Trader) (a b r : Amount) (e : Option String)
    (ht : a.Trader = t) :
    (a.Add b = .ret (some r, e) → Amount.WellFormed t r) ∧
    (a.Sub b = .ret (some r, e) → Amount.WellFormed t r) ∧
    (a.Mul b = .ret (some r, e) → Amount.WellFormed t r) ∧
    (a.Div b = .ret (some r, e) → Amount.WellFormed t r) := by
  unfold Amount.Add Amount.Sub Amount.Mul Amount.Div
  by_cases hc : a.Trader.BaseCurrency.Code ≠ b.Trader.BaseCurrency.Code
  · simp [hc]
  · simp only [hc, if_false]
    cases hx : a.BaseCurrencyValue with
    | panic m => simp [Exec.bind]
    | ret x =>
      cases hy : b.BaseCurrencyValue with
      | panic m => simp [Exec.bind]
      | ret y =>
        simp only [Exec.bind]
        refine ⟨WellFormed_inReceiverCurrency t a r _ e ht,
          WellFormed_inReceiverCurrency t a r _ e ht, ?_, ?_⟩
        · cases hq : x.Mul y with
          | panic m => simp
          | ret q => exact WellFormed_inReceiverCurrency t a r _ e ht
        · cases hq : x.Div y with
          | panic m => simp
          | ret q => exact WellFormed_inReceiverCurrency t a r _ e ht

end trader

namespace trader

/-- C21: let `a` be made by `NewAmount` on a context `t` whose base code resolves in its
registry.  Then `a` is well-formed with respect to `t`, and so is every amount that
`BaseCurrencyAmount`, `ToCurrency`, `Add`, `Sub`, `Mul` or `Div` returns on `a`, with any
code and with any operand `b`, of whatever context: its context is `t` and its currency is
an entry of the registry of `t`, the one `Find` returns for its code.  The last conjunct
shows that amounts are returned: with an operand of the same base code and positive rates,
the two base-currency values `x` and `y` are computed, and each of `Add`, `Sub` and `Mul`
returns a well-formed amount and no error as soon as the decimal products it computes have
an exponent that is an `int32` (`isInt32`, `fits`). -/
theorem C21_well_formed_results (t : Trader) (d : Decimal) (code : String) (a : Amount)
    (hbase : (t.Currencies.Find t.BaseCurrency.Code).2 = none)
    (ha : t.NewAmount d code = (some a, none)) :
    Amount.WellFormed t a ∧
    (∀ r, a.BaseCurrencyAmount = .ret (some r) → Amount.WellFormed t r) ∧
    (∀ code1 r e, a.ToCurrency code1 = .ret (some r, e) → Amount.WellFormed t r) ∧
    (∀ b r e, a.Add b = .ret (some r, e) → Amount.WellFormed t r) ∧
    (∀ b r e, a.Sub b = .ret (some r, e) → Amount.WellFormed t r) ∧
    (∀ b r e, a.Mul b = .ret (some r, e) → Amount.WellFormed t r) ∧
    (∀ b r e, a.Div b = .ret (some r, e) → Amount.WellFormed t r) ∧
    (∀ b, a.Trader.BaseCurrency.Code = b.Trader.BaseCurrency.Code →
      0 < a.Currency.Value.value → 0 < b.Currency.Value.value →
      ∃ x y, a.BaseCurrencyValue = .ret x ∧ b.BaseCurrencyValue = .ret y ∧
        (a.fits (x.Add y) → ∃ r, a.Add b = .ret (some r, none) ∧ Amount.WellFormed t r) ∧
        (a.fits (x.Sub y) → ∃ r, a.Sub b = .ret (some r, none) ∧ Amount.WellFormed t r) ∧
        (isInt32 (x.exp + y.exp) → a.fits (x.product y) →
          ∃ r, a.Mul b = .ret (some r, none) ∧ Amount.WellFormed t r)) := by
  have hw := WellFormed_of_NewAmount t d code a ha
  refine ⟨hw, fun r => WellFormed_BaseCurrencyAmount t a r hw,
    fun code1 r e => WellFormed_ToCurrency t a r code1 e hw,
    fun b r e => (WellFormed_arith t a b r e hw.1).1,
    fun b r e => (WellFormed_arith t a b r e hw.1).2.1,
    fun b r e => (WellFormed_arith t a b r e hw.1).2.2.1,
    fun b r e => (WellFormed_arith t a b r e hw.1).2.2.2, ?_⟩
  intro b hsame hra hrb
  obtain ⟨x, hx⟩ := Amount.BaseCurrencyValue_ret a hra.ne'
  obtain ⟨y, hy⟩ := Amount.BaseCurrencyValue_ret b hrb.ne'
  obtain ⟨h1, h2, h3, _⟩ := arith_of_values t d code a b hbase ha hsame hx hy
  exact ⟨x, y, hx, hy,
    fun hf => ⟨_, h1 hf, (WellFormed_arith t a b _ none hw.1).1 (h1 hf)⟩,
    fun hf => ⟨_, h2 hf, (WellFormed_arith t a b _ none hw.1).2.1 (h2 hf)⟩,
    fun hi hf => ⟨_, h3 hi hf, (WellFormed_arith t a b _ none hw.1).2.2.1 (h3 hi hf)⟩⟩

/-- C21 on the test contexts: 2.56 EUR of the first context plus 1 GBP of the third
context, which has the same base code, is 4.16 EUR, an amount of the first context in its
EUR entry. -/
theorem C21_well_formed_results_witness :
    ((testTrader.Currencies.Find testTrader.BaseCurrency.Code).2 = none ∧
      testTrader.NewAmount ⟨256, -2⟩ "eur" = (some (eur 256 (-2)), none) ∧
      (eur 256 (-2)).Trader.BaseCurrency.Code = (gbp 1 0).Trader.BaseCurrency.Code ∧
      testTrader ≠ testTrader3) ∧
    (eur 256 (-2)).Add (gbp 1 0) = .ret (some (eur 416000000000000000 (-17)), none) ∧
    Amount.WellFormed testTrader (eur 416000000000000000 (-17)) ∧
    (eur 416000000000000000 (-17)).Trader = testTrader ∧
    testTrader.Currencies.Find (eur 416000000000000000 (-17)).Currency.Code =
      (some (eur 416000000000000000 (-17)).Currency, none) := by
  have hadd : (eur 256 (-2)).Add (gbp 1 0) =
      .ret (some (eur 416000000000000000 (-17)), none) := by decide
  have hw := (C21_well_formed_results testTrader ⟨256, -2⟩ "eur" (eur 256 (-2))
    (by decide) (by decide)).2.2.2.1 (gbp 1 0) _ _ hadd
  exact ⟨⟨by decide, by decide, by decide, by decide⟩, hadd, hw, hw.1, hw.2.2⟩

/-! ## Exact commutativity of addition in one currency -/

/-- Decimal addition is commutative on the representation. -/
theorem Decimal_Add_comm (x y : Decimal) : x.Add y = y.Add x := by
  simp only [Decimal.Add, min_comm x.exp y.exp, add_comm (x.rescale _).value]

/-- The closing statements of the arithmetic methods look at the context and at the
currency of the receiver only. -/
theorem inReceiverCurrency_congr (a b : Amount) (c : Decimal)
    (ht : a.Trader = b.Trader) (hc : a.Currency = b.Currency) :
    a.inReceiverCurrency c = b.inReceiverCurrency c := by
  unfold Amount.inReceiverCurrency
  rw [ht, hc]

/-- The one panic of `BaseCurrencyValue` is that of a division by a zero rate. -/
theorem BaseCurrencyValue_panic (a : Amount) (m : String)
    (h : a.BaseCurrencyValue = .panic m) : m = "decimal division by 0" := by
  unfold Amount.BaseCurrencyValue at h
  split_ifs at h
  exact (Decimal.Div_panic _ _ _ h).2

/-- Two amounts of one context in one currency: the two orders of `Add` have the same
outcome, be it an amount or a panic. -/
theorem Add_comm_of_same (a b : Amount) (ht : a.Trader = b.Trader)
    (hc : a.Currency = b.Currency) : a.Add b = b.Add a := by
  unfold Amount.Add
  rw [ht]
  simp only [ne_eq, not_true_eq_false, if_false]
  cases hx : a.BaseCurrencyValue with
  | panic m =>
    cases hy : b.BaseCurrencyValue with
    | panic m1 =>
      rw [BaseCurrencyValue_panic a m hx, BaseCurrencyValue_panic b m1 hy]
      rfl
    | ret y => rfl
  | ret x =>
    cases hy : b.BaseCurrencyValue with
    | panic m1 => rfl
    | ret y =>
      simp only [Exec.bind]
      rw [Decimal_Add_comm y x]
      exact inReceiverCurrency_congr a b _ ht hc

/-- C22: let `a` and `b` be made by `NewAmount` on the same context, whose base code
resolves in its registry, in the same currency.  Then `a.Add b` and `b.Add a` have the same
outcome.  When the currency is the base currency or has a positive rate, the two
base-currency values `x` and `y` are computed; and when their sum can be expressed in the
currency (`fits`: it is the base currency, or the exponent of the product of the sum and
the rate is an `int32`, so that `Mul` returns this product), `a.Add b` and `b.Add a` both
succeed and return the same amount: the same decimal as value (coefficient and exponent,
not only the same number), the same currency, which is the currency of `a` and of `b`, and
the same context. -/
theorem C22_Add_comm_same_currency (t : Trader) (da db : Decimal) (ca cb : String)
    (a b : Amount)
    (hbase : (t.Currencies.Find t.BaseCurrency.Code).2 = none)
    (ha : t.NewAmount da ca = (some a, none))
    (hb : t.NewAmount db cb = (some b, none))
    (hcur : a.Currency = b.Currency) :
    a.Add b = b.Add a ∧
    (a.Currency.Is t.BaseCurrency.Code = true ∨ 0 < a.Currency.Value.value →
      ∃ x y, a.BaseCurrencyValue = .ret x ∧ b.BaseCurrencyValue = .ret y ∧
        (a.fits (x.Add y) →
          ∃ r, a.Add b = .ret (some r, none) ∧ b.Add a = .ret (some r, none) ∧
            r.Currency = a.Currency ∧ r.Currency = b.Currency ∧ r.Trader = t ∧
            r.Value = a.fromBase (x.Add y))) := by
  obtain ⟨_, hta, _⟩ := NewAmount_eq_some t da ca a ha
  obtain ⟨_, htb, _⟩ := NewAmount_eq_some t db cb b hb
  have hcomm : a.Add b = b.Add a := Add_comm_of_same a b (by rw [hta, htb]) hcur
  have hsame : a.Trader.BaseCurrency.Code = b.Trader.BaseCurrency.Code := by rw [hta, htb]
  refine ⟨hcomm, fun hr => ?_⟩
  have hret : ∀ c : Amount, c.Trader = t → c.Currency = a.Currency →
      ∃ x, c.BaseCurrencyValue = .ret x := by
    intro c hct hcc
    rcases hr with hbs | hpos
    · exact ⟨_, Amount.BaseCurrencyValue_base c (by rw [hct, hcc]; exact hbs)⟩
    · exact Amount.BaseCurrencyValue_ret c (by rw [hcc]; exact hpos.ne')
  obtain ⟨x, hx⟩ := hret a hta rfl
  obtain ⟨y, hy⟩ := hret b htb hcur.symm
  refine ⟨x, y, hx, hy, fun hfit => ?_⟩
  have h1 := (arith_of_values t da ca a b hbase ha hsame hx hy).1 hfit
  refine ⟨_, h1, ?_, rfl, hcur, rfl, rfl⟩
  rw [← hcomm]
  exact h1

/-- C22 on the test context: 2.56 EUR + 1.6 EUR and 1.6 EUR + 2.56 EUR are the same
amount, 4.16 EUR, with the same decimal as value. -/
theorem C22_Add_comm_same_currency_witness :
    ((testTrader.Currencies.Find testTrader.BaseCurrency.Code).2 = none ∧
      testTrader.NewAmount ⟨256, -2⟩ "eur" = (some (eur 256 (-2)), none) ∧
      testTrader.NewAmount ⟨16, -1⟩ "EUR" = (some (eur 16 (-1)), none) ∧
      (eur 256 (-2)).Currency = (eur 16 (-1)).Currency ∧
      0 < (eur 256 (-2)).Currency.Value.value) ∧
    (eur 256 (-2)).Add (eur 16 (-1)) = (eur 16 (-1)).Add (eur 256 (-2)) ∧
    (eur 256 (-2)).Add (eur 16 (-1)) = .ret (some (eur 416000000000000000 (-17)), none) ∧
    (eur 16 (-1)).Add (eur 256 (-2)) = .ret (some (eur 416000000000000000 (-17)), none) := by
  have h := C22_Add_comm_same_currency testTrader ⟨256, -2⟩ ⟨16, -1⟩ "eur" "EUR"
    (eur 256 (-2)) (eur 16 (-1)) (by decide) (by decide) (by decide) (by decide)
  refine ⟨⟨by decide, by decide, by decide, by decide, by decide⟩, h.1, ?_⟩
  obtain ⟨x, y, hx, hy, hsucc⟩ := h.2 (Or.inr (by decide))
  have hx1 : (eur 256 (-2)).BaseCurrencyValue = .ret ⟨32000000000000000, -16⟩ := by decide
  have hy1 : (eur 16 (-1)).BaseCurrencyValue = .ret ⟨20000000000000000, -16⟩ := by decide
  rw [hx1] at hx
  rw [hy1] at hy
  cases hx
  cases hy
  obtain ⟨r, h1, h2, _⟩ := hsucc (by decide)
  have hadd : (eur 256 (-2)).Add (eur 16 (-1)) =
      .ret (some (eur 416000000000000000 (-17)), none) := by decide
  rw [hadd] at h1
  simp only [Exec.ret.injEq, Prod.mk.injEq, Option.some.injEq, and_true] at h1
  subst h1
  exact ⟨hadd, h2⟩

end trader
